import Mathlib

/-!
# Verification development for the JSON repair pipeline

Shallow embedding of `src/json-validator.js` (class `JSONValidator`) and of the function
`removeDuplicates` of `src/remove_duplicates.js` (namespace `RemoveDuplicates`).

* A JavaScript string is modelled as `Text = List Char`, one element per character. The
  source tests characters only for equality with ASCII characters and for membership in
  the classes `\s` and `\w`, so nothing there depends on the encoding. The calls of
  `substring`, which count UTF-16 code units, return the code units themselves
  (`JS.substring`), and the files read and written are sequences of bytes, decoded and
  encoded as UTF-8 (`JS.utf8Decode`, `JS.utf8Encode`).
* The two ledgers `this.fixes` and `this.errors` are the fields of the structure
  `JSONValidator`; a method `m(content)` of the class becomes a function
  `JSONValidator.m self content : Text × JSONValidator` returning the new text and the
  validator with its ledgers after the call.
* Ledger entries are kept as structured records (`FixRecord`, `ErrorRecord`) carrying
  exactly the data interpolated into the message templates of the source.
* A `for` loop over the lines becomes a recursive function on the lines still to be read,
  with the loop index and the loop variables as arguments.
* Regular expressions of the source are modelled by explicit matchers; every matcher
  states the expression it stands for.
* Console output is not modelled, except the lines of `printSummary`.
-/

/-- A JavaScript string. -/
abbrev Text := List Char

namespace JS

/-- The characters matched by `\s`, which are also the characters removed by
`String.prototype.trim` (WhiteSpace and LineTerminator of ECMA-262). -/
def isWhiteSpace (c : Char) : Bool :=
  let n := c.toNat
  n == 9 || n == 10 || n == 11 || n == 12 || n == 13 || n == 32 || n == 0xA0 ||
  n == 0x1680 || (0x2000 ≤ n && n ≤ 0x200A) || n == 0x2028 || n == 0x2029 ||
  n == 0x202F || n == 0x205F || n == 0x3000 || n == 0xFEFF

/-- The characters matched by `\w`. -/
def isWordChar (c : Char) : Bool :=
  ('a' ≤ c && c ≤ 'z') || ('A' ≤ c && c ≤ 'Z') || ('0' ≤ c && c ≤ '9') || c == '_'

/-- The characters a `.` of a regular expression (without the `s` flag) refuses. -/
def isLineTerminator (c : Char) : Bool :=
  let n := c.toNat
  n == 10 || n == 13 || n == 0x2028 || n == 0x2029

/-- `content.split('\n')`: always at least one line. -/
def split : Text → List Text
  | [] => [[]]
  | c :: cs =>
    if c = '\n' then [] :: split cs
    else
      match split cs with
      | [] => [[c]]
      | l :: ls => (c :: l) :: ls

/-- `lines.join('\n')`. -/
def join : List Text → Text
  | [] => []
  | [l] => l
  | l :: l2 :: ls => l ++ '\n' :: join (l2 :: ls)

/-- `s.trimEnd()`. -/
def trimEnd (s : Text) : Text := (s.reverse.dropWhile isWhiteSpace).reverse

/-- `s.trim()`. -/
def trim (s : Text) : Text := trimEnd (s.dropWhile isWhiteSpace)

/-- `s.startsWith(p)`. -/
def startsWith (p s : Text) : Bool := p.isPrefixOf s

/-- `s.endsWith(p)`. -/
def endsWith (p s : Text) : Bool := p.reverse.isPrefixOf s.reverse

/-- `s.includes(p)`. -/
def includes (p : Text) : Text → Bool
  | [] => p.isEmpty
  | c :: cs => p.isPrefixOf (c :: cs) || includes p cs

/-- The trailing run of `\s` characters of a string. -/
def trailingSpace (s : Text) : Text := (s.reverse.takeWhile isWhiteSpace).reverse

/-- The UTF-16 code units of a character: one unit in the basic plane, otherwise a high and
a low surrogate. -/
def codeUnits (c : Char) : List Nat :=
  if c.toNat < 0x10000 then [c.toNat]
  else [0xD800 + (c.toNat - 0x10000) / 0x400, 0xDC00 + (c.toNat - 0x10000) % 0x400]

/-- The UTF-16 code units of a string, which are the elements a JavaScript string is made
of. -/
def utf16 : Text → List Nat
  | [] => []
  | c :: cs => codeUnits c ++ utf16 cs

/-- `s.substring(0, n)`: the first `n` code units of the string. The result can end with
the first half of a surrogate pair, so it is given by its code units. -/
def substring (s : Text) (n : Nat) : List Nat := (utf16 s).take n

/-- The state of the UTF-8 decoder inside a sequence of several bytes: the bits read so far,
the number of continuation bytes still expected, and the range allowed for the next one. -/
structure Utf8State where
  codePoint : Nat
  needed : Nat
  lower : Nat
  upper : Nat

/-- The decoder on a byte read outside a sequence: a character (U+FFFD for a byte that can
start no sequence), or the state after the first byte of a sequence. -/
def utf8Lead (b : Nat) : Char ⊕ Utf8State :=
  if b ≤ 0x7F then .inl (Char.ofNat b)
  else if 0xC2 ≤ b ∧ b ≤ 0xDF then
    .inr { codePoint := b - 0xC0, needed := 1, lower := 0x80, upper := 0xBF }
  else if 0xE0 ≤ b ∧ b ≤ 0xEF then
    .inr { codePoint := b - 0xE0, needed := 2,
           lower := if b = 0xE0 then 0xA0 else 0x80,
           upper := if b = 0xED then 0x9F else 0xBF }
  else if 0xF0 ≤ b ∧ b ≤ 0xF4 then
    .inr { codePoint := b - 0xF0, needed := 3,
           lower := if b = 0xF0 then 0x90 else 0x80,
           upper := if b = 0xF4 then 0x8F else 0xBF }
  else .inl (Char.ofNat 0xFFFD)

/-- The UTF-8 decoder of `fs.readFileSync(path, 'utf8')`. A byte that cannot continue the
sequence under way ends it: the bytes read so far give one U+FFFD and the byte is read
again outside a sequence; a sequence cut by the end of the input gives one U+FFFD. A
byte order mark is kept. -/
def utf8DecodeLoop : Option Utf8State → List Nat → Text
  | none, [] => []
  | some _, [] => [Char.ofNat 0xFFFD]
  | none, b :: bs =>
    match utf8Lead b with
    | .inl c => c :: utf8DecodeLoop none bs
    | .inr st => utf8DecodeLoop (some st) bs
  | some st, b :: bs =>
    if st.lower ≤ b ∧ b ≤ st.upper then
      if st.needed = 1 then
        Char.ofNat (st.codePoint * 64 + (b - 0x80)) :: utf8DecodeLoop none bs
      else
        utf8DecodeLoop
          (some { codePoint := st.codePoint * 64 + (b - 0x80), needed := st.needed - 1,
                  lower := 0x80, upper := 0xBF }) bs
    else
      match utf8Lead b with
      | .inl c => Char.ofNat 0xFFFD :: c :: utf8DecodeLoop none bs
      | .inr st' => Char.ofNat 0xFFFD :: utf8DecodeLoop (some st') bs

/-- The string read from a file holding the bytes `bytes`. -/
def utf8Decode (bytes : List Nat) : Text := utf8DecodeLoop none bytes

/-- The bytes of a character in UTF-8. -/
def utf8EncodeChar (c : Char) : List Nat :=
  if c.toNat < 0x80 then [c.toNat]
  else if c.toNat < 0x800 then [0xC0 + c.toNat / 64, 0x80 + c.toNat % 64]
  else if c.toNat < 0x10000 then
    [0xE0 + c.toNat / 4096, 0x80 + c.toNat / 64 % 64, 0x80 + c.toNat % 64]
  else
    [0xF0 + c.toNat / 262144, 0x80 + c.toNat / 4096 % 64, 0x80 + c.toNat / 64 % 64,
      0x80 + c.toNat % 64]

/-- The bytes `fs.writeFileSync(path, data)` writes for the string `data` (the default
encoding, UTF-8). -/
def utf8Encode : Text → List Nat
  | [] => []
  | c :: cs => utf8EncodeChar c ++ utf8Encode cs

/-- `s.match(/",\s*$/)` as a test. -/
def matchesQuoteCommaEnd (s : Text) : Bool := endsWith ['"', ','] (trimEnd s)

/-- `s.match(/"\s*$/)` as a test. -/
def matchesQuoteEnd (s : Text) : Bool := endsWith ['"'] (trimEnd s)

end JS

open JS

/-- An entry of `this.fixes`; each constructor is one message template of the source
and carries the values interpolated into it. -/
inductive FixRecord
  /-- Entry "Удалена лишняя ] на строке N". -/
  | removedBracket (line : Nat)
  /-- Entry "Удалена мусорная строка на N: "trimmed"". -/
  | removedJunk (line : Nat) (trimmedLine : Text)
  /-- Entry "Исправлено неправильное экранирование в N полях Content". -/
  | contentEscaping (fixCount : Nat)
  /-- Entry "Исправлено сломанное Content поле на строке N". -/
  | brokenContent (line : Nat)
  /-- Entry "Исправлена фраза с неэкранированными кавычками: N случаев". -/
  | phrase (count : Nat)
  /-- Entry "Экранированы кавычки в N HTML атрибутах в полях Content". -/
  | htmlAttributes (fixCount : Nat)
  /-- Entry "Исправлена непарная кавычка на строке N". -/
  | unpairedQuote (line : Nat)
  /-- Entry "Добавлена запятая после объекта на строке N". -/
  | commaAdded (line : Nat)
  deriving DecidableEq, Repr

/-- An entry of `this.errors`. -/
inductive ErrorRecord
  /-- Entry "Непарные кавычки на строке N: snippet...", snippet = `line.substring(0, 100)`. -/
  | unpairedQuotes (line : Nat) (snippet : List Nat)
  /-- Entry "Ошибка JSON структуры: message"; the message text is the one of the
  JavaScript engine and is not modelled. -/
  | jsonStructure
  deriving DecidableEq, Repr

/-- The state of an instance of the class: its two ledgers. -/
structure JSONValidator where
  errors : List ErrorRecord
  fixes : List FixRecord
  deriving DecidableEq, Repr

namespace JSONValidator

/-- The constructor: both ledgers empty. -/
def new : JSONValidator := { errors := [], fixes := [] }

/-- `this.fixes.push(f)`. -/
def pushFix (self : JSONValidator) (f : FixRecord) : JSONValidator :=
  { self with fixes := self.fixes ++ [f] }

/-- `this.errors.push(e)`. -/
def pushError (self : JSONValidator) (e : ErrorRecord) : JSONValidator :=
  { self with errors := self.errors ++ [e] }

/-! ### removeUnnecessaryBrackets (source lines 55-95) -/

/-- The inner loop over `j` (lines 69-83), run on the lines `lines[i+1 .. min(i+5, len) - 1]`;
the result is the value of `shouldRemove` after the loop. -/
def shouldRemove : List Text → Bool
  | [] => false
  | l :: window =>
    let nextLine := trim l
    if nextLine = [] then shouldRemove window
    else if startsWith ['{'] nextLine ∨ startsWith ['"', 'I', 'D', '"'] nextLine then true
    else if nextLine = [']'] ∨ nextLine = ['}'] then false
    else shouldRemove window

/-- The outer loop (lines 59-92) from index `i` on: the first list holds `lines[i ..]`. -/
def removeUnnecessaryBracketsLoop (self : JSONValidator) (i : Nat) :
    List Text → List Text → List Text × JSONValidator
  | [], fixedLines => (fixedLines, self)
  | line :: rest, fixedLines =>
    if trim line = [']'] ∧ shouldRemove (rest.take 4) then
      removeUnnecessaryBracketsLoop (self.pushFix (FixRecord.removedBracket (i + 1))) (i + 1) rest fixedLines
    else
      removeUnnecessaryBracketsLoop self (i + 1) rest (fixedLines ++ [line])

/-- Method `removeUnnecessaryBrackets(content)`. -/
def removeUnnecessaryBrackets (self : JSONValidator) (content : Text) : Text × JSONValidator :=
  let r := removeUnnecessaryBracketsLoop self 0 (split content) []
  (join r.1, r.2)

/-! ### removeJunkLines (source lines 100-121) -/

/-- The test of lines 109-112 on the trimmed line. -/
def isJunk (trimmedLine : Text) : Bool :=
  trimmedLine = "```json".toList ∨ trimmedLine = "Generated json".toList ∨
  trimmedLine = "```".toList ∨ trimmedLine = "json".toList

/-- The loop of lines 104-118 from index `i` on. -/
def removeJunkLinesLoop (self : JSONValidator) (i : Nat) :
    List Text → List Text → List Text × JSONValidator
  | [], fixedLines => (fixedLines, self)
  | line :: rest, fixedLines =>
    if isJunk (trim line) then
      removeJunkLinesLoop (self.pushFix (FixRecord.removedJunk (i + 1) (trim line))) (i + 1) rest fixedLines
    else
      removeJunkLinesLoop self (i + 1) rest (fixedLines ++ [line])

/-- Method `removeJunkLines(content)`. -/
def removeJunkLines (self : JSONValidator) (content : Text) : Text × JSONValidator :=
  let r := removeJunkLinesLoop self 0 (split content) []
  (join r.1, r.2)

/-! ### fixIncorrectContentEscaping (source lines 141-157) -/

/-- Length of a match of `/"Content":\s*\\"/` starting at the head of `s`, if there is one:
the key, the whole run of `\s` after it (`\\` is not in `\s`, so the run is maximal), then
a backslash and a quote. -/
def matchContentEscape (s : Text) : Option Nat :=
  if startsWith "\"Content\":".toList s then
    let rest := s.drop 10
    if startsWith ['\\', '"'] (rest.dropWhile isWhiteSpace) then
      some (10 + (rest.takeWhile isWhiteSpace).length + 2)
    else none
  else none

/-- The call `fixedContent.replace(/"Content":\s*\\"/g, ...)`: a scan from left to right;
`skip` is the number of characters of the current match still to be consumed. The result
is the new text and the number of calls of the callback (`fixCount`). -/
def replaceContentEscape : Nat → Text → Text × Nat
  | _, [] => ([], 0)
  | skip + 1, _ :: cs => replaceContentEscape skip cs
  | 0, c :: cs =>
    match matchContentEscape (c :: cs) with
    | some n =>
      let r := replaceContentEscape (n - 1) cs
      ("\"Content\": \"".toList ++ r.1, r.2 + 1)
    | none =>
      let r := replaceContentEscape 0 cs
      (c :: r.1, r.2)

/-- Method `fixIncorrectContentEscaping(content)`. -/
def fixIncorrectContentEscaping (self : JSONValidator) (content : Text) : Text × JSONValidator :=
  let r := replaceContentEscape 0 content
  let fixCount := r.2
  if fixCount > 0 then (r.1, self.pushFix (FixRecord.contentEscaping fixCount))
  else (r.1, self)

/-! ### fixBrokenMultilineContent (source lines 162-217) -/

/-- The call `contentBuffer.match(/^(\s*"Content":\s*")(.*?)(\s*)$/)`: the three groups
when the expression matches. Group 1 is the leading run of `\s`, the key, the run of `\s`
after it and a quote; the lazy group 2 is what follows up to the trailing run of `\s`
(group 3), and must hold no line terminator, which `.` refuses. -/
def contentMatch (contentBuffer : Text) : Option (Text × Text × Text) :=
  let lead := contentBuffer.takeWhile isWhiteSpace
  let r1 := contentBuffer.dropWhile isWhiteSpace
  if startsWith "\"Content\":".toList r1 then
    let r2 := r1.drop 10
    let gap := r2.takeWhile isWhiteSpace
    match r2.dropWhile isWhiteSpace with
    | '"' :: r3 =>
      let content := trimEnd r3
      if content.any isLineTerminator then none
      else some (lead ++ "\"Content\":".toList ++ gap ++ ['"'], content, trailingSpace r3)
    | _ => none
  else none

/-- The loop of lines 169-214 from index `i` on, with the loop variables
`fixedLines`, `inBrokenContent` and `contentBuffer`. -/
def fixBrokenMultilineContentLoop (self : JSONValidator) (i : Nat) :
    List Text → List Text → Bool → Text → List Text × JSONValidator
  | [], fixedLines, _, _ => (fixedLines, self)
  | line :: rest, fixedLines, inBrokenContent, contentBuffer =>
    let trimmedLine := trim line
    if includes "\"Content\":".toList trimmedLine ∧ ¬ matchesQuoteCommaEnd trimmedLine ∧
        ¬ matchesQuoteEnd trimmedLine ∧ includes ['<'] trimmedLine then
      fixBrokenMultilineContentLoop self (i + 1) rest fixedLines true line
    else if inBrokenContent then
      let contentBuffer := contentBuffer ++ ' ' :: trim line
      if includes "\"IMG\":".toList trimmedLine ∨ includes "\"ID\":".toList trimmedLine ∨
          startsWith ['}'] trimmedLine ∨ startsWith ['{'] trimmedLine then
        match contentMatch contentBuffer with
        | some (pre, content, _) =>
          fixBrokenMultilineContentLoop (self.pushFix (FixRecord.brokenContent (i + 1))) (i + 1) rest
            (fixedLines ++ [pre ++ content ++ ['"', ',']] ++ [line]) false []
        | none =>
          fixBrokenMultilineContentLoop self (i + 1) rest (fixedLines ++ [line]) false []
      else
        fixBrokenMultilineContentLoop self (i + 1) rest fixedLines inBrokenContent contentBuffer
    else
      fixBrokenMultilineContentLoop self (i + 1) rest (fixedLines ++ [line]) inBrokenContent contentBuffer

/-- Method `fixBrokenMultilineContent(content)`. -/
def fixBrokenMultilineContent (self : JSONValidator) (content : Text) : Text × JSONValidator :=
  let r := fixBrokenMultilineContentLoop self 0 (split content) [] false []
  (join r.1, r.2)

/-! ### fixQuotesInText (source lines 222-245) -/

/-- The source of the only expression of `specificFixes`: the phrase with its two quotes. -/
def phrasePattern : Text := "\"don't ask, don't tell\"".toList

/-- The replacement string of that entry. -/
def phraseReplacement : Text := "\\\"don't ask, don't tell\\\"".toList

/-- The calls `fixedContent.match(pattern)` and `fixedContent.replace(pattern, replacement)`
for a literal global pattern: the text after replacement and the number of matches, found
from left to right without overlap. -/
def replaceLiteral (pattern replacement : Text) : Nat → Text → Text × Nat
  | _, [] => ([], 0)
  | skip + 1, _ :: cs => replaceLiteral pattern replacement skip cs
  | 0, c :: cs =>
    if startsWith pattern (c :: cs) then
      let r := replaceLiteral pattern replacement (pattern.length - 1) cs
      (replacement ++ r.1, r.2 + 1)
    else
      let r := replaceLiteral pattern replacement 0 cs
      (c :: r.1, r.2)

/-- Method `fixQuotesInText(content)`. -/
def fixQuotesInText (self : JSONValidator) (content : Text) : Text × JSONValidator :=
  let r := replaceLiteral phrasePattern phraseReplacement 0 content
  if r.2 > 0 then (r.1, self.pushFix (FixRecord.phrase r.2))
  else (content, self)

/-! ### fixHTMLQuotesInContent (source lines 250-268) -/

/-- A match of `(\w+)="([^"]*)"` starting at the head of `s`: the two groups. `\w+` takes
the whole run of word characters (it must be followed by `=`), `[^"]*` everything up to the
next quote. -/
def matchAttribute (s : Text) : Option (Text × Text) :=
  let attrName := s.takeWhile isWordChar
  if attrName = [] then none
  else
    match s.dropWhile isWordChar with
    | '=' :: '"' :: r =>
      match r.dropWhile (fun c => c != '"') with
      | '"' :: _ => some (attrName, r.takeWhile (fun c => c != '"'))
      | _ => none
    | _ => none

/-- The call `fixedContent.replace(/(?<!\\)(\w+)="([^"]*)"/g, ...)`: a scan from left to
right; `prev` is the character of the input before the current position (for the
lookbehind), `skip` the number of characters of the current match still to be consumed.
The result is the new text and the number of calls of the callback (`fixCount`). -/
def replaceAttributes : Option Char → Nat → Text → Text × Nat
  | _, _, [] => ([], 0)
  | _, skip + 1, c :: cs => replaceAttributes (some c) skip cs
  | prev, 0, c :: cs =>
    match (if prev = some '\\' then none else matchAttribute (c :: cs)) with
    | some (attrName, attrValue) =>
      let r := replaceAttributes (some c) (attrName.length + attrValue.length + 2) cs
      (attrName ++ ['=', '\\', '"'] ++ attrValue ++ ['\\', '"'] ++ r.1, r.2 + 1)
    | none =>
      let r := replaceAttributes (some c) 0 cs
      (c :: r.1, r.2)

/-- Method `fixHTMLQuotesInContent(content)`. -/
def fixHTMLQuotesInContent (self : JSONValidator) (content : Text) : Text × JSONValidator :=
  let r := replaceAttributes none 0 content
  let fixCount := r.2
  if fixCount > 0 then (r.1, self.pushFix (FixRecord.htmlAttributes fixCount))
  else (r.1, self)

/-! ### countUnescapedQuotes, fixContentLineQuotes, fixUnpairedQuotes, fixQuotes
(source lines 126-136 and 273-368) -/

/-- The loop of `countUnescapedQuotes` (lines 319-335) with its variables `count` and
`escaped`. -/
def countUnescapedQuotesLoop : Text → Nat → Bool → Nat
  | [], count, _ => count
  | char :: rest, count, escaped =>
    if escaped then countUnescapedQuotesLoop rest count false
    else if char = '\\' then countUnescapedQuotesLoop rest count true
    else if char = '"' then countUnescapedQuotesLoop rest (count + 1) false
    else countUnescapedQuotesLoop rest count false

/-- Method `countUnescapedQuotes(line)`. -/
def countUnescapedQuotes (line : Text) : Nat := countUnescapedQuotesLoop line 0 false

/-- The backward loop of lines 353-361; the argument `n` stands for `i + 1`, so that the
loop starts at `n = fixed.length` and ends when `n = 0`. -/
def escapeLastQuoteLoop (fixed : Text) : Nat → Text
  | 0 => fixed
  | i + 1 =>
    if fixed[i]? = some '"' ∧ (i = 0 ∨ fixed[i - 1]? ≠ some '\\') then
      if i < fixed.length - 1 then fixed.take i ++ ['\\', '"'] ++ fixed.drop (i + 1)
      else escapeLastQuoteLoop fixed i
    else escapeLastQuoteLoop fixed i

/-- Method `fixContentLineQuotes(line)`. -/
def fixContentLineQuotes (line : Text) : Text :=
  if includes "\"Content\":".toList line ∧ ¬ matchesQuoteCommaEnd line then
    if ¬ endsWith ['"', ','] line ∧ ¬ endsWith ['"', '}'] line then
      escapeLastQuoteLoop line line.length
    else line
  else line

/-- The loop of lines 278-303 from index `i` on. -/
def fixUnpairedQuotesLoop (self : JSONValidator) (i : Nat) :
    List Text → List Text → List Text × JSONValidator
  | [], fixedLines => (fixedLines, self)
  | originalLine :: rest, fixedLines =>
    let quotes := countUnescapedQuotes originalLine
    if quotes % 2 ≠ 0 then
      if includes "\"Content\":".toList originalLine then
        let line := fixContentLineQuotes originalLine
        if line ≠ originalLine then
          fixUnpairedQuotesLoop (self.pushFix (FixRecord.unpairedQuote (i + 1))) (i + 1) rest
            (fixedLines ++ [line])
        else
          fixUnpairedQuotesLoop (self.pushError (ErrorRecord.unpairedQuotes (i + 1) (substring line 100)))
            (i + 1) rest (fixedLines ++ [line])
      else
        fixUnpairedQuotesLoop
          (self.pushError (ErrorRecord.unpairedQuotes (i + 1) (substring originalLine 100)))
          (i + 1) rest (fixedLines ++ [originalLine])
    else
      fixUnpairedQuotesLoop self (i + 1) rest (fixedLines ++ [originalLine])

/-- Method `fixUnpairedQuotes(content)`. -/
def fixUnpairedQuotes (self : JSONValidator) (content : Text) : Text × JSONValidator :=
  let r := fixUnpairedQuotesLoop self 0 (split content) []
  (join r.1, r.2)

/-- Method `fixQuotes(content)`. -/
def fixQuotes (self : JSONValidator) (content : Text) : Text × JSONValidator :=
  let r := fixHTMLQuotesInContent self content
  fixUnpairedQuotes r.2 r.1

/-! ### fixMissingCommas (source lines 474-532) -/

/-- The inner loop over `j` (lines 488-510), run on the lines `lines[i+1 ..]`; the result is
the value of `nextObjectFound` after the loop. -/
def nextObjectFound : List Text → Bool
  | [] => false
  | l :: rest =>
    let nextLine := trim l
    if nextLine = [] then nextObjectFound rest
    else if startsWith ['{'] nextLine then true
    else if startsWith [']'] nextLine ∨ startsWith ['}'] nextLine then false
    else if includes [':'] nextLine ∧ ¬ startsWith ['{'] nextLine then false
    else nextObjectFound rest

/-- The call `line.replace(/}(\s*)$/, '},$1')`: the expression matches at the brace that
is followed by nothing but `\s` up to the end of the line, when there is one. -/
def insertComma (line : Text) : Text :=
  if endsWith ['}'] (trimEnd line) then trimEnd line ++ [','] ++ trailingSpace line
  else line

/-- The loop of lines 479-525 from index `i` on. -/
def fixMissingCommasLoop (self : JSONValidator) (i : Nat) :
    List Text → List Text → List Text × JSONValidator
  | [], fixedLines => (fixedLines, self)
  | line :: rest, fixedLines =>
    let trimmedLine := trim line
    if endsWith ['}'] trimmedLine ∧ ¬ endsWith [','] trimmedLine ∧
        ¬ endsWith ['}', ','] trimmedLine then
      if nextObjectFound rest then
        fixMissingCommasLoop (self.pushFix (FixRecord.commaAdded (i + 1))) (i + 1) rest
          (fixedLines ++ [insertComma line])
      else
        fixMissingCommasLoop self (i + 1) rest (fixedLines ++ [line])
    else
      fixMissingCommasLoop self (i + 1) rest (fixedLines ++ [line])

/-- Method `fixMissingCommas(content)`. -/
def fixMissingCommas (self : JSONValidator) (content : Text) : Text × JSONValidator :=
  let r := fixMissingCommasLoop self 0 (split content) []
  (join r.1, r.2)

end JSONValidator

/-! ### JSON.parse

`JSON.parse` is a built-in of the JavaScript platform, not code of the repository. The
pipeline uses only whether it throws; it is modelled by a recogniser of the JSON grammar
(ECMA-404, as required by ECMA-262 for `JSON.parse`). -/

namespace JSON

/-- JSON white space. -/
def isSpace (c : Char) : Bool := c == ' ' || c == '\t' || c == '\n' || c == '\r'

/-- A decimal digit. -/
def isDigit (c : Char) : Bool := '0' ≤ c && c ≤ '9'

/-- A hexadecimal digit. -/
def isHex (c : Char) : Bool :=
  ('0' ≤ c && c ≤ '9') || ('a' ≤ c && c ≤ 'f') || ('A' ≤ c && c ≤ 'F')

/-- What follows a JSON string whose opening quote has been read. -/
def stringTail : Text → Option Text
  | [] => none
  | '"' :: rest => some rest
  | '\\' :: 'u' :: a :: b :: c :: d :: rest =>
    if isHex a && isHex b && isHex c && isHex d then stringTail rest else none
  | '\\' :: e :: rest =>
    if e = '"' ∨ e = '\\' ∨ e = '/' ∨ e = 'b' ∨ e = 'f' ∨ e = 'n' ∨ e = 'r' ∨ e = 't' then
      stringTail rest
    else none
  | c :: rest => if c.toNat < 0x20 then none else stringTail rest

/-- What follows the integer part of a number: an optional fraction and exponent. -/
def fractionExponentTail (s : Text) : Option Text :=
  let afterFraction : Option Text :=
    match s with
    | '.' :: d :: r => if isDigit d then some (r.dropWhile isDigit) else none
    | ['.'] => none
    | _ => some s
  match afterFraction with
  | none => none
  | some [] => some []
  | some (e :: r) =>
    if e = 'e' ∨ e = 'E' then
      let r1 := match r with
        | '+' :: t => t
        | '-' :: t => t
        | _ => r
      match r1 with
      | d :: t => if isDigit d then some (t.dropWhile isDigit) else none
      | [] => none
    else some (e :: r)

/-- What follows a JSON number at the head of `s`. -/
def numberTail (s : Text) : Option Text :=
  let s1 := match s with
    | '-' :: r => r
    | _ => s
  match s1 with
  | [] => none
  | d :: r =>
    if d = '0' then fractionExponentTail r
    else if '1' ≤ d ∧ d ≤ '9' then fractionExponentTail (r.dropWhile isDigit)
    else none

/-- What the recursive recogniser is reading. -/
inductive Goal
  /-- A value. -/
  | value
  /-- The elements of an array up to its closing bracket, at least one. -/
  | elements
  /-- The members of an object up to its closing brace, at least one. -/
  | members

/-- Recursive descent with a bound on the number of nested calls; the result is what
follows the item read. -/
def read : Nat → Goal → Text → Option Text
  | 0, _, _ => none
  | fuel + 1, Goal.value, s =>
    match s.dropWhile isSpace with
    | '"' :: r => stringTail r
    | '[' :: r =>
      match r.dropWhile isSpace with
      | ']' :: r1 => some r1
      | r1 => read fuel Goal.elements r1
    | '{' :: r =>
      match r.dropWhile isSpace with
      | '}' :: r1 => some r1
      | r1 => read fuel Goal.members r1
    | 't' :: 'r' :: 'u' :: 'e' :: r => some r
    | 'f' :: 'a' :: 'l' :: 's' :: 'e' :: r => some r
    | 'n' :: 'u' :: 'l' :: 'l' :: r => some r
    | r => numberTail r
  | fuel + 1, Goal.elements, s =>
    match read fuel Goal.value s with
    | none => none
    | some r =>
      match r.dropWhile isSpace with
      | ',' :: r1 => read fuel Goal.elements r1
      | ']' :: r1 => some r1
      | _ => none
  | fuel + 1, Goal.members, s =>
    match s.dropWhile isSpace with
    | '"' :: r =>
      match stringTail r with
      | none => none
      | some r1 =>
        match r1.dropWhile isSpace with
        | ':' :: r2 =>
          match read fuel Goal.value r2 with
          | none => none
          | some r3 =>
            match r3.dropWhile isSpace with
            | ',' :: r4 => read fuel Goal.members r4
            | '}' :: r4 => some r4
            | _ => none
        | _ => none
    | _ => none

/-- Whether `JSON.parse(content)` returns without throwing: one value, then only white
space. The bound on nested calls is twice the length of the text plus two: every nested
call of `read`, but the one from elements to their first value, follows a character read. -/
def parses (content : Text) : Bool :=
  match read (2 * content.length + 2) Goal.value content with
  | some r => r.dropWhile isSpace = []
  | none => false

end JSON

namespace JSONValidator

/-! ### validateJSONStructure and the transform sequence of validateAndFix
(source lines 537-548 and 24-33) -/

/-- Method `validateJSONStructure(content)`. -/
def validateJSONStructure (self : JSONValidator) (content : Text) : Text × JSONValidator :=
  if JSON.parses content then (content, self)
  else (content, self.pushError ErrorRecord.jsonStructure)

/-- The transform sequence of `validateAndFix` (lines 25-33, "Применяем все исправления"). -/
def applyFixes (self : JSONValidator) (content : Text) : Text × JSONValidator :=
  let r := removeUnnecessaryBrackets self content
  let r := removeJunkLines r.2 r.1
  let r := fixIncorrectContentEscaping r.2 r.1
  let r := fixBrokenMultilineContent r.2 r.1
  let r := fixQuotesInText r.2 r.1
  let r := fixQuotes r.2 r.1
  let r := fixMissingCommas r.2 r.1
  validateJSONStructure r.2 r.1

/-! ### printSummary (source lines 553-594) -/

/-- A line emitted by `printSummary`; each constructor is one `console.log` template of
the method and carries the values interpolated into it. -/
inductive SummaryLine
  /-- Line "📊 СВОДКА ИСПРАВЛЕНИЙ:". -/
  | title
  /-- Line "✅ Применено исправлений: N". -/
  | fixesApplied (count : Nat)
  /-- Line "❌ Найдено ошибок: N". -/
  | errorsFound (count : Nat)
  /-- Line "🔧 Исправления:". -/
  | fixesHeading
  /-- Line "  N. fix". -/
  | fixItem (number : Nat) (fix : FixRecord)
  /-- Line "  ... и еще N исправлений". -/
  | moreFixes (count : Nat)
  /-- Line "⚠️  Ошибки (показаны первые 10):". -/
  | errorsHeading
  /-- Line "  N. error". -/
  | errorItem (number : Nat) (error : ErrorRecord)
  /-- Line "  ... и еще N ошибок". -/
  | moreErrors (count : Nat)
  /-- Line "💡 РЕКОМЕНДАЦИИ:". -/
  | recommendations
  /-- Hint "• Основная проблема: неэкранированные кавычки в HTML контенте". -/
  | hintMainProblem
  /-- Hint "• Для исправления кавычек потребуется ручная правка или более сложный алгоритм". -/
  | hintManualEdit
  /-- Hint "• Рекомендуется экранировать кавычки в HTML: " → \"". -/
  | hintEscapeQuotes
  /-- Hint "• Файл частично исправлен - удалены лишние элементы". -/
  | hintPartiallyFixed
  /-- Hint "• Создан бэкап оригинального файла". -/
  | hintBackupCreated
  /-- Hint "• JSON файл корректен! 🎉". -/
  | hintCorrect
  deriving DecidableEq, Repr

/-- Method `printSummary()`: the lines it emits, in order. -/
def printSummary (self : JSONValidator) : List SummaryLine :=
  [SummaryLine.title, SummaryLine.fixesApplied self.fixes.length,
    SummaryLine.errorsFound self.errors.length] ++
  (if self.fixes.length > 0 then
    [SummaryLine.fixesHeading] ++
    ((self.fixes.take 10).enum.map (fun p => SummaryLine.fixItem (p.1 + 1) p.2)) ++
    (if self.fixes.length > 10 then [SummaryLine.moreFixes (self.fixes.length - 10)] else [])
   else []) ++
  (if self.errors.length > 0 then
    [SummaryLine.errorsHeading] ++
    ((self.errors.take 10).enum.map (fun p => SummaryLine.errorItem (p.1 + 1) p.2)) ++
    (if self.errors.length > 10 then [SummaryLine.moreErrors (self.errors.length - 10)] else [])
   else []) ++
  [SummaryLine.recommendations] ++
  (if self.errors.length > 0 then
    [SummaryLine.hintMainProblem, SummaryLine.hintManualEdit, SummaryLine.hintEscapeQuotes]
   else []) ++
  (if self.fixes.length > 0 then
    [SummaryLine.hintPartiallyFixed, SummaryLine.hintBackupCreated]
   else []) ++
  (if self.errors.length = 0 ∧ self.fixes.length = 0 then [SummaryLine.hintCorrect] else [])

/-! ### validateAndFix (source lines 13-50) -/

/-- The file system as far as the program uses it: whether something exists at a path
(`fs.existsSync`), the bytes `fs.readFileSync` reads there (`none` when the call throws,
as on a directory), whether `fs.writeFileSync` can write there (it throws otherwise), and
the writes made so far, in order. -/
structure FileSystem where
  present : Text → Bool
  content : Text → Option (List Nat)
  writable : Text → Bool
  written : List (Text × List Nat)

/-- `fs.writeFileSync(path, data)` for a string `data`: the file system after the call, or
`none` when the call throws. -/
def FileSystem.writeFileSync (fs : FileSystem) (path : Text) (data : Text) :
    Option FileSystem :=
  if fs.writable path then
    some { present := fun q => if q = path then true else fs.present q,
           content := fun q => if q = path then some (utf8Encode data) else fs.content q,
           writable := fs.writable,
           written := fs.written ++ [(path, utf8Encode data)] }
  else none

/-- Method `validateAndFix(filePath)`: the value returned (`none` when an exception leaves
the method, which has no `try`), the file system and the validator after the call (the
lines printed are left out). -/
def validateAndFix (self : JSONValidator) (fs : FileSystem) (filePath : Text) :
    Option Bool × FileSystem × JSONValidator :=
  if ¬ fs.present filePath then (some false, fs, self)
  else
    match fs.content filePath with
    | none => (none, fs, self)
    | some bytes =>
      let originalContent := utf8Decode bytes
      let r := applyFixes self originalContent
      if r.1 ≠ originalContent then
        let backupPath := filePath ++ ".backup".toList
        match fs.writeFileSync backupPath originalContent with
        | none => (none, fs, r.2)
        | some fs1 =>
          match fs1.writeFileSync filePath r.1 with
          | none => (none, fs1, r.2)
          | some fs2 => (some true, fs2, r.2)
      else (some true, fs, r.2)

end JSONValidator

/-! ## Auxiliary definitions used in statements -/

namespace JSONValidator

/-- The ledgers of `self` followed by the entries of `d`. -/
def extend (self d : JSONValidator) : JSONValidator :=
  { errors := self.errors ++ d.errors, fixes := self.fixes ++ d.fixes }

/-- The text a method returns, as a function of the text it is given (the ledgers have no
influence on it, see the frame theorems below). -/
def textOf (stage : JSONValidator → Text → Text × JSONValidator) (content : Text) : Text :=
  (stage new content).1

/-- The composition of the eight components in the order in which the specification
numbers them (section 2: LineJunkFilter first, then StrayBracketFilter, and so on). -/
def specOrderText (content : Text) : Text :=
  textOf validateJSONStructure (textOf fixMissingCommas (textOf fixQuotes
    (textOf fixQuotesInText (textOf fixBrokenMultilineContent
      (textOf fixIncorrectContentEscaping (textOf removeUnnecessaryBrackets
        (textOf removeJunkLines content)))))))

/-- The line at position `pre.length` of the input, whose lines are `pre`, that line and
`rest`, is absent from the output of `removeUnnecessaryBrackets`: the output is made of
lines kept from `pre` followed by lines kept from `rest`, and the Fix records appended
hold exactly one record citing the line (by its 1-based index). -/
def BracketLineRemoved (self : JSONValidator) (content : Text) (pre rest : List Text) : Prop :=
  ∃ (keptBefore keptAfter : List Text) (appended : List FixRecord),
    keptBefore.Sublist pre ∧ keptAfter.Sublist rest ∧
    (removeUnnecessaryBrackets self content).1 = join (keptBefore ++ keptAfter) ∧
    (removeUnnecessaryBrackets self content).2.fixes = self.fixes ++ appended ∧
    appended.count (FixRecord.removedBracket (pre.length + 1)) = 1

/-- The line `line` at position `pre.length` of the input is kept, unchanged, in the
output of `removeUnnecessaryBrackets`, between the lines kept from `pre` and those kept
from `rest`, and no Fix record appended cites it. -/
def BracketLineKept (self : JSONValidator) (content : Text) (pre : List Text) (line : Text)
    (rest : List Text) : Prop :=
  ∃ (keptBefore keptAfter : List Text) (appended : List FixRecord),
    keptBefore.Sublist pre ∧ keptAfter.Sublist rest ∧
    (removeUnnecessaryBrackets self content).1 = join (keptBefore ++ line :: keptAfter) ∧
    (removeUnnecessaryBrackets self content).2.fixes = self.fixes ++ appended ∧
    FixRecord.removedBracket (pre.length + 1) ∉ appended

/-- An opening line for the bracket filter: its trimmed content starts with an opening
brace or with the key `"ID"`. -/
def IsOpener (l : Text) : Prop :=
  startsWith ['{'] (trim l) = true ∨ startsWith ['"', 'I', 'D', '"'] (trim l) = true

/-- A closing line for the bracket filter: its trimmed content is exactly a closing
bracket or a closing brace. -/
def IsCloser (l : Text) : Prop := trim l = [']'] ∨ trim l = ['}']

instance (l : Text) : Decidable (IsOpener l) := by
  unfold IsOpener
  infer_instance

instance (l : Text) : Decidable (IsCloser l) := by
  unfold IsCloser
  infer_instance

/-- Among the first four lines of `rest` there is an opening line with no closing line
before it. -/
def OpenerWithinWindow (rest : List Text) : Prop :=
  ∃ (j : Nat) (l : Text), j < 4 ∧ rest[j]? = some l ∧ IsOpener l ∧
    ∀ (j' : Nat) (l' : Text), j' < j → rest[j']? = some l' → ¬ IsCloser l'

/-- The line `line` at position `pre.length` of the input ends, up to trailing white
space, with a closing brace, and the line at the same position of the output of
`fixMissingCommas` is that line with one comma inserted immediately after that brace; the
Fix records appended hold exactly one record citing the line (by its 1-based index). -/
def CommaInsertedAt (self : JSONValidator) (content : Text) (pre : List Text) (line : Text) :
    Prop :=
  ∃ (body trail : Text) (appended : List FixRecord),
    line = body ++ '}' :: trail ∧ (∀ c ∈ trail, isWhiteSpace c = true) ∧
    (split (fixMissingCommas self content).1)[pre.length]? = some (body ++ '}' :: ',' :: trail) ∧
    (fixMissingCommas self content).2.fixes = self.fixes ++ appended ∧
    appended.count (FixRecord.commaAdded (pre.length + 1)) = 1

/-- The line at position `pre.length` of the output of `fixMissingCommas` is the line
`line` of the input, and no Fix record appended cites it. -/
def CommaLineUnchanged (self : JSONValidator) (content : Text) (pre : List Text) (line : Text) :
    Prop :=
  ∃ appended : List FixRecord,
    (split (fixMissingCommas self content).1)[pre.length]? = some line ∧
    (fixMissingCommas self content).2.fixes = self.fixes ++ appended ∧
    FixRecord.commaAdded (pre.length + 1) ∉ appended

/-- The test of lines 174-176 of `fixBrokenMultilineContent`: the line makes the loop
enter the broken state. -/
def EntersBrokenState (line : Text) : Prop :=
  includes "\"Content\":".toList (trim line) = true ∧
    ¬ matchesQuoteCommaEnd (trim line) = true ∧
    ¬ matchesQuoteEnd (trim line) = true ∧ includes ['<'] (trim line) = true

instance (line : Text) : Decidable (EntersBrokenState line) := by
  unfold EntersBrokenState
  infer_instance

/-- The methods called by `validateAndFix`, in the order of the calls (lines 25-33). -/
def pipelineStages : List (JSONValidator → Text → Text × JSONValidator) :=
  [removeUnnecessaryBrackets, removeJunkLines, fixIncorrectContentEscaping,
    fixBrokenMultilineContent, fixQuotesInText, fixQuotes, fixMissingCommas,
    validateJSONStructure]

/-- Running methods one after the other, each on the text and the ledgers left by the one
before. -/
def runStages (stages : List (JSONValidator → Text → Text × JSONValidator))
    (self : JSONValidator) (content : Text) : Text × JSONValidator :=
  stages.foldl (fun r stage => stage r.2 r.1) (content, self)

/-- The six methods of the transform sequence that precede the comma inserter. -/
def firstSixStages : List (JSONValidator → Text → Text × JSONValidator) :=
  pipelineStages.take 6

/-- The number of backslashes at the end of a text. -/
def trailingBackslashes (s : Text) : Nat := (s.reverse.takeWhile (fun c => c == '\\')).length

/-- The length of the maximal run of consecutive backslashes immediately before position
`i` of the line `s`. -/
def backslashRunBefore (s : Text) (i : Nat) : Nat := trailingBackslashes (s.take i)

/-- The positions `i` of the line `s` that hold a quote preceded by a maximal run of
backslashes of even length (zero included). -/
def unescapedQuotePositions (s : Text) : List Nat :=
  (List.range s.length).filter
    (fun i => s[i]? == some '"' && backslashRunBefore s i % 2 == 0)

/-- What `fixUnpairedQuotes` does with the line `text` at position `pre.length` of the
input when it leaves it alone: the output has as many lines as the input, the line at the
same position of the output is `text`, no Fix record appended cites the line, and the
Error records appended hold, for this line (by its 1-based index), exactly one record,
with the first 100 UTF-16 code units of the line, when its count of unescaped quotes is odd, and
none when it is even. -/
def LineLeftToErrorLedger (self : JSONValidator) (content : Text) (pre : List Text)
    (text : Text) : Prop :=
  (split (fixUnpairedQuotes self content).1).length = (split content).length ∧
  (split (fixUnpairedQuotes self content).1)[pre.length]? = some text ∧
  ∃ (fixesAppended : List FixRecord) (errorsBefore errorsAfter : List ErrorRecord),
    (fixUnpairedQuotes self content).2.fixes = self.fixes ++ fixesAppended ∧
    FixRecord.unpairedQuote (pre.length + 1) ∉ fixesAppended ∧
    (fixUnpairedQuotes self content).2.errors = self.errors ++
      (errorsBefore ++
        (if countUnescapedQuotes text % 2 ≠ 0 then
          [ErrorRecord.unpairedQuotes (pre.length + 1) (substring text 100)] else []) ++
        errorsAfter) ∧
    (∀ snippet, ErrorRecord.unpairedQuotes (pre.length + 1) snippet ∉ errorsBefore) ∧
    (∀ snippet, ErrorRecord.unpairedQuotes (pre.length + 1) snippet ∉ errorsAfter)

/-- The number of non-overlapping occurrences of `pattern` in a text, read from left to
right; `skip` is the number of characters of the occurrence just counted that are still
to be passed over. -/
def countNonOverlapping (pattern : Text) : Nat → Text → Nat
  | _, [] => 0
  | skip + 1, _ :: cs => countNonOverlapping pattern skip cs
  | 0, c :: cs =>
    if startsWith pattern (c :: cs) then
      countNonOverlapping pattern (pattern.length - 1) cs + 1
    else countNonOverlapping pattern 0 cs

/-- The key of the text field, with its quotes and its colon. -/
def contentKey : Text := "\"Content\":".toList

/-- An occurrence of the key `"Content":` followed, after optional white space, by an
escaped quote (a backslash and a quote) starts at the head of `s`. -/
def ContentEscapeAt (s : Text) : Prop :=
  ∃ gap tail : Text, (∀ c ∈ gap, isWhiteSpace c = true) ∧
    s = contentKey ++ gap ++ '\\' :: '"' :: tail

/-- The text holds an occurrence of the key followed, after optional white space, by an
escaped quote. -/
def HasContentEscape (t : Text) : Prop :=
  ∃ pre s : Text, t = pre ++ s ∧ ContentEscapeAt s

/-- The text holds two such occurrences that overlap: the second starts at the closing
quote of the first. -/
def HasOverlappingContentEscape (t : Text) : Prop :=
  ∃ pre gap tail : Text, (∀ c ∈ gap, isWhiteSpace c = true) ∧
    t = pre ++ (contentKey ++ gap ++ '\\' :: '"' :: tail) ∧ ContentEscapeAt ('"' :: tail)

/-- The phrase followed by the phrase without its opening quote: two occurrences of the
phrase that share a quote, the closing one of the first and the opening one of the second. -/
def phraseOverlap : Text := phrasePattern ++ phrasePattern.drop 1

/-- The text `output` is the text `input` in which a scan from left to right has rewritten
`n` occurrences to the form `"Content": "` and kept everything else: the scan rewrites the
first occurrence that starts at or after its position, resumes after its end, and stops
when no occurrence is left. -/
inductive ContentEscapesRewritten : Text → Text → Nat → Prop
  /-- The text holds no occurrence: nothing is rewritten. -/
  | done (s : Text) : ¬ HasContentEscape s → ContentEscapesRewritten s s 0
  /-- No occurrence starts in `s`; the occurrence that follows is rewritten, and the scan
  goes on with `rest`. -/
  | step (s gap rest output : Text) (n : Nat) :
      (∀ k, k < s.length →
        ¬ ContentEscapeAt ((s ++ (contentKey ++ gap ++ '\\' :: '"' :: rest)).drop k)) →
      (∀ c ∈ gap, isWhiteSpace c = true) →
      ContentEscapesRewritten rest output n →
      ContentEscapesRewritten (s ++ (contentKey ++ gap ++ '\\' :: '"' :: rest))
        (s ++ (contentKey ++ ' ' :: '"' :: output)) (n + 1)

end JSONValidator

/-! ## remove_duplicates.js

Shallow embedding of the function `removeDuplicates` of `src/remove_duplicates.js`, from
the point where `JSON.parse` has returned the array `data`. An exception thrown inside the
`try` reaches the `catch` of line 96, after which the function returns `null`; this is the
value `none` of the model. The exceptions modelled are those of reading a property of
`null`, of calling `substring` on a value that has none, of converting to a string, in a
template literal, an object that cannot be converted, and of the two file operations of
lines 75 and 79, whose outcome is an input of the model. The content of the files and the
text of the lines printed are left out. -/

namespace RemoveDuplicates

/-- A value read from a property of an element of `data`, as far as the script observes
it: its truthiness, its identity as a member of a `Set`, and whether it can be converted to
a string. A number is given by the value of the double (the two zeros are one value; a
literal beyond the range of the doubles, which `JSON.parse` reads as an infinity, has no
counterpart here). An object or an array is given by its identity, since a `Set` compares
them by reference, and by whether its conversion to a string returns: it throws for an
object with a property `toString` of its own, which after `JSON.parse` is no function, and
for an array holding such an object. -/
inductive JSValue
  /-- The property is missing. -/
  | undefined
  | null
  | bool (b : Bool)
  | number (x : ℚ)
  | string (s : Text)
  | reference (id : Nat) (convertible : Bool)
  deriving DecidableEq

/-- The test `value ? ... : ...`, and `!value` negated. -/
def JSValue.truthy : JSValue → Bool
  | .undefined => false
  | .null => false
  | .bool b => b
  | .number x => decide (x ≠ 0)
  | .string s => !s.isEmpty
  | .reference _ _ => true

/-- Whether the conversion of the value to a string, made by a template literal, returns;
it throws otherwise. -/
def JSValue.convertible : JSValue → Bool
  | .reference _ c => c
  | _ => true

/-- An element of the array `data`: the value `null`, or a value whose properties can be
read, given by its properties `ID`, `Slug` and `Title` and by `rest`, which stands for
everything else it holds (an element that is a number, a string or a boolean has none of
the three properties). -/
inductive Item
  | null
  | object (ID Slug Title : JSValue) (rest : Text)
  deriving DecidableEq

/-- An entry of `duplicateItems` (lines 35-40); the title is given by its UTF-16 code
units. -/
structure DuplicateItem where
  index : Nat
  id : JSValue
  slug : JSValue
  title : List Nat
  deriving DecidableEq

/-- The expression `item.Title ? item.Title.substring(0, 50) + '...' : 'N/A'`; a truthy
value that is not a string has no method `substring`, and the call throws. -/
def titleOf (Title : JSValue) : Option (List Nat) :=
  if Title.truthy then
    match Title with
    | .string s => some (substring s 50 ++ utf16 "...".toList)
    | _ => none
  else some (utf16 "N/A".toList)

/-- The variables `seenSlugs`, `uniqueItems` and `duplicateItems`; the `Set` is the list
of its members in insertion order. -/
structure Scan where
  seenSlugs : List JSValue
  uniqueItems : List Item
  duplicateItems : List DuplicateItem

/-- The callback of `data.forEach` (lines 24-46), called with `item` and `index`; `none`
when it throws. Reading `item.Slug` throws when `item` is `null`; the warning of line 28
converts `item.ID || index` to a string, which throws when `item.ID` is truthy and cannot
be converted. -/
def callback (st : Scan) (item : Item) (index : Nat) : Option Scan :=
  match item with
  | .null => none
  | .object ID Slug Title _ =>
    if ¬ Slug.truthy then
      if ID.truthy ∧ ¬ ID.convertible then none
      else some { st with uniqueItems := st.uniqueItems ++ [item] }
    else if Slug ∈ st.seenSlugs then
      match titleOf Title with
      | some title =>
        some { st with duplicateItems := st.duplicateItems ++
          [{ index := index, id := ID, slug := Slug, title := title }] }
      | none => none
    else
      some { st with seenSlugs := st.seenSlugs ++ [Slug],
                     uniqueItems := st.uniqueItems ++ [item] }

/-- The call `data.forEach(...)` from the element of index `index` on. -/
def forEach : Scan → Nat → List Item → Option Scan
  | st, _, [] => some st
  | st, index, item :: rest =>
    match callback st item index with
    | some st' => forEach st' (index + 1) rest
    | none => none

/-- The listing of lines 59-62 returns: the template literal of line 60 converts `item.id`
and `item.slug` of every entry of `duplicateItems` to a string. -/
def listingReturns (duplicateItems : List DuplicateItem) : Bool :=
  duplicateItems.all (fun item => item.id.convertible && item.slug.convertible)

/-- Whether the statement of line 75, `fs.copyFileSync(inputFile, backupFile)`, and the
statement of line 79, which serialises `uniqueItems` and writes the output file with
`fs.writeFileSync`, return; each throws otherwise. -/
structure FileOperations where
  copyFileSync : Bool
  writeFileSync : Bool

/-- The object returned at lines 89-94. -/
structure Summary where
  original : Nat
  unique : Nat
  removed : Nat
  duplicates : List DuplicateItem
  deriving DecidableEq

/-- Function `removeDuplicates`, from the parsed array on: the array `uniqueItems` (the one
serialised to the output file at line 79) and the object returned, or `none` when an
exception is thrown inside the `try` and the function returns `null`. -/
def removeDuplicates (io : FileOperations) (data : List Item) :
    Option (List Item × Summary) :=
  match forEach { seenSlugs := [], uniqueItems := [], duplicateItems := [] } 0 data with
  | none => none
  | some st =>
    if ¬ listingReturns st.duplicateItems then none
    else if ¬ io.copyFileSync then none
    else if ¬ io.writeFileSync then none
    else
      some (st.uniqueItems,
        { original := data.length, unique := st.uniqueItems.length,
          removed := st.duplicateItems.length, duplicates := st.duplicateItems })

/-! ### Definitions used in the statements about `removeDuplicates` -/

/-- The value of `item.Slug` (for `null`, which has no properties, `undefined`). -/
def Item.slug : Item → JSValue
  | .null => .undefined
  | .object _ Slug _ _ => Slug

/-- The element can be scanned and listed whatever precedes it: it is not `null`, its
`Title` is falsy or a string, and its `ID` and its `Slug` can be converted to strings. -/
def Item.Scannable : Item → Prop
  | .null => False
  | .object ID Slug Title _ =>
    (titleOf Title).isSome = true ∧ ID.convertible = true ∧ Slug.convertible = true

instance (item : Item) : Decidable item.Scannable := by
  cases item <;> unfold Item.Scannable <;> infer_instance

/-- The value of `Slug` of the element of index `i` (`undefined` past the end). -/
def slugAt (data : List Item) (i : Nat) : JSValue :=
  match data[i]? with
  | some item => item.slug
  | none => .undefined

/-- The element of index `i` has a missing or falsy `Slug`, or is the earliest element
carrying its `Slug`. -/
def keptAt (data : List Item) (i : Nat) : Bool :=
  !(slugAt data i).truthy || decide (∀ j, j < i → slugAt data j ≠ slugAt data i)

/-- The elements with a missing or falsy `Slug` and the earliest element of each truthy
`Slug`, in the order of the input. -/
def firstOccurrences (data : List Item) : List Item :=
  (data.enum.filter (fun p => keptAt data p.1)).map (fun p => p.2)

/-- The report on the element `item` of index `index` as a duplicate. -/
def reportOf (index : Nat) (item : Item) : DuplicateItem :=
  match item with
  | .null => { index := index, id := .undefined, slug := .undefined, title := [] }
  | .object ID Slug Title _ =>
    { index := index, id := ID, slug := Slug, title := (titleOf Title).getD [] }

/-- The reports on all the other elements, in the order of the input. -/
def laterOccurrences (data : List Item) : List DuplicateItem :=
  (data.enum.filter (fun p => !keptAt data p.1)).map (fun p => reportOf p.1 p.2)

end RemoveDuplicates

/-! ## Lines: `split` and `join` -/

namespace JS

theorem split_ne_nil (c : Text) : split c ≠ [] := by
  cases c with
  | nil => simp [split]
  | cons a cs =>
    simp only [split]
    split_ifs
    · simp
    · split <;> simp

theorem join_cons_cons (l l2 : Text) (ls : List Text) :
    join (l :: l2 :: ls) = l ++ '\n' :: join (l2 :: ls) := rfl

theorem join_head_cons (a : Char) (l : Text) (ls : List Text) :
    join ((a :: l) :: ls) = a :: join (l :: ls) := by
  cases ls with
  | nil => rfl
  | cons l2 ls => simp [join]

/-- Joining the lines of a text gives the text back. -/
theorem join_split (c : Text) : join (split c) = c := by
  induction c with
  | nil => rfl
  | cons a cs ih =>
    simp only [split]
    split_ifs with h
    · obtain ⟨l, ls, hl⟩ := List.exists_cons_of_ne_nil (split_ne_nil cs)
      rw [hl] at ih ⊢
      rw [join_cons_cons, ih, h]
      rfl
    · split
      · rename_i heq
        exact absurd heq (split_ne_nil cs)
      · rename_i l ls heq
        rw [join_head_cons, ← heq, ih]

theorem split_no_newline (c : Text) : ∀ l ∈ split c, '\n' ∉ l := by
  induction c with
  | nil => simp [split]
  | cons a cs ih =>
    simp only [split]
    split_ifs with h
    · intro l hl
      rcases List.mem_cons.1 hl with rfl | hl
      · simp
      · exact ih l hl
    · split
      · rename_i heq
        exact absurd heq (split_ne_nil cs)
      · rename_i l ls heq
        rw [heq] at ih
        intro l' hl'
        rcases List.mem_cons.1 hl' with rfl | hl'
        · intro hmem
          rcases List.mem_cons.1 hmem with h1 | h1
          · exact h (h1.symm)
          · exact ih l (List.mem_cons_self _ _) h1
        · exact ih l' (List.mem_cons_of_mem _ hl')

theorem split_of_no_newline (l : Text) (h : '\n' ∉ l) : split l = [l] := by
  induction l with
  | nil => rfl
  | cons a l ih =>
    have ha : a ≠ '\n' := fun e => h (e ▸ List.mem_cons_self _ _)
    have hl : '\n' ∉ l := fun e => h (List.mem_cons_of_mem _ e)
    simp [split, ha, ih hl]

theorem split_append_newline (l rest : Text) (h : '\n' ∉ l) :
    split (l ++ '\n' :: rest) = l :: split rest := by
  induction l with
  | nil => simp [split]
  | cons a l ih =>
    have ha : a ≠ '\n' := fun e => h (e ▸ List.mem_cons_self _ _)
    have hl : '\n' ∉ l := fun e => h (List.mem_cons_of_mem _ e)
    simp [split, ha, ih hl]

/-- Splitting the join of lines without a newline gives the lines back. -/
theorem split_join (ls : List Text) (hne : ls ≠ []) (h : ∀ l ∈ ls, '\n' ∉ l) :
    split (join ls) = ls := by
  induction ls with
  | nil => exact absurd rfl hne
  | cons l ls ih =>
    cases ls with
    | nil => exact split_of_no_newline l (h l (List.mem_cons_self _ _))
    | cons l2 ls =>
      rw [join_cons_cons, split_append_newline l _ (h l (List.mem_cons_self _ _)),
        ih (by simp) (fun x hx => h x (List.mem_cons_of_mem _ hx))]

end JS

namespace JSONValidator

/-! ## The text of a stage does not depend on the ledgers, which only grow -/

theorem extend_new (d : JSONValidator) : new.extend d = d := by
  simp [extend, new]

theorem extend_extend (a b c : JSONValidator) : (a.extend b).extend c = a.extend (b.extend c) := by
  simp [extend]

theorem extend_pushFix (a b : JSONValidator) (f : FixRecord) :
    a.extend (b.pushFix f) = (a.extend b).pushFix f := by
  simp [extend, pushFix]

theorem extend_pushError (a b : JSONValidator) (e : ErrorRecord) :
    a.extend (b.pushError e) = (a.extend b).pushError e := by
  simp [extend, pushError]

theorem pushFix_eq_extend (a : JSONValidator) (f : FixRecord) :
    a.pushFix f = a.extend (new.pushFix f) := by
  simp [extend, pushFix, new]

theorem pushError_eq_extend (a : JSONValidator) (e : ErrorRecord) :
    a.pushError e = a.extend (new.pushError e) := by
  simp [extend, pushError, new]

theorem removeUnnecessaryBracketsLoop_frame (ls : List Text) :
    ∀ (self : JSONValidator) (i : Nat) (acc : List Text),
      removeUnnecessaryBracketsLoop self i ls acc =
        (acc ++ (removeUnnecessaryBracketsLoop new i ls []).1,
          self.extend (removeUnnecessaryBracketsLoop new i ls []).2) := by
  induction ls with
  | nil => intro self i acc; simp [removeUnnecessaryBracketsLoop, extend, new]
  | cons line rest ih =>
    intro self i acc
    simp only [removeUnnecessaryBracketsLoop]
    split_ifs
    · rw [ih (self.pushFix _) (i + 1) acc, ih (new.pushFix _) (i + 1) []]
      rw [pushFix_eq_extend self, extend_extend]
      simp
    · rw [ih self (i + 1) (acc ++ [line]), ih new (i + 1) ([] ++ [line])]
      simp [extend_new]

theorem removeJunkLinesLoop_frame (ls : List Text) :
    ∀ (self : JSONValidator) (i : Nat) (acc : List Text),
      removeJunkLinesLoop self i ls acc =
        (acc ++ (removeJunkLinesLoop new i ls []).1,
          self.extend (removeJunkLinesLoop new i ls []).2) := by
  induction ls with
  | nil => intro self i acc; simp [removeJunkLinesLoop, extend, new]
  | cons line rest ih =>
    intro self i acc
    simp only [removeJunkLinesLoop]
    split_ifs
    · rw [ih (self.pushFix _) (i + 1) acc, ih (new.pushFix _) (i + 1) []]
      rw [pushFix_eq_extend self, extend_extend]
      simp
    · rw [ih self (i + 1) (acc ++ [line]), ih new (i + 1) ([] ++ [line])]
      simp [extend_new]

theorem fixBrokenMultilineContentLoop_frame (ls : List Text) :
    ∀ (self : JSONValidator) (i : Nat) (acc : List Text) (b : Bool) (buf : Text),
      fixBrokenMultilineContentLoop self i ls acc b buf =
        (acc ++ (fixBrokenMultilineContentLoop new i ls [] b buf).1,
          self.extend (fixBrokenMultilineContentLoop new i ls [] b buf).2) := by
  induction ls with
  | nil => intro self i acc b buf; simp [fixBrokenMultilineContentLoop, extend, new]
  | cons line rest ih =>
    intro self i acc b buf
    simp only [fixBrokenMultilineContentLoop]
    split_ifs
    · rw [ih self (i + 1) acc]
    · split
      · rw [ih (self.pushFix _) (i + 1) _, ih (new.pushFix _) (i + 1) ([] ++ _ ++ _)]
        rw [pushFix_eq_extend self, extend_extend]
        simp
      · rw [ih self (i + 1) (acc ++ [line]), ih new (i + 1) ([] ++ [line])]
        simp [extend_new]
    · rw [ih self (i + 1) acc]
    · rw [ih self (i + 1) (acc ++ [line]), ih new (i + 1) ([] ++ [line])]
      simp [extend_new]

theorem fixUnpairedQuotesLoop_frame (ls : List Text) :
    ∀ (self : JSONValidator) (i : Nat) (acc : List Text),
      fixUnpairedQuotesLoop self i ls acc =
        (acc ++ (fixUnpairedQuotesLoop new i ls []).1,
          self.extend (fixUnpairedQuotesLoop new i ls []).2) := by
  induction ls with
  | nil => intro self i acc; simp [fixUnpairedQuotesLoop, extend, new]
  | cons line rest ih =>
    intro self i acc
    simp only [fixUnpairedQuotesLoop]
    split_ifs
    · rw [ih (self.pushFix _) (i + 1) _, ih (new.pushFix _) (i + 1) ([] ++ _)]
      rw [pushFix_eq_extend self, extend_extend]
      simp
    · rw [ih (self.pushError _) (i + 1) _, ih (new.pushError _) (i + 1) ([] ++ _)]
      rw [pushError_eq_extend self, extend_extend]
      simp
    · rw [ih (self.pushError _) (i + 1) _, ih (new.pushError _) (i + 1) ([] ++ _)]
      rw [pushError_eq_extend self, extend_extend]
      simp
    · rw [ih self (i + 1) (acc ++ [line]), ih new (i + 1) ([] ++ [line])]
      simp [extend_new]

theorem fixMissingCommasLoop_frame (ls : List Text) :
    ∀ (self : JSONValidator) (i : Nat) (acc : List Text),
      fixMissingCommasLoop self i ls acc =
        (acc ++ (fixMissingCommasLoop new i ls []).1,
          self.extend (fixMissingCommasLoop new i ls []).2) := by
  induction ls with
  | nil => intro self i acc; simp [fixMissingCommasLoop, extend, new]
  | cons line rest ih =>
    intro self i acc
    simp only [fixMissingCommasLoop]
    split_ifs
    · rw [ih (self.pushFix _) (i + 1) _, ih (new.pushFix _) (i + 1) ([] ++ _)]
      rw [pushFix_eq_extend self, extend_extend]
      simp
    · rw [ih self (i + 1) (acc ++ [line]), ih new (i + 1) ([] ++ [line])]
      simp [extend_new]
    · rw [ih self (i + 1) (acc ++ [line]), ih new (i + 1) ([] ++ [line])]
      simp [extend_new]

theorem removeUnnecessaryBrackets_frame (self : JSONValidator) (c : Text) :
    removeUnnecessaryBrackets self c =
      ((removeUnnecessaryBrackets new c).1, self.extend (removeUnnecessaryBrackets new c).2) := by
  simp only [removeUnnecessaryBrackets]
  rw [removeUnnecessaryBracketsLoop_frame]
  simp

theorem removeJunkLines_frame (self : JSONValidator) (c : Text) :
    removeJunkLines self c =
      ((removeJunkLines new c).1, self.extend (removeJunkLines new c).2) := by
  simp only [removeJunkLines]
  rw [removeJunkLinesLoop_frame]
  simp

theorem fixIncorrectContentEscaping_frame (self : JSONValidator) (c : Text) :
    fixIncorrectContentEscaping self c =
      ((fixIncorrectContentEscaping new c).1,
        self.extend (fixIncorrectContentEscaping new c).2) := by
  simp only [fixIncorrectContentEscaping]
  split_ifs
  · simp [extend, new, pushFix]
  · simp [extend, new]

theorem fixBrokenMultilineContent_frame (self : JSONValidator) (c : Text) :
    fixBrokenMultilineContent self c =
      ((fixBrokenMultilineContent new c).1,
        self.extend (fixBrokenMultilineContent new c).2) := by
  simp only [fixBrokenMultilineContent]
  rw [fixBrokenMultilineContentLoop_frame]
  simp

theorem fixQuotesInText_frame (self : JSONValidator) (c : Text) :
    fixQuotesInText self c =
      ((fixQuotesInText new c).1, self.extend (fixQuotesInText new c).2) := by
  simp only [fixQuotesInText]
  split_ifs
  · simp [extend, new, pushFix]
  · simp [extend, new]

theorem fixHTMLQuotesInContent_frame (self : JSONValidator) (c : Text) :
    fixHTMLQuotesInContent self c =
      ((fixHTMLQuotesInContent new c).1, self.extend (fixHTMLQuotesInContent new c).2) := by
  simp only [fixHTMLQuotesInContent]
  split_ifs
  · simp [extend, new, pushFix]
  · simp [extend, new]

theorem fixUnpairedQuotes_frame (self : JSONValidator) (c : Text) :
    fixUnpairedQuotes self c =
      ((fixUnpairedQuotes new c).1, self.extend (fixUnpairedQuotes new c).2) := by
  simp only [fixUnpairedQuotes]
  rw [fixUnpairedQuotesLoop_frame]
  simp

theorem fixQuotes_frame (self : JSONValidator) (c : Text) :
    fixQuotes self c = ((fixQuotes new c).1, self.extend (fixQuotes new c).2) := by
  simp only [fixQuotes]
  rw [fixUnpairedQuotes_frame, fixHTMLQuotesInContent_frame self c,
    fixUnpairedQuotes_frame (fixHTMLQuotesInContent new c).2]
  simp [extend_extend]

theorem fixMissingCommas_frame (self : JSONValidator) (c : Text) :
    fixMissingCommas self c =
      ((fixMissingCommas new c).1, self.extend (fixMissingCommas new c).2) := by
  simp only [fixMissingCommas]
  rw [fixMissingCommasLoop_frame]
  simp

theorem validateJSONStructure_frame (self : JSONValidator) (c : Text) :
    validateJSONStructure self c =
      ((validateJSONStructure new c).1, self.extend (validateJSONStructure new c).2) := by
  simp only [validateJSONStructure]
  split_ifs
  · simp [extend, new]
  · simp [extend, new, pushError]

theorem validateJSONStructure_text (self : JSONValidator) (c : Text) :
    (validateJSONStructure self c).1 = c := by
  simp only [validateJSONStructure]
  split_ifs <;> rfl

theorem applyFixes_frame (self : JSONValidator) (c : Text) :
    applyFixes self c = ((applyFixes new c).1, self.extend (applyFixes new c).2) := by
  simp only [applyFixes]
  rw [validateJSONStructure_frame, fixMissingCommas_frame, fixQuotes_frame,
    fixQuotesInText_frame, fixBrokenMultilineContent_frame, fixIncorrectContentEscaping_frame,
    removeJunkLines_frame, removeUnnecessaryBrackets_frame self c]
  simp only []
  conv_rhs =>
    rw [validateJSONStructure_frame, fixMissingCommas_frame, fixQuotes_frame,
      fixQuotesInText_frame, fixBrokenMultilineContent_frame,
      fixIncorrectContentEscaping_frame, removeJunkLines_frame]
  simp [extend_extend]

end JSONValidator

namespace JSONValidator

/-! ## C1 and C4: the transform sequence -/

/-- C1. End-to-end scenario: on the four-line text with a missing comma between the two
objects the transform sequence of `validateAndFix` returns the text with the comma added
at the end of line 2, appends exactly one Fix record (the comma insertion on line 2) and
no Error record (the final parse succeeds), whatever the ledgers held before. -/
theorem C1_end_to_end_scenario (self : JSONValidator) :
    applyFixes self "[\n  \x7b\"ID\": 1\x7d\n  \x7b\"ID\": 2\x7d\n]".toList =
      ("[\n  \x7b\"ID\": 1\x7d,\n  \x7b\"ID\": 2\x7d\n]".toList,
        { errors := self.errors, fixes := self.fixes ++ [FixRecord.commaAdded 2] }) := by
  have h : applyFixes new "[\n  \x7b\"ID\": 1\x7d\n  \x7b\"ID\": 2\x7d\n]".toList =
      ("[\n  \x7b\"ID\": 1\x7d,\n  \x7b\"ID\": 2\x7d\n]".toList,
        { errors := [], fixes := [FixRecord.commaAdded 2] }) := by decide
  rw [applyFixes_frame, h]
  simp [extend]

/-- C4, counterexample. On the text with lines `]`, four code-fence lines and an opening
brace the transform sequence of the code leaves the bracket in place, while the composition
in the order of the specification (junk filter first) removes it. -/
theorem C4_counterexample :
    (applyFixes new "]\n```\n```\n```\n```\n\x7b".toList).1 ≠
      specOrderText "]\n```\n```\n```\n```\n\x7b".toList := by decide

/-- C4, amended. For every input text and whatever the ledgers hold, the text returned by
the transform sequence of `validateAndFix` is the composition of the components with
`removeUnnecessaryBrackets` first and `removeJunkLines` second, then
`fixIncorrectContentEscaping`, `fixBrokenMultilineContent`, `fixQuotesInText`, `fixQuotes`,
`fixMissingCommas` and `validateJSONStructure`. -/
theorem C4_pipeline_order (self : JSONValidator) (content : Text) :
    (applyFixes self content).1 =
      textOf validateJSONStructure (textOf fixMissingCommas (textOf fixQuotes
        (textOf fixQuotesInText (textOf fixBrokenMultilineContent
          (textOf fixIncorrectContentEscaping (textOf removeJunkLines
            (textOf removeUnnecessaryBrackets content))))))) := by
  rw [applyFixes_frame]
  simp only [applyFixes, textOf]
  rw [validateJSONStructure_frame, fixMissingCommas_frame, fixQuotes_frame,
    fixQuotesInText_frame, fixBrokenMultilineContent_frame, fixIncorrectContentEscaping_frame,
    removeJunkLines_frame]

end JSONValidator

namespace JSONValidator

/-! ## removeJunkLines -/

theorem removeJunkLinesLoop_eq (ls : List Text) :
    ∀ (self : JSONValidator) (i : Nat) (acc : List Text),
      removeJunkLinesLoop self i ls acc =
        (acc ++ ls.filter (fun l => !isJunk (trim l)),
          { errors := self.errors,
            fixes := self.fixes ++
              ((ls.enumFrom i).filter (fun p => isJunk (trim p.2))).map
                (fun p => FixRecord.removedJunk (p.1 + 1) (trim p.2)) }) := by
  induction ls with
  | nil => intro self i acc; simp [removeJunkLinesLoop]
  | cons line rest ih =>
    intro self i acc
    simp only [removeJunkLinesLoop]
    split_ifs with h
    · rw [ih]
      simp [h, pushFix, List.enumFrom]
    · rw [ih]
      simp [h, List.enumFrom]

theorem isJunk_iff (t : Text) :
    isJunk t = true ↔
      t ∈ ["```json".toList, "```".toList, "json".toList, "Generated json".toList] := by
  simp only [isJunk, decide_eq_true_eq, List.mem_cons, List.mem_singleton, List.not_mem_nil,
    or_false]
  tauto

/-- C10. The junk filter is an exact-match line filter: for every input text and ledgers,
`removeJunkLines` returns the lines of the input (split on the newline) whose trimmed
content is none of the four tokens, in their order and unchanged, joined by the newline (so
a line whose trimmed content merely contains a token is kept); it appends to the Fix ledger
exactly one record per removed line, in order, carrying the 1-based index of the line in
the input and its trimmed content, and leaves the Error ledger as it was. -/
theorem C10_junk_filter_exact_match (self : JSONValidator) (content : Text) :
    removeJunkLines self content =
      (join ((split content).filter (fun l => decide (trim l ∉
          ["```json".toList, "```".toList, "json".toList, "Generated json".toList]))),
        { errors := self.errors,
          fixes := self.fixes ++
            (((split content).enum.filter (fun p => decide (trim p.2 ∈
              ["```json".toList, "```".toList, "json".toList, "Generated json".toList]))).map
              (fun p => FixRecord.removedJunk (p.1 + 1) (trim p.2))) }) := by
  simp only [removeJunkLines, removeJunkLinesLoop_eq, List.nil_append, List.enum]
  congr 3
  · funext l
    rw [Bool.eq_iff_iff]
    simp only [decide_eq_true_eq, ← isJunk_iff]
    simp
  · congr 2
    funext p
    rw [Bool.eq_iff_iff]
    simp only [decide_eq_true_eq, ← isJunk_iff]

/-! ## removeUnnecessaryBrackets -/

theorem removeUnnecessaryBracketsLoop_errors (ls : List Text) :
    ∀ (self : JSONValidator) (i : Nat) (acc : List Text),
      (removeUnnecessaryBracketsLoop self i ls acc).2.errors = self.errors := by
  induction ls with
  | nil => intro self i acc; rfl
  | cons line rest ih =>
    intro self i acc
    simp only [removeUnnecessaryBracketsLoop]
    split_ifs
    · rw [ih]; rfl
    · rw [ih]

/-- Processing `pre ++ suf` from index `i`: the lines kept from `pre` are a sublist of it,
the Fix records for `pre` cite its indices, and the loop goes on with `suf`. -/
theorem removeUnnecessaryBracketsLoop_append (pre suf : List Text) :
    ∀ i : Nat, ∃ (op : List Text) (fp : List FixRecord),
      op.Sublist pre ∧
      (∀ f ∈ fp, ∃ k, f = FixRecord.removedBracket k ∧ i < k ∧ k ≤ i + pre.length) ∧
      removeUnnecessaryBracketsLoop new i (pre ++ suf) [] =
        (op ++ (removeUnnecessaryBracketsLoop new (i + pre.length) suf []).1,
          { errors := [],
            fixes := fp ++ (removeUnnecessaryBracketsLoop new (i + pre.length) suf []).2.fixes }) := by
  induction pre with
  | nil =>
    intro i
    refine ⟨[], [], List.Sublist.refl _, by simp, ?_⟩
    have he := removeUnnecessaryBracketsLoop_errors suf new i []
    simp only [List.nil_append, List.length_nil, Nat.add_zero]
    generalize removeUnnecessaryBracketsLoop new i suf [] = r at he ⊢
    obtain ⟨a, b⟩ := r
    cases b
    simp_all [new]
  | cons l pre ih =>
    intro i
    obtain ⟨op, fp, hs, hf, he⟩ := ih (i + 1)
    have hlen : i + (l :: pre).length = i + 1 + pre.length := by
      simp only [List.length_cons]; omega
    rw [hlen, List.cons_append]
    simp only [removeUnnecessaryBracketsLoop]
    split_ifs
    · refine ⟨op, FixRecord.removedBracket (i + 1) :: fp, hs.cons l, ?_, ?_⟩
      · intro f hfm
        rcases List.mem_cons.1 hfm with rfl | hfm
        · exact ⟨i + 1, rfl, by omega, by omega⟩
        · obtain ⟨k, hk, h1, h2⟩ := hf f hfm
          exact ⟨k, hk, by omega, by omega⟩
      · rw [removeUnnecessaryBracketsLoop_frame, he]
        simp [extend, pushFix, new]
    · refine ⟨l :: op, fp, hs.cons₂ l, ?_, ?_⟩
      · intro f hfm
        obtain ⟨k, hk, h1, h2⟩ := hf f hfm
        exact ⟨k, hk, by omega, by omega⟩
      · rw [removeUnnecessaryBracketsLoop_frame, he]
        simp [extend, new]

/-- What `removeUnnecessaryBrackets` does with the line at position `pre.length`. -/
theorem removeUnnecessaryBrackets_at (self : JSONValidator) (content : Text)
    (pre : List Text) (line : Text) (rest : List Text)
    (h : split content = pre ++ line :: rest) :
    ∃ (op outr : List Text) (fp fr : List FixRecord),
      op.Sublist pre ∧ outr.Sublist rest ∧
      (∀ f ∈ fp, f ≠ FixRecord.removedBracket (pre.length + 1)) ∧
      (∀ f ∈ fr, f ≠ FixRecord.removedBracket (pre.length + 1)) ∧
      removeUnnecessaryBrackets self content =
        if trim line = [']'] ∧ shouldRemove (rest.take 4) = true then
          (join (op ++ outr),
            { errors := self.errors,
              fixes := self.fixes ++ (fp ++ FixRecord.removedBracket (pre.length + 1) :: fr) })
        else
          (join (op ++ line :: outr),
            { errors := self.errors, fixes := self.fixes ++ (fp ++ fr) }) := by
  obtain ⟨op, fp, hs, hf, he⟩ := removeUnnecessaryBracketsLoop_append pre (line :: rest) 0
  obtain ⟨outr, fr, hs2, hf2, he2⟩ := removeUnnecessaryBracketsLoop_append rest [] (pre.length + 1)
  simp only [List.append_nil, removeUnnecessaryBracketsLoop, List.nil_append] at he2
  refine ⟨op, outr, fp, fr, hs, hs2, ?_, ?_, ?_⟩
  · intro f hfm heq
    obtain ⟨k, hk, h1, h2⟩ := hf f hfm
    rw [hk] at heq
    injection heq with heq
    omega
  · intro f hfm heq
    obtain ⟨k, hk, h1, h2⟩ := hf2 f hfm
    rw [hk] at heq
    injection heq with heq
    omega
  · rw [removeUnnecessaryBrackets_frame]
    simp only [removeUnnecessaryBrackets, h]
    rw [he]
    simp only [Nat.zero_add, removeUnnecessaryBracketsLoop]
    split_ifs
    · rw [removeUnnecessaryBracketsLoop_frame, he2]
      simp [extend, pushFix, new]
    · rw [removeUnnecessaryBracketsLoop_frame, he2]
      simp [extend, new]

end JSONValidator

namespace JSONValidator

theorem bracketLineRemoved_of (self : JSONValidator) (content : Text)
    (pre : List Text) (line : Text) (rest : List Text)
    (h : split content = pre ++ line :: rest) (hline : trim line = [']'])
    (hrem : shouldRemove (rest.take 4) = true) :
    BracketLineRemoved self content pre rest := by
  obtain ⟨op, outr, fp, fr, hs, hs2, hf, hf2, he⟩ :=
    removeUnnecessaryBrackets_at self content pre line rest h
  rw [if_pos ⟨hline, hrem⟩] at he
  refine ⟨op, outr, fp ++ FixRecord.removedBracket (pre.length + 1) :: fr, hs, hs2, ?_, ?_, ?_⟩
  · rw [he]
  · rw [he]
  · have h1 : fp.count (FixRecord.removedBracket (pre.length + 1)) = 0 :=
      List.count_eq_zero.2 (fun hm => hf _ hm rfl)
    have h2 : fr.count (FixRecord.removedBracket (pre.length + 1)) = 0 :=
      List.count_eq_zero.2 (fun hm => hf2 _ hm rfl)
    simp [List.count_append, List.count_cons, h1, h2]

theorem bracketLineKept_of (self : JSONValidator) (content : Text)
    (pre : List Text) (line : Text) (rest : List Text)
    (h : split content = pre ++ line :: rest)
    (hrem : shouldRemove (rest.take 4) = false) :
    BracketLineKept self content pre line rest := by
  obtain ⟨op, outr, fp, fr, hs, hs2, hf, hf2, he⟩ :=
    removeUnnecessaryBrackets_at self content pre line rest h
  rw [if_neg (by simp [hrem])] at he
  refine ⟨op, outr, fp ++ fr, hs, hs2, ?_, ?_, ?_⟩
  · rw [he]
  · rw [he]
  · intro hm
    rcases List.mem_append.1 hm with hm | hm
    · exact hf _ hm rfl
    · exact hf2 _ hm rfl

theorem startsWith_nil (a : Char) (p : Text) : startsWith (a :: p) [] = false := rfl

theorem startsWith_singleton (a : Char) (t : Text) :
    startsWith [a] t = true ↔ ∃ r, t = a :: r := by
  cases t with
  | nil => simp [startsWith]
  | cons b r =>
    simp only [startsWith, List.isPrefixOf, Bool.and_true, beq_iff_eq, List.cons.injEq,
      exists_and_left, exists_eq', and_true]
    exact eq_comm

theorem shouldRemove_cons (l : Text) (w : List Text) :
    shouldRemove (l :: w) =
      if IsOpener l then true else if IsCloser l then false else shouldRemove w := by
  simp only [shouldRemove, IsOpener, IsCloser]
  by_cases hb : trim l = []
  · simp [hb, startsWith_nil]
  · simp [hb]

theorem shouldRemove_take_blanks (blanks w : List Text) (hb : ∀ b ∈ blanks, trim b = [])
    (m : Nat) :
    shouldRemove ((blanks ++ w).take (blanks.length + m)) = shouldRemove (w.take m) := by
  induction blanks with
  | nil => simp
  | cons b bs ih =>
    have h1 : (b :: bs).length + m = (bs.length + m) + 1 := by
      simp only [List.length_cons]; omega
    rw [h1, List.cons_append, List.take_succ_cons]
    simp only [shouldRemove]
    rw [if_pos (hb b (List.mem_cons_self _ _))]
    exact ih (fun x hx => hb x (List.mem_cons_of_mem _ hx))

theorem shouldRemove_take_closer (blanks : List Text) (next : Text) (post : List Text)
    (hb : ∀ b ∈ blanks, trim b = []) (hnext : trim next = [']'] ∨ trim next = ['}']) :
    ∀ n, shouldRemove ((blanks ++ next :: post).take n) = false := by
  induction blanks with
  | nil =>
    intro n
    cases n with
    | zero => rfl
    | succ n =>
      rw [List.nil_append, List.take_succ_cons, shouldRemove_cons]
      have hno : ¬ IsOpener next := by
        rcases hnext with h | h <;> simp [IsOpener, h, startsWith, List.isPrefixOf]
      have hc : IsCloser next := hnext
      rw [if_neg hno, if_pos hc]
  | cons b bs ih =>
    intro n
    cases n with
    | zero => rfl
    | succ n =>
      rw [List.cons_append, List.take_succ_cons]
      simp only [shouldRemove]
      rw [if_pos (hb b (List.mem_cons_self _ _))]
      exact ih (fun x hx => hb x (List.mem_cons_of_mem _ hx)) n

theorem shouldRemove_iff (w : List Text) :
    shouldRemove w = true ↔
      ∃ (j : Nat) (l : Text), w[j]? = some l ∧ IsOpener l ∧
        ∀ (j' : Nat) (l' : Text), j' < j → w[j']? = some l' → ¬ IsCloser l' := by
  induction w with
  | nil => simp [shouldRemove]
  | cons a w ih =>
    rw [shouldRemove_cons]
    by_cases ho : IsOpener a
    · rw [if_pos ho]
      simp only [true_iff]
      exact ⟨0, a, by simp, ho, fun j' l' hj => absurd hj (Nat.not_lt_zero _)⟩
    · rw [if_neg ho]
      by_cases hc : IsCloser a
      · rw [if_pos hc]
        simp only [Bool.false_eq_true, false_iff]
        rintro ⟨j, l, hj, hl, hall⟩
        cases j with
        | zero =>
          simp only [List.getElem?_cons_zero, Option.some.injEq] at hj
          exact ho (hj ▸ hl)
        | succ j => exact hall 0 a (Nat.succ_pos _) (by simp) hc
      · rw [if_neg hc, ih]
        constructor
        · rintro ⟨j, l, hj, hl, hall⟩
          refine ⟨j + 1, l, by simpa using hj, hl, ?_⟩
          intro j' l' hlt hj'
          cases j' with
          | zero =>
            simp only [List.getElem?_cons_zero, Option.some.injEq] at hj'
            exact hj' ▸ hc
          | succ j' =>
            exact hall j' l' (by omega) (by simpa using hj')
        · rintro ⟨j, l, hj, hl, hall⟩
          cases j with
          | zero =>
            simp only [List.getElem?_cons_zero, Option.some.injEq] at hj
            exact absurd (hj ▸ hl) ho
          | succ j =>
            refine ⟨j, l, by simpa using hj, hl, ?_⟩
            intro j' l' hlt hj'
            exact hall (j' + 1) l' (by omega) (by simpa using hj')

theorem shouldRemove_take_four_iff (rest : List Text) :
    shouldRemove (rest.take 4) = true ↔ OpenerWithinWindow rest := by
  rw [shouldRemove_iff]
  constructor
  · rintro ⟨j, l, hj, hl, hall⟩
    have hj4 : j < 4 := by
      by_contra hge
      rw [List.getElem?_take_eq_none (Nat.le_of_not_lt hge)] at hj
      exact Option.noConfusion hj
    rw [List.getElem?_take_of_lt hj4] at hj
    refine ⟨j, l, hj4, hj, hl, ?_⟩
    intro j' l' hlt hj'
    exact hall j' l' hlt (by rw [List.getElem?_take_of_lt (by omega)]; exact hj')
  · rintro ⟨j, l, hj4, hj, hl, hall⟩
    refine ⟨j, l, by rw [List.getElem?_take_of_lt hj4]; exact hj, hl, ?_⟩
    intro j' l' hlt hj'
    rw [List.getElem?_take_of_lt (by omega)] at hj'
    exact hall j' l' hlt hj'

/-! ## C7, C8, C9: the bracket filter -/

/-- C7, counterexample. With four blank lines between the bracket line and the line that
starts with an opening brace, `removeUnnecessaryBrackets` returns the text unchanged and
records no Fix: the bracket is not removed. -/
theorem C7_counterexample :
    removeUnnecessaryBrackets new "]\n\n\n\n\n\x7b".toList =
      ("]\n\n\n\n\n\x7b".toList, { errors := [], fixes := [] }) := by decide

/-- C7, amended. In `removeUnnecessaryBrackets`, for every number k of blank lines with
k at most 3, a line whose trimmed content is a closing bracket and that is followed by k
blank lines and then by a line whose trimmed content starts with an opening brace is
removed from the output, and one Fix record citing it is appended. -/
theorem C7_bracket_removed_within_window (self : JSONValidator) (content : Text)
    (pre : List Text) (line : Text) (blanks : List Text) (next : Text) (post : List Text)
    (hsplit : split content = pre ++ line :: (blanks ++ next :: post))
    (hline : trim line = [']'])
    (hblank : ∀ b ∈ blanks, trim b = [])
    (hk : blanks.length ≤ 3)
    (hnext : startsWith ['{'] (trim next) = true) :
    BracketLineRemoved self content pre (blanks ++ next :: post) := by
  apply bracketLineRemoved_of self content pre line _ hsplit hline
  obtain ⟨m, hm⟩ : ∃ m, 4 = blanks.length + (m + 1) := ⟨3 - blanks.length, by omega⟩
  have ho : IsOpener next := Or.inl hnext
  rw [hm, shouldRemove_take_blanks blanks _ hblank, List.take_succ_cons, shouldRemove_cons,
    if_pos ho]

/-- C7, amended: an instance with one blank line. -/
theorem C7_bracket_removed_within_window_witness :
    BracketLineRemoved new "]\n\n\x7b".toList [] [[], ['\x7b']] :=
  C7_bracket_removed_within_window new "]\n\n\x7b".toList [] [']'] [[]] ['\x7b'] []
    (by decide) (by decide) (by decide) (by decide) (by decide)

/-- C8. Bracket retention: in `removeUnnecessaryBrackets`, a line whose trimmed content is
a closing bracket and whose first following non-blank line has trimmed content exactly a
closing bracket or exactly a closing brace is kept in the output unchanged, and no Fix
record is appended for it. -/
theorem C8_bracket_retained_before_closer (self : JSONValidator) (content : Text)
    (pre : List Text) (line : Text) (blanks : List Text) (next : Text) (post : List Text)
    (hsplit : split content = pre ++ line :: (blanks ++ next :: post))
    (_hline : trim line = [']'])
    (hblank : ∀ b ∈ blanks, trim b = [])
    (hnext : trim next = [']'] ∨ trim next = ['}']) :
    BracketLineKept self content pre line (blanks ++ next :: post) :=
  bracketLineKept_of self content pre line _ hsplit
    (shouldRemove_take_closer blanks next post hblank hnext 4)

/-- C8: an instance, a bracket line followed by a blank line and a closing brace. -/
theorem C8_bracket_retained_before_closer_witness :
    BracketLineKept new "[\n ] \n\n\x7d".toList [['[']] [' ', ']', ' '] [[], ['\x7d']] :=
  C8_bracket_retained_before_closer new "[\n ] \n\n\x7d".toList [['[']] [' ', ']', ' ']
    [[]] ['\x7d'] [] (by decide) (by decide) (by decide) (by decide)

/-- C9, the code at the failing input. On the lines `]`, `foo` and an opening brace, the
first non-blank line after the bracket line is `foo`, which begins neither with an opening
brace nor with the key `"ID"`; `removeUnnecessaryBrackets` passes over it, finds the brace
on the line after and removes the bracket line, with one Fix record. -/
theorem C9_bracket_removed_past_other_line :
    removeUnnecessaryBrackets new "]\nfoo\n\x7b".toList =
      ("foo\n\x7b".toList, { errors := [], fixes := [FixRecord.removedBracket 1] }) := by
  decide

/-- What the code decides by: in `removeUnnecessaryBrackets`, a line whose trimmed content
is a closing bracket is removed (with one Fix record) if, among the four lines following
it, some line begins (after trimming) with an opening brace or with the key `"ID"` and no
line before that one is exactly a closing bracket or a closing brace (after trimming);
otherwise the bracket line is kept and no Fix record cites it. -/
theorem bracket_decision_by_window (self : JSONValidator) (content : Text)
    (pre : List Text) (line : Text) (rest : List Text)
    (hsplit : split content = pre ++ line :: rest)
    (hline : trim line = [']']) :
    (OpenerWithinWindow rest ∧ BracketLineRemoved self content pre rest) ∨
    (¬ OpenerWithinWindow rest ∧ BracketLineKept self content pre line rest) := by
  by_cases h : shouldRemove (rest.take 4) = true
  · exact Or.inl ⟨(shouldRemove_take_four_iff rest).1 h,
      bracketLineRemoved_of self content pre line rest hsplit hline h⟩
  · exact Or.inr ⟨fun ho => h ((shouldRemove_take_four_iff rest).2 ho),
      bracketLineKept_of self content pre line rest hsplit (by simpa using h)⟩

end JSONValidator

namespace JS

/-! ## Trimming -/

theorem trimEnd_append_trailingSpace (s : Text) : trimEnd s ++ trailingSpace s = s := by
  simp only [trimEnd, trailingSpace]
  rw [← List.reverse_append, List.takeWhile_append_dropWhile, List.reverse_reverse]

theorem trailingSpace_all (s : Text) : ∀ c ∈ trailingSpace s, isWhiteSpace c = true := by
  intro c hc
  simp only [trailingSpace, List.mem_reverse] at hc
  exact List.mem_takeWhile_imp hc

theorem trimEnd_body (body : Text) (c : Char) (trail : Text) (hc : isWhiteSpace c = false)
    (ht : ∀ x ∈ trail, isWhiteSpace x = true) :
    trimEnd (body ++ c :: trail) = body ++ [c] := by
  have h : ∀ x ∈ trail.reverse, isWhiteSpace x = true := fun x hx => ht x (List.mem_reverse.1 hx)
  simp only [trimEnd, List.reverse_append, List.reverse_cons, List.append_assoc,
    List.singleton_append]
  rw [List.dropWhile_append_of_pos h, List.dropWhile_cons_of_neg (by simp [hc])]
  simp

theorem trailingSpace_body (body : Text) (c : Char) (trail : Text)
    (hc : isWhiteSpace c = false) (ht : ∀ x ∈ trail, isWhiteSpace x = true) :
    trailingSpace (body ++ c :: trail) = trail := by
  have h := trimEnd_append_trailingSpace (body ++ c :: trail)
  rw [trimEnd_body body c trail hc ht] at h
  have h2 : body ++ [c] ++ trailingSpace (body ++ c :: trail) = body ++ [c] ++ trail := by
    rw [h]; simp
  exact List.append_cancel_left h2

theorem endsWith_singleton (c : Char) (s : Text) :
    endsWith [c] s = true ↔ ∃ b, s = b ++ [c] := by
  simp only [endsWith, List.reverse_singleton]
  constructor
  · intro h
    cases hr : s.reverse with
    | nil => rw [hr] at h; simp at h
    | cons a r =>
      rw [hr] at h
      simp only [List.isPrefixOf, Bool.and_true, beq_iff_eq] at h
      refine ⟨r.reverse, ?_⟩
      have := congrArg List.reverse hr
      simpa [h] using this
  · rintro ⟨b, rfl⟩
    simp [List.isPrefixOf]

theorem endsWith_cons_cons (a c : Char) (s : Text) (h : endsWith [a, c] s = true) :
    endsWith [c] s = true := by
  simp only [endsWith, List.reverse_cons, List.reverse_nil, List.nil_append,
    List.singleton_append] at h ⊢
  cases hr : s.reverse with
  | nil => rw [hr] at h; simp at h
  | cons x r =>
    rw [hr] at h
    simp only [List.isPrefixOf, Bool.and_eq_true, beq_iff_eq] at h ⊢
    simp [h.1]

/-- A line whose trimmed content ends with the character `c` is a body, then `c`, then
white space only. -/
theorem line_of_trim_endsWith (c : Char) (line : Text)
    (h : endsWith [c] (trim line) = true) :
    ∃ body trail, line = body ++ c :: trail ∧ (∀ x ∈ trail, isWhiteSpace x = true) := by
  obtain ⟨b, hb⟩ := (endsWith_singleton c _).1 h
  refine ⟨line.takeWhile isWhiteSpace ++ b, trailingSpace (line.dropWhile isWhiteSpace), ?_,
    trailingSpace_all _⟩
  have h1 := trimEnd_append_trailingSpace (line.dropWhile isWhiteSpace)
  have h2 : trimEnd (line.dropWhile isWhiteSpace) = b ++ [c] := hb
  rw [h2] at h1
  have h3 : line = line.takeWhile isWhiteSpace ++ line.dropWhile isWhiteSpace :=
    (List.takeWhile_append_dropWhile _ _).symm
  conv_lhs => rw [h3, ← h1]
  simp

end JS

namespace JSONValidator

/-! ## fixMissingCommas -/

theorem insertComma_no_newline (line : Text) (h : '\n' ∉ line) : '\n' ∉ insertComma line := by
  simp only [insertComma]
  split_ifs
  · intro hm
    have hl := trimEnd_append_trailingSpace line
    rcases List.mem_append.1 hm with hm | hm
    · rcases List.mem_append.1 hm with hm | hm
      · exact h (hl ▸ List.mem_append_left _ hm)
      · simp at hm
    · exact h (hl ▸ List.mem_append_right _ hm)
  · exact h

theorem insertComma_body (body trail : Text) (ht : ∀ x ∈ trail, isWhiteSpace x = true) :
    insertComma (body ++ '}' :: trail) = body ++ '}' :: ',' :: trail := by
  have hc : isWhiteSpace '}' = false := by decide
  simp only [insertComma]
  rw [trimEnd_body body '}' trail hc ht, trailingSpace_body body '}' trail hc ht,
    if_pos ((endsWith_singleton _ _).2 ⟨body, rfl⟩)]
  simp

/-- Processing `pre ++ suf` from index `i`: one output line per line of `pre`, none with a
newline, the Fix records for `pre` cite its indices, and the loop goes on with `suf`. -/
theorem fixMissingCommasLoop_append (pre suf : List Text) (hpre : ∀ l ∈ pre, '\n' ∉ l) :
    ∀ i : Nat, ∃ (op : List Text) (fp : List FixRecord),
      op.length = pre.length ∧ (∀ l ∈ op, '\n' ∉ l) ∧
      (∀ f ∈ fp, ∃ k, f = FixRecord.commaAdded k ∧ i < k ∧ k ≤ i + pre.length) ∧
      fixMissingCommasLoop new i (pre ++ suf) [] =
        (op ++ (fixMissingCommasLoop new (i + pre.length) suf []).1,
          new.extend { errors := (fixMissingCommasLoop new (i + pre.length) suf []).2.errors,
                       fixes := fp ++ (fixMissingCommasLoop new (i + pre.length) suf []).2.fixes }) := by
  induction pre with
  | nil =>
    intro i
    refine ⟨[], [], rfl, by simp, by simp, ?_⟩
    simp [extend_new]
  | cons l pre ih =>
    intro i
    obtain ⟨op, fp, hlen, hnl, hf, he⟩ :=
      ih (fun x hx => hpre x (List.mem_cons_of_mem _ hx)) (i + 1)
    have hl : '\n' ∉ l := hpre l (List.mem_cons_self _ _)
    have hlen' : i + (l :: pre).length = i + 1 + pre.length := by
      simp only [List.length_cons]; omega
    have hfix : ∀ f ∈ fp, ∃ k, f = FixRecord.commaAdded k ∧ i < k ∧ k ≤ i + 1 + pre.length := by
      intro f hfm
      obtain ⟨k, hk, h1, h2⟩ := hf f hfm
      exact ⟨k, hk, by omega, h2⟩
    rw [hlen', List.cons_append]
    simp only [fixMissingCommasLoop]
    split_ifs
    · refine ⟨insertComma l :: op, FixRecord.commaAdded (i + 1) :: fp, by simp [hlen], ?_, ?_, ?_⟩
      · intro x hx
        rcases List.mem_cons.1 hx with rfl | hx
        · exact insertComma_no_newline l hl
        · exact hnl x hx
      · intro f hfm
        rcases List.mem_cons.1 hfm with rfl | hfm
        · exact ⟨i + 1, rfl, by omega, by omega⟩
        · exact hfix f hfm
      · rw [fixMissingCommasLoop_frame, he]
        simp [extend, pushFix, new]
    · refine ⟨l :: op, fp, by simp [hlen], ?_, hfix, ?_⟩
      · intro x hx
        rcases List.mem_cons.1 hx with rfl | hx
        · exact hl
        · exact hnl x hx
      · rw [fixMissingCommasLoop_frame, he]
        simp [extend, new]
    · refine ⟨l :: op, fp, by simp [hlen], ?_, hfix, ?_⟩
      · intro x hx
        rcases List.mem_cons.1 hx with rfl | hx
        · exact hl
        · exact hnl x hx
      · rw [fixMissingCommasLoop_frame, he]
        simp [extend, new]

/-- What `fixMissingCommas` does with the line at position `pre.length`. -/
theorem fixMissingCommas_at (self : JSONValidator) (content : Text)
    (pre : List Text) (line : Text) (rest : List Text)
    (h : split content = pre ++ line :: rest) :
    ∃ (fp fr : List FixRecord),
      (∀ f ∈ fp, f ≠ FixRecord.commaAdded (pre.length + 1)) ∧
      (∀ f ∈ fr, f ≠ FixRecord.commaAdded (pre.length + 1)) ∧
      if (endsWith ['}'] (trim line) = true ∧ ¬ endsWith [','] (trim line) = true ∧
          ¬ endsWith ['}', ','] (trim line) = true) ∧ nextObjectFound rest = true then
        (split (fixMissingCommas self content).1)[pre.length]? = some (insertComma line) ∧
        (fixMissingCommas self content).2.fixes =
          self.fixes ++ (fp ++ FixRecord.commaAdded (pre.length + 1) :: fr)
      else
        (split (fixMissingCommas self content).1)[pre.length]? = some line ∧
        (fixMissingCommas self content).2.fixes = self.fixes ++ (fp ++ fr) := by
  have hnl := split_no_newline content
  rw [h] at hnl
  have hpre : ∀ l ∈ pre, '\n' ∉ l := fun l hl => hnl l (List.mem_append_left _ hl)
  have hline : '\n' ∉ line := hnl line (List.mem_append_right _ (List.mem_cons_self _ _))
  have hrest : ∀ l ∈ rest, '\n' ∉ l :=
    fun l hl => hnl l (List.mem_append_right _ (List.mem_cons_of_mem _ hl))
  obtain ⟨op, fp, hlen, hnp, hf, he⟩ := fixMissingCommasLoop_append pre (line :: rest) hpre 0
  obtain ⟨outr, fr, _, hnr, hf2, he2⟩ := fixMissingCommasLoop_append rest [] hrest (pre.length + 1)
  simp only [List.append_nil, fixMissingCommasLoop, extend_new] at he2
  have key : ∀ x : Text, '\n' ∉ x → (split (join (op ++ x :: outr)))[pre.length]? = some x := by
    intro x hx
    rw [split_join _ (by simp)]
    · rw [← hlen, List.getElem?_append_right (Nat.le_refl _)]
      simp
    · intro l hl
      rcases List.mem_append.1 hl with hl | hl
      · exact hnp l hl
      · rcases List.mem_cons.1 hl with rfl | hl
        · exact hx
        · exact hnr l hl
  refine ⟨fp, fr, ?_, ?_, ?_⟩
  · intro f hfm heq
    obtain ⟨k, hk, h1, h2⟩ := hf f hfm
    rw [hk] at heq
    injection heq with heq
    omega
  · intro f hfm heq
    obtain ⟨k, hk, h1, h2⟩ := hf2 f hfm
    rw [hk] at heq
    injection heq with heq
    omega
  · have hrun : fixMissingCommas self content =
        ((op ++ (fixMissingCommasLoop new pre.length (line :: rest) []).1 : List Text) |> join,
          self.extend { errors := (fixMissingCommasLoop new pre.length (line :: rest) []).2.errors,
                        fixes := fp ++ (fixMissingCommasLoop new pre.length (line :: rest) []).2.fixes }) := by
      rw [fixMissingCommas_frame]
      simp only [fixMissingCommas, h]
      rw [he]
      simp [extend_new]
    rw [hrun]
    by_cases hc : endsWith ['}'] (trim line) = true ∧ ¬ endsWith [','] (trim line) = true ∧
        ¬ endsWith ['}', ','] (trim line) = true
    · by_cases hn : nextObjectFound rest = true
      · rw [if_pos ⟨hc, hn⟩]
        simp only [fixMissingCommasLoop]
        rw [if_pos hc, if_pos hn, fixMissingCommasLoop_frame, he2]
        exact ⟨key _ (insertComma_no_newline line hline), by simp [extend, pushFix, new]⟩
      · rw [if_neg (fun hh => hn hh.2)]
        simp only [fixMissingCommasLoop]
        rw [if_pos hc, if_neg hn, fixMissingCommasLoop_frame, he2]
        exact ⟨key _ hline, by simp [extend, new]⟩
    · rw [if_neg (fun hh => hc hh.1)]
      simp only [fixMissingCommasLoop]
      rw [if_neg hc, fixMissingCommasLoop_frame, he2]
      exact ⟨key _ hline, by simp [extend, new]⟩

end JSONValidator

namespace JSONValidator

theorem endsWith_singleton_unique (a c : Char) (s : Text) (h1 : endsWith [a] s = true)
    (h2 : endsWith [c] s = true) : a = c := by
  obtain ⟨b1, hb1⟩ := (endsWith_singleton a s).1 h1
  obtain ⟨b2, hb2⟩ := (endsWith_singleton c s).1 h2
  rw [hb1] at hb2
  have h := (List.append_inj' hb2 rfl).2
  simpa using h

theorem startsWith_singleton_unique (a c : Char) (s : Text) (h1 : startsWith [a] s = true)
    (h2 : startsWith [c] s = true) : a = c := by
  obtain ⟨r1, hr1⟩ := (startsWith_singleton a s).1 h1
  obtain ⟨r2, hr2⟩ := (startsWith_singleton c s).1 h2
  rw [hr1] at hr2
  injection hr2

theorem commaCandidate_of_endsWith (t : Text) (h : endsWith ['}'] t = true) :
    endsWith ['}'] t = true ∧ ¬ endsWith [','] t = true ∧ ¬ endsWith ['}', ','] t = true := by
  have h1 : ¬ endsWith [','] t = true := by
    intro h2
    have := endsWith_singleton_unique _ _ t h h2
    exact absurd this (by decide)
  exact ⟨h, h1, fun h2 => h1 (endsWith_cons_cons _ _ t h2)⟩

theorem nextObjectFound_blanks (blanks w : List Text) (hb : ∀ b ∈ blanks, trim b = []) :
    nextObjectFound (blanks ++ w) = nextObjectFound w := by
  induction blanks with
  | nil => rfl
  | cons b bs ih =>
    rw [List.cons_append]
    simp only [nextObjectFound]
    rw [if_pos (hb b (List.mem_cons_self _ _))]
    exact ih (fun x hx => hb x (List.mem_cons_of_mem _ hx))

theorem nextObjectFound_opening (next : Text) (post : List Text)
    (h : startsWith ['{'] (trim next) = true) : nextObjectFound (next :: post) = true := by
  have hne : trim next ≠ [] := by
    intro he
    rw [he] at h
    exact absurd h (by decide)
  simp [nextObjectFound, hne, h]

theorem includes_nil (a : Char) (p : Text) : includes (a :: p) [] = false := rfl

theorem nextObjectFound_stop (next : Text) (post : List Text)
    (h : startsWith [']'] (trim next) = true ∨ startsWith ['}'] (trim next) = true ∨
      (includes [':'] (trim next) = true ∧ startsWith ['{'] (trim next) = false)) :
    nextObjectFound (next :: post) = false := by
  have hne : trim next ≠ [] := by
    intro he
    rw [he] at h
    rcases h with h | h | ⟨h, _⟩ <;> exact absurd h (by decide)
  have hno : startsWith ['{'] (trim next) = false := by
    rcases h with h | h | ⟨_, h⟩
    · by_contra hc
      exact absurd (startsWith_singleton_unique _ _ _ h (by simpa using hc)) (by decide)
    · by_contra hc
      exact absurd (startsWith_singleton_unique _ _ _ h (by simpa using hc)) (by decide)
    · exact h
  simp only [nextObjectFound]
  rw [if_neg hne, if_neg (by simp [hno])]
  rcases h with h | h | ⟨h, _⟩
  · rw [if_pos (Or.inl h)]
  · rw [if_pos (Or.inr h)]
  · split_ifs <;> first | rfl | simp_all

/-! ## C5 and C6: the comma inserter -/

/-- C5. Comma insertion: in `fixMissingCommas`, for every line whose trimmed content ends
with a closing brace and that is followed by zero or more blank lines and then by a line
whose trimmed content starts with an opening brace, the output line at the same position
is the input line with a single comma inserted immediately after its last closing brace
(what precedes the brace and the white space after it are preserved), and exactly one Fix
record citing that line is appended. -/
theorem C5_comma_inserted_before_object (self : JSONValidator) (content : Text)
    (pre : List Text) (line : Text) (blanks : List Text) (next : Text) (post : List Text)
    (hsplit : split content = pre ++ line :: (blanks ++ next :: post))
    (hline : endsWith ['}'] (trim line) = true)
    (hblank : ∀ b ∈ blanks, trim b = [])
    (hnext : startsWith ['{'] (trim next) = true) :
    CommaInsertedAt self content pre line := by
  obtain ⟨fp, fr, hf, hf2, he⟩ := fixMissingCommas_at self content pre line _ hsplit
  have hn : nextObjectFound (blanks ++ next :: post) = true := by
    rw [nextObjectFound_blanks blanks _ hblank]
    exact nextObjectFound_opening next post hnext
  rw [if_pos ⟨commaCandidate_of_endsWith _ hline, hn⟩] at he
  obtain ⟨body, trail, hbt, hws⟩ := line_of_trim_endsWith '}' line hline
  refine ⟨body, trail, fp ++ FixRecord.commaAdded (pre.length + 1) :: fr, hbt, hws, ?_, he.2, ?_⟩
  · rw [he.1, hbt, insertComma_body body trail hws]
  · have h1 : fp.count (FixRecord.commaAdded (pre.length + 1)) = 0 :=
      List.count_eq_zero.2 (fun hm => hf _ hm rfl)
    have h2 : fr.count (FixRecord.commaAdded (pre.length + 1)) = 0 :=
      List.count_eq_zero.2 (fun hm => hf2 _ hm rfl)
    simp [List.count_append, List.count_cons, h1, h2]

/-- C5: the instance of the specification, the lines `  }` and `  {`. -/
theorem C5_comma_inserted_before_object_witness :
    CommaInsertedAt new "  \x7d\n  \x7b".toList [] "  \x7d".toList :=
  C5_comma_inserted_before_object new "  \x7d\n  \x7b".toList [] "  \x7d".toList []
    "  \x7b".toList [] (by decide) (by decide) (by decide) (by decide)

/-- C6. Comma non-insertion: in `fixMissingCommas`, a line whose trimmed content ends with
a closing brace is left unchanged, and no Fix record is appended for it, whenever the
first non-blank line after it starts with a closing bracket or a closing brace, or
contains a colon without starting with an opening brace, or when only blank lines follow
it up to the end of the input. -/
theorem C6_comma_not_inserted (self : JSONValidator) (content : Text)
    (pre : List Text) (line : Text) (blanks tail : List Text)
    (hsplit : split content = pre ++ line :: (blanks ++ tail))
    (_hline : endsWith ['}'] (trim line) = true)
    (hblank : ∀ b ∈ blanks, trim b = [])
    (htail : tail = [] ∨ ∃ next post, tail = next :: post ∧
      (startsWith [']'] (trim next) = true ∨ startsWith ['}'] (trim next) = true ∨
        (includes [':'] (trim next) = true ∧ startsWith ['{'] (trim next) = false))) :
    CommaLineUnchanged self content pre line := by
  obtain ⟨fp, fr, hf, hf2, he⟩ := fixMissingCommas_at self content pre line _ hsplit
  have hn : nextObjectFound (blanks ++ tail) = false := by
    rw [nextObjectFound_blanks blanks _ hblank]
    rcases htail with rfl | ⟨next, post, rfl, h⟩
    · rfl
    · exact nextObjectFound_stop next post h
  rw [if_neg (fun hh => by simp [hn] at hh)] at he
  refine ⟨fp ++ fr, he.1, he.2, ?_⟩
  intro hm
  rcases List.mem_append.1 hm with hm | hm
  · exact hf _ hm rfl
  · exact hf2 _ hm rfl

/-- C6: the instance of the specification, the lines `  }` and `  ]`. -/
theorem C6_comma_not_inserted_witness :
    CommaLineUnchanged new "  \x7d\n  ]".toList [] "  \x7d".toList :=
  C6_comma_not_inserted new "  \x7d\n  ]".toList [] "  \x7d".toList [] ["  ]".toList]
    (by decide) (by decide) (by decide)
    (Or.inr ⟨"  ]".toList, [], rfl, Or.inl (by decide)⟩)

end JSONValidator

namespace JSONValidator

/-! ## countUnescapedQuotes and fixContentLineQuotes -/

theorem countUnescapedQuotesLoop_add (s : Text) :
    ∀ (n k : Nat) (e : Bool),
      countUnescapedQuotesLoop s (n + k) e = countUnescapedQuotesLoop s n e + k := by
  induction s with
  | nil => intro n k e; rfl
  | cons c s ih =>
    intro n k e
    simp only [countUnescapedQuotesLoop]
    split_ifs
    · exact ih n k false
    · exact ih n k true
    · rw [Nat.add_right_comm]; exact ih (n + 1) k false
    · exact ih n k false

/-- The state of the scan after a prefix: the count grows by some `m` whatever follows, and
the flag `escaped` is set only right after a backslash (or, for the empty prefix, if it
was set before). -/
theorem countUnescapedQuotesLoop_append (xs : Text) :
    ∀ e : Bool, ∃ (m : Nat) (e' : Bool),
      (∀ (ys : Text) (n : Nat),
        countUnescapedQuotesLoop (xs ++ ys) n e = countUnescapedQuotesLoop ys (n + m) e') ∧
      (e' = true → (xs = [] ∧ e = true) ∨ ∃ zs, xs = zs ++ ['\\']) := by
  induction xs with
  | nil => intro e; exact ⟨0, e, fun ys n => rfl, fun h => Or.inl ⟨rfl, h⟩⟩
  | cons c xs ih =>
    intro e
    have lift : ∀ e0 : Bool, e0 = false →
        ((xs = [] ∧ e0 = true) ∨ ∃ zs, xs = zs ++ ['\\']) → ∃ zs, c :: xs = zs ++ ['\\'] := by
      intro e0 he0 h
      rcases h with ⟨_, h⟩ | ⟨zs, hz⟩
      · rw [he0] at h; exact absurd h (by decide)
      · exact ⟨c :: zs, by rw [hz]; rfl⟩
    cases e with
    | true =>
      obtain ⟨m, e', h1, h2⟩ := ih false
      refine ⟨m, e', ?_, fun h => Or.inr (lift false rfl (h2 h))⟩
      intro ys n
      rw [List.cons_append]
      simp only [countUnescapedQuotesLoop, if_true]
      exact h1 ys n
    | false =>
      by_cases hb : c = '\\'
      · obtain ⟨m, e', h1, h2⟩ := ih true
        refine ⟨m, e', ?_, ?_⟩
        · intro ys n
          rw [List.cons_append]
          simp only [countUnescapedQuotesLoop]
          rw [if_neg (by decide), if_pos hb]
          exact h1 ys n
        · intro h
          rcases h2 h with ⟨hx, _⟩ | ⟨zs, hz⟩
          · exact Or.inr ⟨[], by rw [hx, hb]; rfl⟩
          · exact Or.inr ⟨c :: zs, by rw [hz]; rfl⟩
      · obtain ⟨m, e', h1, h2⟩ := ih false
        by_cases hq : c = '"'
        · refine ⟨m + 1, e', ?_, fun h => Or.inr (lift false rfl (h2 h))⟩
          intro ys n
          rw [List.cons_append]
          simp only [countUnescapedQuotesLoop]
          rw [if_neg (by decide), if_neg hb, if_pos hq, h1 ys (n + 1)]
          simp [Nat.add_assoc, Nat.add_comm 1 m]
        · refine ⟨m, e', ?_, fun h => Or.inr (lift false rfl (h2 h))⟩
          intro ys n
          rw [List.cons_append]
          simp only [countUnescapedQuotesLoop]
          rw [if_neg (by decide), if_neg hb, if_neg hq]
          exact h1 ys n

/-- Escaping a quote that does not follow a backslash lowers the count by one. -/
theorem countUnescapedQuotes_escape (xs zs : Text) (hx : ¬ ∃ ws, xs = ws ++ ['\\']) :
    countUnescapedQuotes (xs ++ '\\' :: '"' :: zs) + 1 = countUnescapedQuotes (xs ++ '"' :: zs) := by
  obtain ⟨m, e', h1, h2⟩ := countUnescapedQuotesLoop_append xs false
  have he : e' = false := by
    cases e' with
    | false => rfl
    | true =>
      rcases h2 rfl with ⟨_, h⟩ | h
      · exact absurd h (by decide)
      · exact absurd h hx
  simp only [countUnescapedQuotes]
  rw [h1, h1, he]
  simp only [countUnescapedQuotesLoop]
  simp only [if_true, Bool.false_eq_true, if_false]
  simp [countUnescapedQuotesLoop_add]

theorem escapeLastQuoteLoop_spec (fixed : Text) :
    ∀ n : Nat, escapeLastQuoteLoop fixed n = fixed ∨
      ∃ i, fixed[i]? = some '"' ∧ (i = 0 ∨ fixed[i - 1]? ≠ some '\\') ∧
        escapeLastQuoteLoop fixed n = fixed.take i ++ ['\\', '"'] ++ fixed.drop (i + 1) := by
  intro n
  induction n with
  | zero => exact Or.inl rfl
  | succ i ih =>
    simp only [escapeLastQuoteLoop]
    split_ifs with h1 h2
    · exact Or.inr ⟨i, h1.1, h1.2, rfl⟩
    · exact ih
    · exact ih

theorem escapeLastQuoteLoop_count (fixed : Text) (n : Nat) :
    escapeLastQuoteLoop fixed n = fixed ∨
      countUnescapedQuotes (escapeLastQuoteLoop fixed n) + 1 = countUnescapedQuotes fixed := by
  rcases escapeLastQuoteLoop_spec fixed n with h | ⟨i, hq, hprev, hres⟩
  · exact Or.inl h
  · right
    have hi : i < fixed.length := by
      by_contra hge
      rw [List.getElem?_eq_none (Nat.le_of_not_lt hge)] at hq
      exact Option.noConfusion hq
    have hget : fixed[i] = '"' := by
      rw [List.getElem?_eq_getElem hi] at hq
      exact Option.some.inj hq
    have hdec : fixed = fixed.take i ++ '"' :: fixed.drop (i + 1) := by
      conv_lhs => rw [← List.take_append_drop i fixed, List.drop_eq_getElem_cons hi, hget]
    have hx : ¬ ∃ ws, fixed.take i = ws ++ ['\\'] := by
      rintro ⟨ws, hws⟩
      have hlen : (fixed.take i).length = i := by
        rw [List.length_take]; omega
      have hwl : ws.length + 1 = i := by
        rw [hws] at hlen; simpa using hlen
      rcases hprev with h0 | hne
      · omega
      · apply hne
        have h3 : (fixed.take i)[i - 1]? = fixed[i - 1]? :=
          List.getElem?_take_of_lt (by omega)
        rw [← h3, hws]
        have h4 : i - 1 = ws.length := by omega
        rw [h4, List.getElem?_concat_length]
    rw [hres]
    conv_rhs => rw [hdec]
    simpa using countUnescapedQuotes_escape (fixed.take i) (fixed.drop (i + 1)) hx

theorem escapeLastQuoteLoop_no_newline (fixed : Text) (h : '\n' ∉ fixed) (n : Nat) :
    '\n' ∉ escapeLastQuoteLoop fixed n := by
  rcases escapeLastQuoteLoop_spec fixed n with h1 | ⟨i, _, _, hres⟩
  · rw [h1]; exact h
  · rw [hres]
    intro hm
    simp only [List.mem_append, List.mem_cons, List.mem_singleton, List.not_mem_nil,
      or_false] at hm
    rcases hm with (hm | hm) | hm
    · exact h (List.mem_of_mem_take hm)
    · rcases hm with hm | hm <;> exact absurd hm (by decide)
    · exact h (List.mem_of_mem_drop hm)

theorem fixContentLineQuotes_count (line : Text) :
    fixContentLineQuotes line = line ∨
      countUnescapedQuotes (fixContentLineQuotes line) + 1 = countUnescapedQuotes line := by
  simp only [fixContentLineQuotes]
  split_ifs
  · exact escapeLastQuoteLoop_count line line.length
  · exact Or.inl rfl
  · exact Or.inl rfl

theorem fixContentLineQuotes_no_newline (line : Text) (h : '\n' ∉ line) :
    '\n' ∉ fixContentLineQuotes line := by
  simp only [fixContentLineQuotes]
  split_ifs
  · exact escapeLastQuoteLoop_no_newline line h line.length
  · exact h
  · exact h

end JSONValidator

namespace JSONValidator

/-! ## fixUnpairedQuotes and C3 -/

/-- The loop of `fixUnpairedQuotes` on lines without a newline: one output line per input
line, none with a newline, and every output line has an even count of unescaped quotes or
an Error record carrying its 1-based index was appended. -/
theorem fixUnpairedQuotesLoop_spec (ls : List Text) (hnl : ∀ l ∈ ls, '\n' ∉ l) :
    ∀ i : Nat,
      (fixUnpairedQuotesLoop new i ls []).1.length = ls.length ∧
      (∀ l ∈ (fixUnpairedQuotesLoop new i ls []).1, '\n' ∉ l) ∧
      ∀ (j : Nat) (l : Text), (fixUnpairedQuotesLoop new i ls []).1[j]? = some l →
        countUnescapedQuotes l % 2 = 0 ∨
          ∃ snippet, ErrorRecord.unpairedQuotes (i + j + 1) snippet ∈
            (fixUnpairedQuotesLoop new i ls []).2.errors := by
  induction ls with
  | nil =>
    intro i
    simp [fixUnpairedQuotesLoop]
  | cons line rest ih =>
    intro i
    obtain ⟨hlen, hno, hpar⟩ := ih (fun x hx => hnl x (List.mem_cons_of_mem _ hx)) (i + 1)
    have hline : '\n' ∉ line := hnl line (List.mem_cons_self _ _)
    -- every branch pushes one line `x` and goes on with the rest
    have step : ∀ (st : JSONValidator) (x : Text), '\n' ∉ x →
        (countUnescapedQuotes x % 2 = 0 ∨
          ∃ snippet, ErrorRecord.unpairedQuotes (i + 1) snippet ∈ st.errors) →
        (fixUnpairedQuotesLoop st (i + 1) rest ([] ++ [x])).1.length = (line :: rest).length ∧
        (∀ l ∈ (fixUnpairedQuotesLoop st (i + 1) rest ([] ++ [x])).1, '\n' ∉ l) ∧
        ∀ (j : Nat) (l : Text),
          (fixUnpairedQuotesLoop st (i + 1) rest ([] ++ [x])).1[j]? = some l →
          countUnescapedQuotes l % 2 = 0 ∨
            ∃ snippet, ErrorRecord.unpairedQuotes (i + j + 1) snippet ∈
              (fixUnpairedQuotesLoop st (i + 1) rest ([] ++ [x])).2.errors := by
      intro st x hx hfirst
      rw [fixUnpairedQuotesLoop_frame]
      refine ⟨by simp [hlen], ?_, ?_⟩
      · intro l hl
        simp only [List.nil_append, List.singleton_append, List.mem_cons] at hl
        rcases hl with rfl | hl
        · exact hx
        · exact hno l hl
      · intro j l hj
        simp only [List.nil_append, List.singleton_append] at hj
        cases j with
        | zero =>
          simp only [List.getElem?_cons_zero, Option.some.injEq] at hj
          rcases hfirst with h | ⟨s, hs⟩
          · exact Or.inl (hj ▸ h)
          · exact Or.inr ⟨s, by simp [extend, hs]⟩
        | succ j =>
          simp only [List.getElem?_cons_succ] at hj
          rcases hpar j l hj with h | ⟨s, hs⟩
          · exact Or.inl h
          · refine Or.inr ⟨s, ?_⟩
            have hidx : i + (j + 1) + 1 = i + 1 + j + 1 := by omega
            rw [hidx]
            simp [extend, hs]
    simp only [fixUnpairedQuotesLoop]
    split_ifs with hodd hcont hchg
    · apply step _ _ (fixContentLineQuotes_no_newline line hline)
      left
      rcases fixContentLineQuotes_count line with h | h
      · exact absurd h hchg
      · omega
    · apply step _ _ (fixContentLineQuotes_no_newline line hline)
      exact Or.inr ⟨substring (fixContentLineQuotes line) 100, by simp [pushError, new]⟩
    · apply step _ _ hline
      exact Or.inr ⟨substring line 100, by simp [pushError, new]⟩
    · apply step _ _ hline
      left
      omega

theorem fixHTMLQuotesInContent_errors (self : JSONValidator) (c : Text) :
    (fixHTMLQuotesInContent self c).2.errors = self.errors := by
  simp only [fixHTMLQuotesInContent]
  split_ifs <;> rfl

/-- C3. Quote-balance invariant: for every input text, after `fixQuotes`
(`fixHTMLQuotesInContent` followed by `fixUnpairedQuotes`), every output line that contains
the marker `"Content":` has an even `countUnescapedQuotes` value, or an Error record naming
the 1-based index of that line was appended by `fixUnpairedQuotes`. -/
theorem C3_quote_balance_invariant (self : JSONValidator) (content : Text) (i : Nat)
    (line : Text)
    (hline : (split (fixQuotes self content).1)[i]? = some line)
    (_hmarker : includes "\"Content\":".toList line = true) :
    countUnescapedQuotes line % 2 = 0 ∨
      ∃ (appended : List ErrorRecord) (snippet : List Nat),
        (fixQuotes self content).2.errors = self.errors ++ appended ∧
        ErrorRecord.unpairedQuotes (i + 1) snippet ∈ appended := by
  have hrun : fixQuotes self content =
      (join (fixUnpairedQuotesLoop new 0 (split (fixHTMLQuotesInContent self content).1) []).1,
        (fixHTMLQuotesInContent self content).2.extend
          (fixUnpairedQuotesLoop new 0 (split (fixHTMLQuotesInContent self content).1) []).2) := by
    simp only [fixQuotes, fixUnpairedQuotes]
    rw [fixUnpairedQuotesLoop_frame]
    simp
  obtain ⟨hlen, hno, hpar⟩ :=
    fixUnpairedQuotesLoop_spec (split (fixHTMLQuotesInContent self content).1)
      (split_no_newline _) 0
  rw [hrun] at hline ⊢
  have hne : (fixUnpairedQuotesLoop new 0 (split (fixHTMLQuotesInContent self content).1) []).1
      ≠ [] := by
    intro h0
    rw [h0] at hlen
    exact split_ne_nil _ (List.length_eq_zero.1 hlen.symm)
  simp only [] at hline
  rw [split_join _ hne hno] at hline
  rcases hpar i line hline with h | ⟨s, hs⟩
  · exact Or.inl h
  · refine Or.inr ⟨_, s, ?_, by simpa using hs⟩
    simp [extend, fixHTMLQuotesInContent_errors]

/-- C3: an instance, a line with the marker and three unescaped quotes, which is repaired
to a line with two. -/
theorem C3_quote_balance_invariant_witness :
    countUnescapedQuotes "\"Content\": \\\"x".toList % 2 = 0 ∨
      ∃ (appended : List ErrorRecord) (snippet : List Nat),
        (fixQuotes new "\"Content\": \"x".toList).2.errors = new.errors ++ appended ∧
        ErrorRecord.unpairedQuotes (0 + 1) snippet ∈ appended :=
  C3_quote_balance_invariant new "\"Content\": \"x".toList 0 "\"Content\": \\\"x".toList
    (by decide) (by decide)

end JSONValidator

namespace JSONValidator

/-! ## A run that records no Fix leaves the text as it is -/

theorem extend_fixes (a b : JSONValidator) : (a.extend b).fixes = a.fixes ++ b.fixes := rfl

theorem pushFix_fixes (a : JSONValidator) (f : FixRecord) :
    (a.pushFix f).fixes = a.fixes ++ [f] := rfl

theorem pushError_fixes (a : JSONValidator) (e : ErrorRecord) :
    (a.pushError e).fixes = a.fixes := rfl

theorem new_fixes : new.fixes = [] := rfl

theorem removeUnnecessaryBracketsLoop_no_fix (ls : List Text) :
    ∀ i : Nat, (removeUnnecessaryBracketsLoop new i ls []).2.fixes = [] →
      (removeUnnecessaryBracketsLoop new i ls []).1 = ls := by
  induction ls with
  | nil => intro i _; rfl
  | cons l rest ih =>
    intro i
    simp only [removeUnnecessaryBracketsLoop]
    split_ifs
    · rw [removeUnnecessaryBracketsLoop_frame]
      intro h
      simp [extend_fixes, pushFix_fixes] at h
    · rw [removeUnnecessaryBracketsLoop_frame]
      intro h
      simp only [extend_fixes, new_fixes, List.nil_append] at h
      simp [ih (i + 1) h]

theorem removeUnnecessaryBrackets_no_fix (c : Text)
    (h : (removeUnnecessaryBrackets new c).2.fixes = []) :
    (removeUnnecessaryBrackets new c).1 = c := by
  simp only [removeUnnecessaryBrackets] at h ⊢
  rw [removeUnnecessaryBracketsLoop_no_fix _ 0 h, join_split]

theorem removeJunkLinesLoop_no_fix (ls : List Text) :
    ∀ i : Nat, (removeJunkLinesLoop new i ls []).2.fixes = [] →
      (removeJunkLinesLoop new i ls []).1 = ls := by
  induction ls with
  | nil => intro i _; rfl
  | cons l rest ih =>
    intro i
    simp only [removeJunkLinesLoop]
    split_ifs
    · rw [removeJunkLinesLoop_frame]
      intro h
      simp [extend_fixes, pushFix_fixes] at h
    · rw [removeJunkLinesLoop_frame]
      intro h
      simp only [extend_fixes, new_fixes, List.nil_append] at h
      simp [ih (i + 1) h]

theorem removeJunkLines_no_fix (c : Text) (h : (removeJunkLines new c).2.fixes = []) :
    (removeJunkLines new c).1 = c := by
  simp only [removeJunkLines] at h ⊢
  rw [removeJunkLinesLoop_no_fix _ 0 h, join_split]

theorem replaceContentEscape_zero (c : Text) :
    ∀ skip : Nat, (replaceContentEscape skip c).2 = 0 →
      (replaceContentEscape skip c).1 = c.drop skip := by
  induction c with
  | nil => intro skip _; simp [replaceContentEscape]
  | cons a cs ih =>
    intro skip
    cases skip with
    | succ k =>
      simp only [replaceContentEscape, List.drop_succ_cons]
      exact ih k
    | zero =>
      simp only [replaceContentEscape]
      split
      · intro h
        simp at h
      · intro h
        simp only [List.drop_zero] at ih ⊢
        rw [ih 0 h]
        simp

theorem fixIncorrectContentEscaping_no_fix (c : Text)
    (h : (fixIncorrectContentEscaping new c).2.fixes = []) :
    (fixIncorrectContentEscaping new c).1 = c := by
  simp only [fixIncorrectContentEscaping] at h ⊢
  split_ifs at h ⊢ with hpos
  · simp [pushFix_fixes] at h
  · have h0 : (replaceContentEscape 0 c).2 = 0 := by omega
    simpa using replaceContentEscape_zero c 0 h0

theorem fixBrokenMultilineContentLoop_no_broken (ls : List Text)
    (hb : ∀ l ∈ ls, ¬ EntersBrokenState l) :
    ∀ (i : Nat) (buf : Text),
      fixBrokenMultilineContentLoop new i ls [] false buf = (ls, new) := by
  induction ls with
  | nil => intro i buf; rfl
  | cons l rest ih =>
    intro i buf
    have hl : ¬ EntersBrokenState l := hb l (List.mem_cons_self _ _)
    simp only [fixBrokenMultilineContentLoop]
    unfold EntersBrokenState at hl
    rw [if_neg hl]
    simp only [Bool.false_eq_true, if_false]
    rw [fixBrokenMultilineContentLoop_frame,
      ih (fun x hx => hb x (List.mem_cons_of_mem _ hx)) (i + 1) buf]
    simp [extend_new]

theorem fixBrokenMultilineContent_no_broken (c : Text)
    (hb : ∀ l ∈ split c, ¬ EntersBrokenState l) :
    fixBrokenMultilineContent new c = (c, new) := by
  simp only [fixBrokenMultilineContent]
  rw [fixBrokenMultilineContentLoop_no_broken _ hb, join_split]

theorem fixQuotesInText_no_fix (c : Text) (h : (fixQuotesInText new c).2.fixes = []) :
    (fixQuotesInText new c).1 = c := by
  simp only [fixQuotesInText] at h ⊢
  split_ifs at h ⊢
  · simp [pushFix_fixes] at h
  · rfl

theorem replaceAttributes_zero (c : Text) :
    ∀ (prev : Option Char) (skip : Nat), (replaceAttributes prev skip c).2 = 0 →
      (replaceAttributes prev skip c).1 = c.drop skip := by
  induction c with
  | nil => intro prev skip _; simp [replaceAttributes]
  | cons a cs ih =>
    intro prev skip
    cases skip with
    | succ k =>
      simp only [replaceAttributes, List.drop_succ_cons]
      exact ih (some a) k
    | zero =>
      simp only [replaceAttributes]
      split
      · intro h
        simp at h
      · intro h
        simp only [List.drop_zero] at ih ⊢
        rw [ih (some a) 0 h]
        simp

theorem fixHTMLQuotesInContent_no_fix (c : Text)
    (h : (fixHTMLQuotesInContent new c).2.fixes = []) :
    (fixHTMLQuotesInContent new c).1 = c := by
  simp only [fixHTMLQuotesInContent] at h ⊢
  split_ifs at h ⊢ with hpos
  · simp [pushFix_fixes] at h
  · have h0 : (replaceAttributes none 0 c).2 = 0 := by omega
    simpa using replaceAttributes_zero c none 0 h0

theorem fixUnpairedQuotesLoop_no_fix (ls : List Text) :
    ∀ i : Nat, (fixUnpairedQuotesLoop new i ls []).2.fixes = [] →
      (fixUnpairedQuotesLoop new i ls []).1 = ls := by
  induction ls with
  | nil => intro i _; rfl
  | cons l rest ih =>
    intro i
    simp only [fixUnpairedQuotesLoop]
    split_ifs with h1 h2 h3
    · rw [fixUnpairedQuotesLoop_frame]
      intro h
      simp [extend_fixes, pushFix_fixes] at h
    · rw [fixUnpairedQuotesLoop_frame]
      intro h
      simp only [extend_fixes, pushError_fixes, new_fixes, List.nil_append] at h
      have h4 : fixContentLineQuotes l = l := by simpa using h3
      simp [ih (i + 1) h, h4]
    · rw [fixUnpairedQuotesLoop_frame]
      intro h
      simp only [extend_fixes, pushError_fixes, new_fixes, List.nil_append] at h
      simp [ih (i + 1) h]
    · rw [fixUnpairedQuotesLoop_frame]
      intro h
      simp only [extend_fixes, new_fixes, List.nil_append] at h
      simp [ih (i + 1) h]

theorem fixUnpairedQuotes_no_fix (c : Text) (h : (fixUnpairedQuotes new c).2.fixes = []) :
    (fixUnpairedQuotes new c).1 = c := by
  simp only [fixUnpairedQuotes] at h ⊢
  rw [fixUnpairedQuotesLoop_no_fix _ 0 h, join_split]

theorem fixQuotes_no_fix (c : Text) (h : (fixQuotes new c).2.fixes = []) :
    (fixQuotes new c).1 = c := by
  simp only [fixQuotes] at h ⊢
  rw [fixUnpairedQuotes_frame] at h ⊢
  simp only [extend_fixes, List.append_eq_nil] at h
  rw [fixHTMLQuotesInContent_no_fix c h.1] at h ⊢
  exact fixUnpairedQuotes_no_fix c h.2

theorem fixMissingCommasLoop_no_fix (ls : List Text) :
    ∀ i : Nat, (fixMissingCommasLoop new i ls []).2.fixes = [] →
      (fixMissingCommasLoop new i ls []).1 = ls := by
  induction ls with
  | nil => intro i _; rfl
  | cons l rest ih =>
    intro i
    simp only [fixMissingCommasLoop]
    split_ifs
    · rw [fixMissingCommasLoop_frame]
      intro h
      simp [extend_fixes, pushFix_fixes] at h
    · rw [fixMissingCommasLoop_frame]
      intro h
      simp only [extend_fixes, new_fixes, List.nil_append] at h
      simp [ih (i + 1) h]
    · rw [fixMissingCommasLoop_frame]
      intro h
      simp only [extend_fixes, new_fixes, List.nil_append] at h
      simp [ih (i + 1) h]

theorem fixMissingCommas_no_fix (c : Text) (h : (fixMissingCommas new c).2.fixes = []) :
    (fixMissingCommas new c).1 = c := by
  simp only [fixMissingCommas] at h ⊢
  rw [fixMissingCommasLoop_no_fix _ 0 h, join_split]

theorem applyFixes_eq_runStages (self : JSONValidator) (t : Text) :
    applyFixes self t = runStages pipelineStages self t := by
  simp only [applyFixes, runStages, pipelineStages, List.foldl_cons, List.foldl_nil]

theorem runStages_cons (stage : JSONValidator → Text → Text × JSONValidator)
    (stages : List (JSONValidator → Text → Text × JSONValidator)) (self : JSONValidator)
    (c : Text) :
    runStages (stage :: stages) self c = runStages stages (stage self c).2 (stage self c).1 :=
  rfl

/-- The Fix ledger only grows along methods that satisfy the frame property. -/
theorem runStages_fixes_grow (stages : List (JSONValidator → Text → Text × JSONValidator))
    (hst : ∀ S ∈ stages, ∀ (self : JSONValidator) (c : Text),
      S self c = ((S new c).1, self.extend (S new c).2)) :
    ∀ (self : JSONValidator) (c : Text),
      ∃ ext, (runStages stages self c).2.fixes = self.fixes ++ ext := by
  induction stages with
  | nil => intro self c; exact ⟨[], by simp [runStages]⟩
  | cons S rest ih =>
    intro self c
    obtain ⟨ext, he⟩ := ih (fun S' hS' => hst S' (List.mem_cons_of_mem _ hS'))
      (S self c).2 (S self c).1
    rw [runStages_cons, he]
    have hf : (S self c).2.fixes = self.fixes ++ (S new c).2.fixes := by
      rw [hst S (List.mem_cons_self _ _) self c]
      rfl
    exact ⟨(S new c).2.fixes ++ ext, by rw [hf, List.append_assoc]⟩

/-- If every method satisfies the frame property and returns the text `t` itself when it
records no Fix on it, a run that records no Fix returns `t`. -/
theorem runStages_no_fix (t : Text)
    (stages : List (JSONValidator → Text → Text × JSONValidator))
    (hst : ∀ S ∈ stages, (∀ (self : JSONValidator) (c : Text),
      S self c = ((S new c).1, self.extend (S new c).2)) ∧
      ((S new t).2.fixes = [] → (S new t).1 = t)) :
    ∀ self : JSONValidator, (runStages stages self t).2.fixes = self.fixes →
      (runStages stages self t).1 = t := by
  induction stages with
  | nil => intro self _; rfl
  | cons S rest ih =>
    intro self h
    have hframe := (hst S (List.mem_cons_self _ _)).1
    have hrest := fun S' hS' => hst S' (List.mem_cons_of_mem _ hS')
    have hf : (S self t).2.fixes = self.fixes ++ (S new t).2.fixes := by
      rw [hframe self t]
      rfl
    have ht : (S self t).1 = (S new t).1 := by
      rw [hframe self t]
    obtain ⟨ext, he⟩ := runStages_fixes_grow rest (fun S' hS' => (hrest S' hS').1)
      (S self t).2 (S self t).1
    rw [runStages_cons] at h ⊢
    have hlen := congrArg List.length (he.symm.trans h)
    rw [hf] at hlen
    simp only [List.length_append] at hlen
    have h0 : (S new t).2.fixes = [] := List.length_eq_zero.1 (by omega)
    have h1 : (S self t).1 = t := by
      rw [ht]
      exact (hst S (List.mem_cons_self _ _)).2 h0
    rw [h1] at h ⊢
    apply ih hrest
    rw [h, hf, h0, List.append_nil]

/-- On a text none of whose lines enters the broken state, a run of the transform sequence
that records no Fix returns the text itself. -/
theorem applyFixes_no_fix (self : JSONValidator) (t : Text)
    (hb : ∀ l ∈ split t, ¬ EntersBrokenState l)
    (h : (applyFixes self t).2.fixes = self.fixes) : (applyFixes self t).1 = t := by
  rw [applyFixes_eq_runStages] at h ⊢
  apply runStages_no_fix t pipelineStages _ self h
  intro S hS
  simp only [pipelineStages, List.mem_cons, List.mem_singleton, List.not_mem_nil,
    or_false] at hS
  rcases hS with rfl | rfl | rfl | rfl | rfl | rfl | rfl | rfl
  · exact ⟨removeUnnecessaryBrackets_frame, removeUnnecessaryBrackets_no_fix t⟩
  · exact ⟨removeJunkLines_frame, removeJunkLines_no_fix t⟩
  · exact ⟨fixIncorrectContentEscaping_frame, fixIncorrectContentEscaping_no_fix t⟩
  · exact ⟨fixBrokenMultilineContent_frame,
      fun _ => by rw [fixBrokenMultilineContent_no_broken t hb]⟩
  · exact ⟨fixQuotesInText_frame, fixQuotesInText_no_fix t⟩
  · exact ⟨fixQuotes_frame, fixQuotes_no_fix t⟩
  · exact ⟨fixMissingCommas_frame, fixMissingCommas_no_fix t⟩
  · exact ⟨validateJSONStructure_frame, fun _ => validateJSONStructure_text new t⟩

/-! ## C2: a second run -/

/-- C2, counterexample. On the text with lines `]`, `]` and an opening brace the transform
sequence returns the lines `]` and the brace; run again on that output it returns the brace
alone and appends a Fix record (the removal of the bracket on line 1). -/
theorem C2_counterexample :
    (applyFixes new "]\n]\n\x7b".toList).1 = "]\n\x7b".toList ∧
    applyFixes new "]\n\x7b".toList =
      ("\x7b".toList,
        { errors := [ErrorRecord.jsonStructure], fixes := [FixRecord.removedBracket 1] }) := by
  decide

end JSONValidator

namespace JSONValidator

/-! ## C12, C13: the multiline reassembler -/

/-- C12, the code at the failing input. With the broken line `  "Content": "<p>a`, the
continuation line `b` and the triggering line `  "IMG": 1`, `fixBrokenMultilineContent`
emits a reconstructed line that holds the text of the triggering line as well, then the
triggering line itself, and records one Fix. -/
theorem C12_trigger_text_in_reconstructed_line :
    fixBrokenMultilineContent new "  \"Content\": \"<p>a\nb\n  \"IMG\": 1".toList =
      ("  \"Content\": \"<p>a b \"IMG\": 1\",\n  \"IMG\": 1".toList,
        { errors := [], fixes := [FixRecord.brokenContent 3] }) := by decide

end JSONValidator

namespace JS

/-! ## `includes` and trimming -/

theorem isPrefixOf_append_right (p s t : Text) (h : p.isPrefixOf s = true) :
    p.isPrefixOf (s ++ t) = true := by
  induction p generalizing s with
  | nil => simp [List.isPrefixOf]
  | cons a p ih =>
    cases s with
    | nil => simp [List.isPrefixOf] at h
    | cons b s =>
      simp only [List.cons_append, List.isPrefixOf, Bool.and_eq_true] at h ⊢
      exact ⟨h.1, ih s h.2⟩

theorem includes_nil_left (s : Text) : includes [] s = true := by
  cases s <;> simp [includes, List.isPrefixOf]

theorem includes_append_right (p s t : Text) (h : includes p s = true) :
    includes p (s ++ t) = true := by
  induction s with
  | nil =>
    have hp : p = [] := by simpa [includes] using h
    rw [hp]
    exact includes_nil_left _
  | cons c cs ih =>
    simp only [includes, List.cons_append, Bool.or_eq_true] at h ⊢
    rcases h with h | h
    · exact Or.inl (isPrefixOf_append_right p (c :: cs) t h)
    · exact Or.inr (ih h)

theorem includes_append_left (p s t : Text) (h : includes p s = true) :
    includes p (t ++ s) = true := by
  induction t with
  | nil => exact h
  | cons c cs ih =>
    simp only [includes, List.cons_append, Bool.or_eq_true]
    exact Or.inr ih

/-- What the trimmed line contains, the line contains. -/
theorem includes_of_includes_trim (p line : Text) (h : includes p (trim line) = true) :
    includes p line = true := by
  have h1 := trimEnd_append_trailingSpace (line.dropWhile isWhiteSpace)
  have h2 : line = line.takeWhile isWhiteSpace ++ line.dropWhile isWhiteSpace :=
    (List.takeWhile_append_dropWhile _ _).symm
  rw [h2, ← h1]
  exact includes_append_left _ _ _ (includes_append_right _ _ _ h)

/-- What the line does not contain, the trimmed line does not contain. -/
theorem includes_trim_false (p line : Text) (h : includes p line = false) :
    includes p (trim line) = false := by
  cases hc : includes p (trim line) with
  | false => rfl
  | true =>
    rw [includes_of_includes_trim p line hc] at h
    exact absurd h (by decide)

end JS

namespace JSONValidator

theorem not_entersBrokenState_of_no_marker (l : Text)
    (h : includes "\"Content\":".toList l = false) : ¬ EntersBrokenState l := by
  intro hb
  have := includes_of_includes_trim _ _ hb.1
  rw [h] at this
  exact Bool.false_ne_true this

/-- Lines that do not enter the broken state, read outside the broken state, are emitted
as they are. -/
theorem fixBrokenMultilineContentLoop_pass (pre : List Text)
    (hpre : ∀ l ∈ pre, ¬ EntersBrokenState l) :
    ∀ (self : JSONValidator) (i : Nat) (rest acc : List Text) (buf : Text),
      fixBrokenMultilineContentLoop self i (pre ++ rest) acc false buf =
        fixBrokenMultilineContentLoop self (i + pre.length) rest (acc ++ pre) false buf := by
  induction pre with
  | nil => intro self i rest acc buf; simp
  | cons l pre ih =>
    intro self i rest acc buf
    have hl : ¬ EntersBrokenState l := hpre l (List.mem_cons_self _ _)
    unfold EntersBrokenState at hl
    rw [List.cons_append]
    simp only [fixBrokenMultilineContentLoop]
    rw [if_neg hl]
    simp only [Bool.false_eq_true, if_false]
    rw [ih (fun x hx => hpre x (List.mem_cons_of_mem _ hx))]
    have h1 : i + 1 + pre.length = i + (l :: pre).length := by
      simp only [List.length_cons]; omega
    rw [h1]
    simp

/-- In the broken state, lines none of which is a triggering line are all swallowed. -/
theorem fixBrokenMultilineContentLoop_swallow (ls : List Text)
    (hls : ∀ l ∈ ls, includes "\"IMG\":".toList (trim l) = false ∧
      includes "\"ID\":".toList (trim l) = false ∧
      startsWith ['}'] (trim l) = false ∧ startsWith ['{'] (trim l) = false) :
    ∀ (self : JSONValidator) (i : Nat) (acc : List Text) (buf : Text),
      fixBrokenMultilineContentLoop self i ls acc true buf = (acc, self) := by
  induction ls with
  | nil => intro self i acc buf; rfl
  | cons l rest ih =>
    intro self i acc buf
    obtain ⟨h1, h2, h3, h4⟩ := hls l (List.mem_cons_self _ _)
    have hrest := ih (fun x hx => hls x (List.mem_cons_of_mem _ hx))
    simp only [fixBrokenMultilineContentLoop]
    split_ifs with ha hb
    · exact hrest self (i + 1) acc l
    · rcases hb with hb | hb | hb | hb
      · rw [h1] at hb; exact absurd hb (by decide)
      · rw [h2] at hb; exact absurd hb (by decide)
      · rw [h3] at hb; exact absurd hb (by decide)
      · rw [h4] at hb; exact absurd hb (by decide)
    · exact hrest self (i + 1) acc _

/-- C13. Silent drop at end of input: in `fixBrokenMultilineContent`, if the lines are
those of `P`, then `B`, then those of `C`, where no line of `P` contains `"Content":`, `B`
enters the broken state, and no line of `C` contains `"IMG":` or `"ID":` or starts (after
trimming) with an opening or closing brace, then the output is exactly the lines of `P`
joined by the newline: `B` and every line of `C` are absent from it, and no Fix or Error
record is appended. -/
theorem C13_silent_drop_at_end_of_input (self : JSONValidator) (content : Text)
    (P : List Text) (B : Text) (C : List Text)
    (hsplit : split content = P ++ B :: C)
    (hP : ∀ l ∈ P, includes "\"Content\":".toList l = false)
    (hB : EntersBrokenState B)
    (hC : ∀ l ∈ C, includes "\"IMG\":".toList l = false ∧
      includes "\"ID\":".toList l = false ∧
      startsWith ['\x7b'] (trim l) = false ∧ startsWith ['\x7d'] (trim l) = false) :
    fixBrokenMultilineContent self content = (join P, self) := by
  have hC' : ∀ l ∈ C, includes "\"IMG\":".toList (trim l) = false ∧
      includes "\"ID\":".toList (trim l) = false ∧
      startsWith ['}'] (trim l) = false ∧ startsWith ['{'] (trim l) = false := by
    intro l hl
    obtain ⟨h1, h2, h3, h4⟩ := hC l hl
    exact ⟨includes_trim_false _ _ h1, includes_trim_false _ _ h2, h4, h3⟩
  simp only [fixBrokenMultilineContent, hsplit]
  rw [fixBrokenMultilineContentLoop_pass P
    (fun l hl => not_entersBrokenState_of_no_marker l (hP l hl))]
  simp only [fixBrokenMultilineContentLoop]
  unfold EntersBrokenState at hB
  rw [if_pos hB, fixBrokenMultilineContentLoop_swallow C hC']
  simp

/-- C13: an instance, an opening bracket line, a broken `"Content":` line and one
continuation line. -/
theorem C13_silent_drop_at_end_of_input_witness :
    fixBrokenMultilineContent new "[\n\"Content\": \"<p>a\nb".toList = (join [['[']], new) :=
  C13_silent_drop_at_end_of_input new "[\n\"Content\": \"<p>a\nb".toList [['[']]
    "\"Content\": \"<p>a".toList [['b']] (by decide) (by decide) (by decide) (by decide)

/-! ## C16: the targeted quote repair -/

/-- C16, the code at the failing input. The line `"Content": a\\" x` contains the marker,
has three unescaped quotes in the sense of `countUnescapedQuotes` (the last of them, at
index 14, follows an escaped backslash and is not the final character) and ends in no
field terminator; `fixContentLineQuotes` inserts its backslash before the quote at index
8, the closing quote of the key, not before the quote at index 14. -/
theorem C16_repair_skips_quote_after_escaped_backslash :
    includes "\"Content\":".toList "\"Content\": a\\\\\" x".toList = true ∧
    countUnescapedQuotes "\"Content\": a\\\\\" x".toList = 3 ∧
    matchesQuoteCommaEnd "\"Content\": a\\\\\" x".toList = false ∧
    fixContentLineQuotes "\"Content\": a\\\\\" x".toList =
      "\"Content\\\": a\\\\\" x".toList := by decide

/-! ## C20: the report -/

/-- C20, counterexample. With one Fix and one Error in the ledgers, `printSummary` emits
the partial-repair hint although the Error ledger is not empty. -/
theorem C20_counterexample :
    SummaryLine.hintPartiallyFixed ∈
      printSummary { errors := [ErrorRecord.jsonStructure],
                     fixes := [FixRecord.removedBracket 1] } := by decide

/-- C20, amended. `printSummary` emits the partial-repair hint if and only if the Fix
ledger is non-empty (whether or not there are Errors), the manual-escaping hints if and
only if the Error ledger is non-empty, and the hint that the file is correct if and only
if both ledgers are empty. -/
theorem C20_report_hint_selection (self : JSONValidator) :
    (SummaryLine.hintPartiallyFixed ∈ printSummary self ↔ self.fixes ≠ []) ∧
    (SummaryLine.hintMainProblem ∈ printSummary self ↔ self.errors ≠ []) ∧
    (SummaryLine.hintManualEdit ∈ printSummary self ↔ self.errors ≠ []) ∧
    (SummaryLine.hintEscapeQuotes ∈ printSummary self ↔ self.errors ≠ []) ∧
    (SummaryLine.hintCorrect ∈ printSummary self ↔ self.errors = [] ∧ self.fixes = []) := by
  obtain ⟨errors, fixes⟩ := self
  simp only [printSummary]
  cases errors <;> cases fixes <;> simp

end JSONValidator

namespace JSONValidator

/-! ## C15: the unescaped-quote count -/

theorem trailingBackslashes_concat (pre : Text) (c : Char) :
    trailingBackslashes (pre ++ [c]) =
      if c = '\\' then trailingBackslashes pre + 1 else 0 := by
  simp only [trailingBackslashes, List.reverse_append, List.reverse_singleton,
    List.singleton_append, List.takeWhile_cons]
  by_cases h : c = '\\'
  · simp [h]
  · simp [h]

/-- The scan from a position whose flag `escaped` is the parity of the backslashes before
it counts the quotes preceded by an even run of backslashes. -/
theorem countUnescapedQuotesLoop_positions (xs : Text) :
    ∀ (pre : Text) (n : Nat),
      countUnescapedQuotesLoop xs n (decide (trailingBackslashes pre % 2 = 1)) =
        n + ((List.range xs.length).filter (fun j =>
          xs[j]? == some '"' && trailingBackslashes (pre ++ xs.take j) % 2 == 0)).length := by
  induction xs with
  | nil => intro pre n; simp [countUnescapedQuotesLoop]
  | cons c cs ih =>
    intro pre n
    have htail : ((List.range cs.length).filter (fun j =>
          (c :: cs)[j + 1]? == some '"' &&
            trailingBackslashes (pre ++ (c :: cs).take (j + 1)) % 2 == 0)).length =
        ((List.range cs.length).filter (fun j =>
          cs[j]? == some '"' && trailingBackslashes ((pre ++ [c]) ++ cs.take j) % 2 == 0)).length := by
      congr 1
      apply List.filter_congr
      intro j _
      simp
    have hsplit : ((List.range (c :: cs).length).filter (fun j =>
          (c :: cs)[j]? == some '"' &&
            trailingBackslashes (pre ++ (c :: cs).take j) % 2 == 0)).length =
        (if c = '"' ∧ trailingBackslashes pre % 2 = 0 then 1 else 0) +
        ((List.range cs.length).filter (fun j =>
          cs[j]? == some '"' && trailingBackslashes ((pre ++ [c]) ++ cs.take j) % 2 == 0)).length := by
      rw [← htail, List.length_cons, List.range_succ_eq_map, List.filter_cons]
      by_cases hq : c = '"' ∧ trailingBackslashes pre % 2 = 0
      · rw [if_pos hq, if_pos (by simp [hq.1, hq.2])]
        simp [List.filter_map, Function.comp_def, Nat.add_comm]
      · rw [if_neg hq, if_neg (by
          simp only [List.getElem?_cons_zero, List.take_zero, List.append_nil,
            Bool.and_eq_true, beq_iff_eq, Option.some.injEq]
          exact hq)]
        simp [List.filter_map, Function.comp_def]
    rw [hsplit]
    have hrun := trailingBackslashes_concat pre c
    simp only [countUnescapedQuotesLoop]
    by_cases he : trailingBackslashes pre % 2 = 1
    · have hih := ih (pre ++ [c]) n
      have hpar : decide (trailingBackslashes (pre ++ [c]) % 2 = 1) = false := by
        rw [hrun]
        by_cases hb : c = '\\'
        · rw [if_pos hb]
          simp
          omega
        · rw [if_neg hb]
          simp
      rw [hpar] at hih
      simp only [he, decide_True, if_true]
      rw [hih, if_neg (by omega)]
      simp
    · have he0 : trailingBackslashes pre % 2 = 0 := by omega
      simp only [he, decide_False, Bool.false_eq_true, if_false]
      by_cases hb : c = '\\'
      · have hih := ih (pre ++ [c]) n
        have hpar : decide (trailingBackslashes (pre ++ [c]) % 2 = 1) = true := by
          rw [hrun, if_pos hb]
          simp; omega
        rw [hpar] at hih
        rw [if_pos hb, hih, if_neg (by rw [hb]; simp)]
        simp
      · have hpar : decide (trailingBackslashes (pre ++ [c]) % 2 = 1) = false := by
          rw [hrun, if_neg hb]
          simp
        rw [if_neg hb]
        by_cases hq : c = '"'
        · have hih := ih (pre ++ [c]) (n + 1)
          rw [hpar] at hih
          rw [if_pos hq, hih, if_pos ⟨hq, he0⟩]
          omega
        · have hih := ih (pre ++ [c]) n
          rw [hpar] at hih
          rw [if_neg hq, hih, if_neg (fun h => hq h.1)]
          simp

/-- C15. Unescaped-quote count: for every line, `countUnescapedQuotes(line)`, the count
produced by the escape-pending state machine of the source, equals the number of positions
`i` with a quote at `i` such that the maximal run of consecutive backslashes immediately
before `i` has even length (zero included). -/
theorem C15_unescaped_quote_count (line : Text) :
    countUnescapedQuotes line = (unescapedQuotePositions line).length := by
  have h := countUnescapedQuotesLoop_positions line [] 0
  simp only [countUnescapedQuotes, unescapedQuotePositions, backslashRunBefore]
  simpa [trailingBackslashes] using h

end JSONValidator

namespace JSONValidator

/-! ## C17: lines outside the text field -/

/-- Processing `pre ++ suf` from index `i`: one output line per line of `pre`, none with a
newline, the Fix and Error records for `pre` cite its indices, and the loop goes on with
`suf`. -/
theorem fixUnpairedQuotesLoop_append (pre suf : List Text) (hpre : ∀ l ∈ pre, '\n' ∉ l) :
    ∀ i : Nat, ∃ (op : List Text) (fp : List FixRecord) (ep : List ErrorRecord),
      op.length = pre.length ∧ (∀ l ∈ op, '\n' ∉ l) ∧
      (∀ f ∈ fp, ∃ k, f = FixRecord.unpairedQuote k ∧ i < k ∧ k ≤ i + pre.length) ∧
      (∀ e ∈ ep, ∃ k s, e = ErrorRecord.unpairedQuotes k s ∧ i < k ∧ k ≤ i + pre.length) ∧
      fixUnpairedQuotesLoop new i (pre ++ suf) [] =
        (op ++ (fixUnpairedQuotesLoop new (i + pre.length) suf []).1,
          { errors := ep ++ (fixUnpairedQuotesLoop new (i + pre.length) suf []).2.errors,
            fixes := fp ++ (fixUnpairedQuotesLoop new (i + pre.length) suf []).2.fixes }) := by
  induction pre with
  | nil =>
    intro i
    exact ⟨[], [], [], rfl, by simp, by simp, by simp, by simp⟩
  | cons l pre ih =>
    intro i
    obtain ⟨op, fp, ep, hlen, hnl, hf, hee, he⟩ :=
      ih (fun x hx => hpre x (List.mem_cons_of_mem _ hx)) (i + 1)
    have hl : '\n' ∉ l := hpre l (List.mem_cons_self _ _)
    have hlen' : i + (l :: pre).length = i + 1 + pre.length := by
      simp only [List.length_cons]; omega
    have hfix : ∀ f ∈ fp, ∃ k, f = FixRecord.unpairedQuote k ∧ i < k ∧ k ≤ i + 1 + pre.length := by
      intro f hfm
      obtain ⟨k, hk, h1, h2⟩ := hf f hfm
      exact ⟨k, hk, by omega, h2⟩
    have herr : ∀ e ∈ ep, ∃ k s, e = ErrorRecord.unpairedQuotes k s ∧ i < k ∧
        k ≤ i + 1 + pre.length := by
      intro e hem
      obtain ⟨k, s, hk, h1, h2⟩ := hee e hem
      exact ⟨k, s, hk, by omega, h2⟩
    have hcons : ∀ x : Text, '\n' ∉ x → ∀ y ∈ x :: op, '\n' ∉ y := by
      intro x hx y hy
      rcases List.mem_cons.1 hy with rfl | hy
      · exact hx
      · exact hnl y hy
    rw [hlen', List.cons_append]
    simp only [fixUnpairedQuotesLoop]
    split_ifs
    · refine ⟨fixContentLineQuotes l :: op, FixRecord.unpairedQuote (i + 1) :: fp, ep,
        by simp [hlen], hcons _ (fixContentLineQuotes_no_newline l hl), ?_, herr, ?_⟩
      · intro f hfm
        rcases List.mem_cons.1 hfm with rfl | hfm
        · exact ⟨i + 1, rfl, by omega, by omega⟩
        · exact hfix f hfm
      · rw [fixUnpairedQuotesLoop_frame, he]
        simp [extend, pushFix, new]
    · refine ⟨fixContentLineQuotes l :: op, fp,
        ErrorRecord.unpairedQuotes (i + 1) (substring (fixContentLineQuotes l) 100) :: ep,
        by simp [hlen], hcons _ (fixContentLineQuotes_no_newline l hl), hfix, ?_, ?_⟩
      · intro e hem
        rcases List.mem_cons.1 hem with rfl | hem
        · exact ⟨i + 1, _, rfl, by omega, by omega⟩
        · exact herr e hem
      · rw [fixUnpairedQuotesLoop_frame, he]
        simp [extend, pushError, new]
    · refine ⟨l :: op, fp, ErrorRecord.unpairedQuotes (i + 1) (substring l 100) :: ep,
        by simp [hlen], hcons _ hl, hfix, ?_, ?_⟩
      · intro e hem
        rcases List.mem_cons.1 hem with rfl | hem
        · exact ⟨i + 1, _, rfl, by omega, by omega⟩
        · exact herr e hem
      · rw [fixUnpairedQuotesLoop_frame, he]
        simp [extend, pushError, new]
    · refine ⟨l :: op, fp, ep, by simp [hlen], hcons _ hl, hfix, herr, ?_⟩
      rw [fixUnpairedQuotesLoop_frame, he]
      simp [extend, new]

/-- C17. No guessing outside text fields: for every input text, `fixUnpairedQuotes`
returns every line that does not contain `"Content":` unchanged and at the same position
(the number of lines is preserved); for such a line whose `countUnescapedQuotes` value is
odd it appends exactly one Error record, carrying the 1-based index of the line and its
first 100 characters at most (the first 100 UTF-16 code units, which are the characters of
a JavaScript string), and no Fix record (and for such a line with an even value it appends
no record at all). -/
theorem C17_no_guessing_outside_text_fields (self : JSONValidator) (content : Text)
    (pre : List Text) (text : Text) (rest : List Text)
    (hsplit : split content = pre ++ text :: rest)
    (hno : includes "\"Content\":".toList text = false) :
    LineLeftToErrorLedger self content pre text := by
  have hnl := split_no_newline content
  rw [hsplit] at hnl
  have hpre : ∀ l ∈ pre, '\n' ∉ l := fun l hl => hnl l (List.mem_append_left _ hl)
  have htext : '\n' ∉ text := hnl text (List.mem_append_right _ (List.mem_cons_self _ _))
  have hrest : ∀ l ∈ rest, '\n' ∉ l :=
    fun l hl => hnl l (List.mem_append_right _ (List.mem_cons_of_mem _ hl))
  obtain ⟨op, fp, ep, hlen, hnp, hf, hee, he⟩ :=
    fixUnpairedQuotesLoop_append pre (text :: rest) hpre 0
  obtain ⟨outr, fr, er, hlenr, hnr, hf2, hee2, he2⟩ :=
    fixUnpairedQuotesLoop_append rest [] hrest (pre.length + 1)
  simp only [List.append_nil, fixUnpairedQuotesLoop, List.nil_append] at he2
  have hmid : fixUnpairedQuotesLoop new pre.length (text :: rest) [] =
      (text :: outr,
        { errors := (if countUnescapedQuotes text % 2 ≠ 0 then
              [ErrorRecord.unpairedQuotes (pre.length + 1) (substring text 100)] else []) ++ er,
          fixes := fr }) := by
    have hno' : ¬ includes "\"Content\":".toList text = true := by
      rw [hno]
      decide
    simp only [fixUnpairedQuotesLoop]
    by_cases hodd : countUnescapedQuotes text % 2 ≠ 0
    · rw [if_pos hodd, if_neg hno', if_pos hodd, fixUnpairedQuotesLoop_frame, he2]
      simp [extend, pushError, new]
    · rw [if_neg hodd, if_neg hodd, fixUnpairedQuotesLoop_frame, he2]
      simp [extend, new]
  have hrun : fixUnpairedQuotes self content =
      (join (op ++ text :: outr),
        { errors := self.errors ++ (ep ++
            (if countUnescapedQuotes text % 2 ≠ 0 then
              [ErrorRecord.unpairedQuotes (pre.length + 1) (substring text 100)] else []) ++ er),
          fixes := self.fixes ++ (fp ++ fr) }) := by
    rw [fixUnpairedQuotes_frame]
    simp only [fixUnpairedQuotes, hsplit]
    rw [he]
    simp only [Nat.zero_add]
    rw [hmid]
    simp [extend]
  have hlines : split (join (op ++ text :: outr)) = op ++ text :: outr := by
    apply split_join _ (by simp)
    intro l hl
    rcases List.mem_append.1 hl with hl | hl
    · exact hnp l hl
    · rcases List.mem_cons.1 hl with rfl | hl
      · exact htext
      · exact hnr l hl
  rw [LineLeftToErrorLedger, hrun]
  simp only []
  rw [hlines, hsplit]
  refine ⟨by simp [hlen, hlenr], ?_, fp ++ fr, ep, er, rfl, ?_, rfl, ?_, ?_⟩
  · rw [← hlen, List.getElem?_append_right (Nat.le_refl _)]
    simp
  · intro hm
    rcases List.mem_append.1 hm with hm | hm
    · obtain ⟨k, hk, h1, h2⟩ := hf _ hm
      injection hk with hk
      omega
    · obtain ⟨k, hk, h1, h2⟩ := hf2 _ hm
      injection hk with hk
      omega
  · intro s hm
    obtain ⟨k, s', hk, h1, h2⟩ := hee _ hm
    injection hk with hk
    omega
  · intro s hm
    obtain ⟨k, s', hk, h1, h2⟩ := hee2 _ hm
    injection hk with hk
    omega

/-- C17: an instance, a line without the marker and with one unescaped quote, between two
other lines. -/
theorem C17_no_guessing_outside_text_fields_witness :
    LineLeftToErrorLedger new "[\n\"a\n]".toList [['[']] ['"', 'a'] :=
  C17_no_guessing_outside_text_fields new "[\n\"a\n]".toList [['[']] ['"', 'a'] [[']']]
    (by decide) (by decide)

end JSONValidator

namespace JSONValidator

/-! ## C18: the known phrase -/

theorem isPrefixOf_of_append_cons (p pfx : Text) (a : Char) (x : Text)
    (h : p.isPrefixOf (pfx ++ a :: x) = true) (ha : a ∉ p) : p.isPrefixOf pfx = true := by
  induction pfx generalizing p with
  | nil =>
    cases p with
    | nil => rfl
    | cons b p =>
      simp only [List.nil_append, List.isPrefixOf, Bool.and_eq_true, beq_iff_eq] at h
      exact absurd (h.1 ▸ List.mem_cons_self _ _) ha
  | cons c pfx ih =>
    cases p with
    | nil => rfl
    | cons b p =>
      simp only [List.cons_append, List.isPrefixOf, Bool.and_eq_true] at h ⊢
      exact ⟨h.1, ih p h.2 (fun hm => ha (List.mem_cons_of_mem _ hm))⟩

theorem replaceLiteral_count (p r : Text) (t : Text) :
    ∀ skip : Nat, (replaceLiteral p r skip t).2 = countNonOverlapping p skip t := by
  induction t with
  | nil => intro skip; cases skip <;> rfl
  | cons c cs ih =>
    intro skip
    cases skip with
    | succ k => simp only [replaceLiteral, countNonOverlapping]; exact ih k
    | zero =>
      simp only [replaceLiteral, countNonOverlapping]
      split_ifs
      · simp [ih]
      · simp [ih]

/-- An occurrence of the phrase at the head of a prefix followed by the output of the scan
is an occurrence at the head of that prefix followed by the text scanned. -/
theorem startsWith_phrase_replaceLiteral (cs : Text) :
    ∀ (pfx : Text) (skip : Nat),
      startsWith phrasePattern
        (pfx ++ (replaceLiteral phrasePattern phraseReplacement skip cs).1) = true →
      startsWith phrasePattern (pfx ++ cs.drop skip) = true := by
  induction cs with
  | nil => intro pfx skip h; simpa [replaceLiteral] using h
  | cons c cs ih =>
    intro pfx skip h
    cases skip with
    | succ k =>
      simp only [replaceLiteral, List.drop_succ_cons] at h ⊢
      exact ih pfx k h
    | zero =>
      simp only [replaceLiteral] at h
      simp only [List.drop_zero]
      split_ifs at h with hm
      · have hp : phrasePattern.isPrefixOf pfx = true := by
          apply isPrefixOf_of_append_cons phrasePattern pfx '\\'
            ("\"don't ask, don't tell\\\"".toList ++
              (replaceLiteral phrasePattern phraseReplacement (phrasePattern.length - 1) cs).1)
          · exact h
          · decide
        exact isPrefixOf_append_right _ _ _ hp
      · have h2 := ih (pfx ++ [c]) 0 (by simpa using h)
        simpa using h2

theorem startsWith_phrase_head (x : Text) (h : startsWith phrasePattern x = true) :
    x.head? = some '"' := by
  cases x with
  | nil => exact absurd h (by decide)
  | cons a x =>
    simp only [startsWith, phrasePattern] at h
    have : ('"' == a) = true := by
      have h' : ("\"don't ask, don't tell\"".toList).isPrefixOf (a :: x) = true := h
      simp only [String.toList] at h'
      simp only [List.isPrefixOf, Bool.and_eq_true] at h'
      exact h'.1
    simp only [List.head?_cons, Option.some.injEq]
    exact (beq_iff_eq.1 this).symm

theorem phraseReplacement_quotes :
    ∀ k, k < 25 → phraseReplacement[k]? = some '"' →
      1 ≤ k ∧ phraseReplacement[k - 1]? = some '\\' := by decide

theorem phraseReplacement_length : phraseReplacement.length = 25 := by decide

/-- In the output of the scan every occurrence of the phrase starts right after a
backslash. -/
theorem replaceLiteral_phrase_escaped (cs : Text) :
    ∀ (skip k : Nat),
      startsWith phrasePattern
        ((replaceLiteral phrasePattern phraseReplacement skip cs).1.drop k) = true →
      1 ≤ k ∧ (replaceLiteral phrasePattern phraseReplacement skip cs).1[k - 1]? = some '\\' := by
  induction cs with
  | nil =>
    intro skip k h
    simp only [replaceLiteral, List.drop_nil] at h
    exact absurd h (by decide)
  | cons c cs ih =>
    intro skip k h
    cases skip with
    | succ s =>
      simp only [replaceLiteral] at h ⊢
      exact ih s k h
    | zero =>
      simp only [replaceLiteral] at h ⊢
      split_ifs at h ⊢ with hm
      · -- a match: the output starts with the replacement
        by_cases hk : k < 25
        · have hhead := startsWith_phrase_head _ h
          rw [List.head?_drop, List.getElem?_append_left (by rw [phraseReplacement_length]; exact hk)]
            at hhead
          obtain ⟨h1, h2⟩ := phraseReplacement_quotes k hk hhead
          refine ⟨h1, ?_⟩
          rw [List.getElem?_append_left (by rw [phraseReplacement_length]; omega)]
          exact h2
        · obtain ⟨j, rfl⟩ : ∃ j, k = phraseReplacement.length + j :=
            ⟨k - 25, by rw [phraseReplacement_length]; omega⟩
          simp only [] at h
          rw [List.drop_append] at h
          obtain ⟨h1, h2⟩ := ih _ j h
          refine ⟨by omega, ?_⟩
          rw [List.getElem?_append_right (by omega)]
          have hj : phraseReplacement.length + j - 1 - phraseReplacement.length = j - 1 := by
            omega
          rw [hj]
          exact h2
      · cases k with
        | zero =>
          have := startsWith_phrase_replaceLiteral cs [c] 0 (by simpa using h)
          exact absurd (by simpa using this) hm
        | succ k =>
          simp only [List.drop_succ_cons] at h
          obtain ⟨h1, h2⟩ := ih 0 k h
          refine ⟨by omega, ?_⟩
          have hk : k + 1 - 1 = (k - 1) + 1 := by omega
          rw [hk, List.getElem?_cons_succ]
          exact h2

theorem countNonOverlapping_eq_zero (p : Text) (hp : p ≠ []) (t : Text) :
    countNonOverlapping p 0 t = 0 ↔ ∀ k, startsWith p (t.drop k) = false := by
  induction t with
  | nil =>
    simp only [countNonOverlapping, List.drop_nil, true_iff]
    intro _
    cases p with
    | nil => exact absurd rfl hp
    | cons a p => rfl
  | cons c cs ih =>
    simp only [countNonOverlapping]
    split_ifs with hm
    · simp only [Nat.add_one_ne_zero, false_iff, not_forall]
      exact ⟨0, by simp [hm]⟩
    · rw [ih]
      constructor
      · intro h k
        cases k with
        | zero => simp [hm]
        | succ k => simpa using h k
      · intro h k
        simpa using h (k + 1)

theorem startsWith_append_self (p x : Text) : startsWith p (p ++ x) = true := by
  induction p with
  | nil => simp [startsWith, List.isPrefixOf]
  | cons a p ih => simp [startsWith, List.isPrefixOf]

theorem startsWith_iff_append (p t : Text) :
    startsWith p t = true ↔ ∃ x, t = p ++ x := by
  constructor
  · intro h
    induction p generalizing t with
    | nil => exact ⟨t, rfl⟩
    | cons a p ih =>
      cases t with
      | nil => simp [startsWith, List.isPrefixOf] at h
      | cons b t =>
        simp only [startsWith, List.isPrefixOf, Bool.and_eq_true, beq_iff_eq] at h
        obtain ⟨x, hx⟩ := ih t h.2
        exact ⟨x, by rw [h.1, hx]; rfl⟩
  · rintro ⟨x, rfl⟩
    exact startsWith_append_self p x

/-- C18. Known-phrase escaping postcondition: for every input text, the output of
`fixQuotesInText` contains no occurrence of the phrase `"don't ask, don't tell"` (with its
two double quotes) whose opening quote is not immediately preceded by a backslash; with
`n` the number of non-overlapping occurrences of the phrase in the input, exactly one Fix
record, reporting the count `n`, is appended when `n` is at least 1, and when `n` is 0,
that is when the input contains no occurrence at all, no record is appended and the text
is returned unchanged. -/
theorem C18_known_phrase_postcondition (self : JSONValidator) (content : Text) :
    (∀ pre post : Text, (fixQuotesInText self content).1 = pre ++ phrasePattern ++ post →
      ∃ pre', pre = pre' ++ ['\\']) ∧
    (fixQuotesInText self content).2 =
      (if 1 ≤ countNonOverlapping phrasePattern 0 content then
        self.pushFix (FixRecord.phrase (countNonOverlapping phrasePattern 0 content))
       else self) ∧
    (countNonOverlapping phrasePattern 0 content = 0 →
      (fixQuotesInText self content).1 = content) ∧
    (countNonOverlapping phrasePattern 0 content = 0 ↔
      ¬ ∃ pre post : Text, content = pre ++ phrasePattern ++ post) := by
  refine ⟨?_, ?_, ?_, ?_⟩
  · intro pre post hout
    have htext : (fixQuotesInText self content).1 =
        (replaceLiteral phrasePattern phraseReplacement 0 content).1 ∨
        (fixQuotesInText self content).1 = content ∧
          (replaceLiteral phrasePattern phraseReplacement 0 content).2 = 0 := by
      simp only [fixQuotesInText]
      split_ifs with h
      · exact Or.inl rfl
      · exact Or.inr ⟨rfl, by omega⟩
    have key : ∀ out : Text, out = pre ++ phrasePattern ++ post →
        (∀ k, startsWith phrasePattern (out.drop k) = true →
          1 ≤ k ∧ out[k - 1]? = some '\\') → ∃ pre', pre = pre' ++ ['\\'] := by
      intro out ho hall
      have hs : startsWith phrasePattern (out.drop pre.length) = true := by
        rw [ho, List.append_assoc, List.drop_left]
        exact startsWith_append_self _ _
      obtain ⟨h1, h2⟩ := hall pre.length hs
      rcases List.eq_nil_or_concat pre with hnil | ⟨L, b, hL⟩
      · rw [hnil] at h1
        exact absurd h1 (by simp)
      · refine ⟨L, ?_⟩
        rw [List.concat_eq_append] at hL
        rw [ho, hL, List.append_assoc, List.append_assoc] at h2
        have hlen : (L ++ [b]).length - 1 = L.length := by simp
        rw [hlen, List.getElem?_append_right (Nat.le_refl _)] at h2
        simp only [Nat.sub_self, List.singleton_append, List.getElem?_cons_zero,
          Option.some.injEq] at h2
        rw [hL, h2]
    rcases htext with h | ⟨h, h0⟩
    · exact key _ (h ▸ hout) (replaceLiteral_phrase_escaped content 0)
    · -- no occurrence in the input, which is the output
      rw [replaceLiteral_count, countNonOverlapping_eq_zero _ (by decide)] at h0
      rw [h] at hout
      have := h0 pre.length
      rw [hout, List.append_assoc, List.drop_left, startsWith_append_self] at this
      exact absurd this (by decide)
  · simp only [fixQuotesInText, replaceLiteral_count]
    split_ifs with h1 h2 h2
    · rfl
    · omega
    · omega
    · rfl
  · intro h0
    simp only [fixQuotesInText, replaceLiteral_count]
    rw [if_neg (by omega)]
  · rw [countNonOverlapping_eq_zero _ (by decide)]
    constructor
    · rintro h ⟨pre, post, hc⟩
      have := h pre.length
      rw [hc, List.append_assoc, List.drop_left, startsWith_append_self] at this
      exact absurd this (by decide)
    · intro h k
      cases hs : startsWith phrasePattern (content.drop k) with
      | false => rfl
      | true =>
        obtain ⟨x, hx⟩ := (startsWith_iff_append _ _).1 hs
        exact absurd ⟨content.take k, x, by
          rw [List.append_assoc, ← hx, List.take_append_drop]⟩ h

end JSONValidator

namespace JSONValidator

/-! ## C11: the junk removal scenario -/

theorem pipelineStages_frame :
    ∀ S ∈ pipelineStages, ∀ (self : JSONValidator) (c : Text),
      S self c = ((S new c).1, self.extend (S new c).2) := by
  intro S hS
  simp only [pipelineStages, List.mem_cons, List.mem_singleton, List.not_mem_nil,
    or_false] at hS
  rcases hS with rfl | rfl | rfl | rfl | rfl | rfl | rfl | rfl
  · exact removeUnnecessaryBrackets_frame
  · exact removeJunkLines_frame
  · exact fixIncorrectContentEscaping_frame
  · exact fixBrokenMultilineContent_frame
  · exact fixQuotesInText_frame
  · exact fixQuotes_frame
  · exact fixMissingCommas_frame
  · exact validateJSONStructure_frame

theorem runStages_frame (stages : List (JSONValidator → Text → Text × JSONValidator))
    (hst : ∀ S ∈ stages, ∀ (self : JSONValidator) (c : Text),
      S self c = ((S new c).1, self.extend (S new c).2)) :
    ∀ (self : JSONValidator) (c : Text),
      runStages stages self c =
        ((runStages stages new c).1, self.extend (runStages stages new c).2) := by
  induction stages with
  | nil => intro self c; simp [runStages, extend, new]
  | cons S rest ih =>
    intro self c
    have hrest := ih (fun S' hS' => hst S' (List.mem_cons_of_mem _ hS'))
    have hS := hst S (List.mem_cons_self _ _) self c
    rw [runStages_cons, runStages_cons, hS]
    simp only []
    rw [hrest (self.extend (S new c).2), hrest (S new c).2, extend_extend]

theorem removeUnnecessaryBracketsLoop_no_fix_any (ls : List Text) :
    ∀ i j : Nat, (removeUnnecessaryBracketsLoop new i ls []).2.fixes = [] →
      removeUnnecessaryBracketsLoop new j ls [] = (ls, new) := by
  induction ls with
  | nil => intro i j _; rfl
  | cons l rest ih =>
    intro i j
    simp only [removeUnnecessaryBracketsLoop]
    split_ifs
    · rw [removeUnnecessaryBracketsLoop_frame]
      intro h
      simp [extend_fixes, pushFix_fixes] at h
    · rw [removeUnnecessaryBracketsLoop_frame rest new (i + 1) ([] ++ [l]),
        removeUnnecessaryBracketsLoop_frame rest new (j + 1) ([] ++ [l])]
      intro h
      simp only [extend_fixes, new_fixes, List.nil_append] at h
      rw [ih (i + 1) (j + 1) h]
      simp [extend_new]

theorem removeJunkLinesLoop_no_fix_any (ls : List Text) :
    ∀ i j : Nat, (removeJunkLinesLoop new i ls []).2.fixes = [] →
      removeJunkLinesLoop new j ls [] = (ls, new) := by
  induction ls with
  | nil => intro i j _; rfl
  | cons l rest ih =>
    intro i j
    simp only [removeJunkLinesLoop]
    split_ifs
    · rw [removeJunkLinesLoop_frame]
      intro h
      simp [extend_fixes, pushFix_fixes] at h
    · rw [removeJunkLinesLoop_frame rest new (i + 1) ([] ++ [l]),
        removeJunkLinesLoop_frame rest new (j + 1) ([] ++ [l])]
      intro h
      simp only [extend_fixes, new_fixes, List.nil_append] at h
      rw [ih (i + 1) (j + 1) h]
      simp [extend_new]

theorem pipelineStages_eq :
    pipelineStages =
      removeUnnecessaryBrackets :: removeJunkLines :: pipelineStages.drop 2 := by
  simp only [pipelineStages, List.drop_succ_cons, List.drop_zero]

/-- The first two methods on a text on which the whole sequence records no Fix: both
return the text and the ledgers as they were. -/
theorem applyFixes_first_two (J : Text) (hfix : (applyFixes new J).2.fixes = []) :
    removeUnnecessaryBracketsLoop new 0 (split J) [] = (split J, new) ∧
    removeJunkLinesLoop new 0 (split J) [] = (split J, new) ∧
    applyFixes new J = runStages (pipelineStages.drop 2) new J := by
  have hlist := pipelineStages_eq
  have hframe := pipelineStages_frame
  rw [applyFixes_eq_runStages, hlist, runStages_cons] at hfix
  obtain ⟨ext, he⟩ := runStages_fixes_grow (removeJunkLines :: pipelineStages.drop 2)
    (fun S hS => hframe S (by rw [hlist]; exact List.mem_cons_of_mem _ hS))
    (removeUnnecessaryBrackets new J).2 (removeUnnecessaryBrackets new J).1
  rw [he] at hfix
  have h1 : (removeUnnecessaryBrackets new J).2.fixes = [] := (List.append_eq_nil.1 hfix).1
  have e1 : removeUnnecessaryBracketsLoop new 0 (split J) [] = (split J, new) :=
    removeUnnecessaryBracketsLoop_no_fix_any _ 0 0 h1
  have r1 : removeUnnecessaryBrackets new J = (J, new) := by
    simp only [removeUnnecessaryBrackets, e1, join_split]
  have hfix2 : (runStages (removeJunkLines :: pipelineStages.drop 2) new J).2.fixes = [] := by
    have := (List.append_eq_nil.1 hfix).2
    rw [this, List.append_nil, r1] at he
    dsimp only at he
    rw [new_fixes] at he
    exact he
  rw [runStages_cons] at hfix2
  obtain ⟨ext2, he2⟩ := runStages_fixes_grow (pipelineStages.drop 2)
    (fun S hS => hframe S (List.mem_of_mem_drop hS))
    (removeJunkLines new J).2 (removeJunkLines new J).1
  rw [he2] at hfix2
  have h2 : (removeJunkLines new J).2.fixes = [] := (List.append_eq_nil.1 hfix2).1
  have e2 : removeJunkLinesLoop new 0 (split J) [] = (split J, new) :=
    removeJunkLinesLoop_no_fix_any _ 0 0 h2
  have r2 : removeJunkLines new J = (J, new) := by
    simp only [removeJunkLines, e2, join_split]
  refine ⟨e1, e2, ?_⟩
  rw [applyFixes_eq_runStages]
  conv_lhs => rw [hlist]
  rw [runStages_cons, r1, runStages_cons, r2]

/-- C11, counterexample. The text `["don't ask, don't tell"]` is valid JSON, and on the
code-fence line followed by it the transform sequence returns a text that is not it: the
known phrase has been rewritten with escaped quotes. -/
theorem C11_counterexample :
    JSON.parses "[\"don't ask, don't tell\"]".toList = true ∧
    (applyFixes new "```json\n[\"don't ask, don't tell\"]".toList).1 =
      "[\\\"don't ask, don't tell\\\"]".toList := by decide

/-- A junk line that is not a lone bracket, put before a text on which the sequence records
no Fix and loses no line, is removed, and the text comes back. -/
theorem applyFixes_junk_first_line (self : JSONValidator) (l0 J : Text)
    (h0 : '\n' ∉ l0) (hjunk : isJunk (trim l0) = true) (hnb : trim l0 ≠ [']'])
    (hbroken : ∀ l ∈ split J, ¬ EntersBrokenState l)
    (hfix : (applyFixes new J).2.fixes = []) :
    applyFixes self (l0 ++ '\n' :: J) =
      (J, { errors := self.errors ++ (applyFixes new J).2.errors,
            fixes := self.fixes ++ [FixRecord.removedJunk 1 (trim l0)] }) := by
  obtain ⟨e1, e2, e3⟩ := applyFixes_first_two J hfix
  have hlist := pipelineStages_eq
  have hJ : (applyFixes new J).1 = J := applyFixes_no_fix new J hbroken hfix
  have hsplit : split (l0 ++ '\n' :: J) = l0 :: split J := split_append_newline _ _ h0
  have s1 : removeUnnecessaryBrackets self (l0 ++ '\n' :: J) = (l0 ++ '\n' :: J, self) := by
    have hkeep : ¬ (trim l0 = [']'] ∧ shouldRemove ((split J).take 4) = true) :=
      fun h => hnb h.1
    have hloop : removeUnnecessaryBracketsLoop new 1 (split J) [] = (split J, new) :=
      removeUnnecessaryBracketsLoop_no_fix_any _ 0 1 (by rw [e1]; rfl)
    simp only [removeUnnecessaryBrackets, hsplit, removeUnnecessaryBracketsLoop]
    rw [if_neg hkeep, removeUnnecessaryBracketsLoop_frame, hloop]
    simp only [Nat.zero_add, List.nil_append, List.singleton_append, extend]
    rw [← hsplit, join_split]
    simp [new]
  have s2 : removeJunkLines self (l0 ++ '\n' :: J) =
      (J, self.pushFix (FixRecord.removedJunk 1 (trim l0))) := by
    have hloop : removeJunkLinesLoop new 1 (split J) [] = (split J, new) :=
      removeJunkLinesLoop_no_fix_any _ 0 1 (by rw [e2]; rfl)
    simp only [removeJunkLines, hsplit, removeJunkLinesLoop]
    rw [if_pos hjunk, removeJunkLinesLoop_frame, hloop]
    simp only [Nat.zero_add, List.nil_append, join_split, extend]
    simp [new, pushFix]
  rw [applyFixes_eq_runStages]
  conv_lhs => rw [hlist]
  rw [runStages_cons, s1, runStages_cons, s2]
  simp only []
  rw [runStages_frame _ (fun S hS => pipelineStages_frame S (List.mem_of_mem_drop hS)), ← e3,
    hJ]
  simp [extend, pushFix, hfix]

/-- C11, amended. For every text `J` on which the transform sequence of `validateAndFix`
appends no Fix record and none of whose lines enters the broken state of
`fixBrokenMultilineContent`, running the sequence on the code-fence line followed by a
newline and `J` removes that first line and leaves the rest unchanged: the output text is
`J`, the only Fix record appended is the removal of the junk line 1, and the Error records
appended are those of the run on `J`. -/
theorem C11_junk_line_removed_before_clean_text (self : JSONValidator) (J : Text)
    (hbroken : ∀ l ∈ split J, ¬ EntersBrokenState l)
    (hfix : (applyFixes new J).2.fixes = []) :
    applyFixes self ("```json".toList ++ '\n' :: J) =
      (J, { errors := self.errors ++ (applyFixes new J).2.errors,
            fixes := self.fixes ++ [FixRecord.removedJunk 1 "```json".toList] }) := by
  have h := applyFixes_junk_first_line self "```json".toList J (by decide) (by decide)
    (by decide) hbroken hfix
  have htrim : trim "```json".toList = "```json".toList := by decide
  rw [htrim] at h
  exact h

/-- C11, amended: an instance, the output text of the end-to-end scenario. -/
theorem C11_junk_line_removed_before_clean_text_witness :
    applyFixes new
        ("```json".toList ++ '\n' :: "[\n  \x7b\"ID\": 1\x7d,\n  \x7b\"ID\": 2\x7d\n]".toList) =
      ("[\n  \x7b\"ID\": 1\x7d,\n  \x7b\"ID\": 2\x7d\n]".toList,
        { errors := new.errors ++
            (applyFixes new "[\n  \x7b\"ID\": 1\x7d,\n  \x7b\"ID\": 2\x7d\n]".toList).2.errors,
          fixes := new.fixes ++ [FixRecord.removedJunk 1 "```json".toList] }) :=
  C11_junk_line_removed_before_clean_text new
    "[\n  \x7b\"ID\": 1\x7d,\n  \x7b\"ID\": 2\x7d\n]".toList (by decide) (by decide)

end JSONValidator

namespace JSONValidator

/-! ## C14: the content-escape normaliser -/

theorem contentKey_length : contentKey.length = 10 := by decide

theorem matchContentEscape_eq (s : Text) :
    matchContentEscape s =
      if startsWith contentKey s = true then
        if startsWith ['\\', '"'] ((s.drop 10).dropWhile isWhiteSpace) = true then
          some (10 + ((s.drop 10).takeWhile isWhiteSpace).length + 2)
        else none
      else none := rfl

/-- The matcher of the model finds exactly the occurrences, and returns their length. -/
theorem matchContentEscape_iff (s : Text) (n : Nat) :
    matchContentEscape s = some n ↔
      ∃ gap tail : Text, (∀ c ∈ gap, isWhiteSpace c = true) ∧
        s = contentKey ++ gap ++ '\\' :: '"' :: tail ∧ n = 12 + gap.length := by
  rw [matchContentEscape_eq]
  constructor
  · intro h
    split_ifs at h with h1 h2
    obtain ⟨x, hx⟩ := (startsWith_iff_append _ _).1 h1
    have hdrop : s.drop 10 = x := by
      rw [hx, ← contentKey_length, List.drop_left]
    rw [hdrop] at h h2
    obtain ⟨y, hy⟩ := (startsWith_iff_append _ _).1 h2
    refine ⟨x.takeWhile isWhiteSpace, y, fun c hc => List.mem_takeWhile_imp hc, ?_, ?_⟩
    · rw [hx, List.append_assoc]
      congr 1
      conv_lhs => rw [← List.takeWhile_append_dropWhile isWhiteSpace x, hy]
      rfl
    · simp only [Option.some.injEq] at h
      omega
  · rintro ⟨gap, tail, hgap, rfl, rfl⟩
    have hbs : ¬ isWhiteSpace '\\' = true := by decide
    have hdrop : (contentKey ++ gap ++ '\\' :: '"' :: tail).drop 10
        = gap ++ '\\' :: '"' :: tail := by
      rw [List.append_assoc, ← contentKey_length, List.drop_left]
    rw [hdrop, List.append_assoc, if_pos (startsWith_append_self _ _),
      List.dropWhile_append_of_pos hgap, List.dropWhile_cons_of_neg hbs,
      List.takeWhile_append_of_pos hgap, List.takeWhile_cons_of_neg hbs,
      if_pos (by simp [startsWith, List.isPrefixOf])]
    simp
    omega

theorem contentEscapeAt_iff (s : Text) :
    ContentEscapeAt s ↔ (matchContentEscape s).isSome = true := by
  constructor
  · rintro ⟨gap, tail, hgap, hs⟩
    rw [(matchContentEscape_iff s (12 + gap.length)).2 ⟨gap, tail, hgap, hs, rfl⟩]
    rfl
  · intro h
    obtain ⟨n, hn⟩ := Option.isSome_iff_exists.1 h
    obtain ⟨gap, tail, hgap, hs, _⟩ := (matchContentEscape_iff s n).1 hn
    exact ⟨gap, tail, hgap, hs⟩

theorem contentEscapeAt_append (p x y : Text) (gap : Text)
    (hgap : ∀ c ∈ gap, isWhiteSpace c = true)
    (hp : p = contentKey ++ gap ++ ['\\', '"']) : ContentEscapeAt (p ++ x ++ y) := by
  refine ⟨gap, x ++ y, hgap, ?_⟩
  rw [hp]
  simp

/-- The quotes of an occurrence are its first character, the one at index 8 and its last
character. -/
theorem occurrence_quote_index (gap : Text) (hgap : ∀ c ∈ gap, isWhiteSpace c = true)
    (j : Nat) (hj : j + 3 ≤ 12 + gap.length)
    (hq : (contentKey ++ gap ++ ['\\', '"'])[j]? = some '"') : j = 0 ∨ j = 8 := by
  by_cases h10 : j < 10
  · rw [List.append_assoc, List.getElem?_append_left (by rw [contentKey_length]; exact h10)]
      at hq
    have key : ∀ i, i < 10 → contentKey[i]? = some '"' → i = 0 ∨ i = 8 := by decide
    exact key j h10 hq
  · exfalso
    rw [List.append_assoc, List.getElem?_append_right (by rw [contentKey_length]; omega),
      contentKey_length, List.getElem?_append_left (by omega)] at hq
    have hmem : '"' ∈ gap := List.getElem?_mem hq
    have := hgap _ hmem
    exact absurd this (by decide)

/-- An occurrence at the head of a prefix followed by the replacement text cannot reach
beyond the key of the replacement: it is also an occurrence when anything else follows
the key. -/
theorem contentEscapeAt_key_prefix (pfx x y : Text)
    (h : ContentEscapeAt (pfx ++ (contentKey ++ ' ' :: '"' :: x))) :
    ContentEscapeAt (pfx ++ (contentKey ++ y)) := by
  obtain ⟨gap, tail, hgap, hs⟩ := h
  have hlen := congrArg List.length hs
  simp only [List.length_append, List.length_cons, contentKey_length] at hlen
  by_cases hfit : 12 + gap.length ≤ pfx.length + 10
  · -- the occurrence ends within the prefix and the key
    have hs' : (pfx ++ contentKey) ++ (' ' :: '"' :: x) =
        (contentKey ++ gap ++ ['\\', '"']) ++ tail := by
      rw [List.append_assoc, hs]
      simp
    obtain ⟨z, hz⟩ : ∃ z, pfx ++ contentKey = (contentKey ++ gap ++ ['\\', '"']) ++ z := by
      rcases List.append_eq_append_iff.1 hs' with ⟨a, ha, _⟩ | ⟨a, ha, _⟩
      · have hl := congrArg List.length ha
        simp only [List.length_append, List.length_cons, List.length_nil,
          contentKey_length] at hl
        have ha0 : a = [] := List.length_eq_zero.1 (by omega)
        exact ⟨[], by rw [ha, ha0]; simp⟩
      · exact ⟨a, ha⟩
    refine ⟨gap, z ++ y, hgap, ?_⟩
    rw [← List.append_assoc, hz]
    simp
  · exfalso
    -- two quotes of the replacement key fall inside the occurrence
    have hq : ∀ j, j < 10 → contentKey[j]? = some '"' →
        (contentKey ++ gap ++ ['\\', '"'])[pfx.length + j]? = some '"' := by
      intro j hj hk
      have h1 : (pfx ++ (contentKey ++ ' ' :: '"' :: x))[pfx.length + j]? = some '"' := by
        rw [List.getElem?_append_right (by omega)]
        have : pfx.length + j - pfx.length = j := by omega
        rw [this, List.getElem?_append_left (by rw [contentKey_length]; exact hj)]
        exact hk
      rw [hs] at h1
      have h2 : contentKey ++ gap ++ '\\' :: '"' :: tail =
          (contentKey ++ gap ++ ['\\', '"']) ++ tail := by simp
      rw [h2, List.getElem?_append_left (by
        simp only [List.length_append, List.length_cons, List.length_nil, contentKey_length]
        omega)] at h1
      exact h1
    have hq0 := occurrence_quote_index gap hgap (pfx.length + 0) (by omega)
      (hq 0 (by omega) (by decide))
    have hq8 := occurrence_quote_index gap hgap (pfx.length + 8) (by omega)
      (hq 8 (by omega) (by decide))
    have hp0 : pfx = [] := List.length_eq_zero.1 (by omega)
    rw [hp0] at hs
    simp only [List.nil_append, List.append_assoc] at hs
    have hs2 := List.append_cancel_left hs
    cases gap with
    | nil =>
      simp only [List.nil_append, List.cons.injEq] at hs2
      exact absurd hs2.1 (by decide)
    | cons g gap =>
      cases gap with
      | nil =>
        simp only [List.cons_append, List.nil_append, List.cons.injEq] at hs2
        exact absurd hs2.2.1 (by decide)
      | cons g2 gap =>
        simp only [List.cons_append, List.cons.injEq] at hs2
        have := hgap g2 (by simp)
        rw [← hs2.2.1] at this
        exact absurd this (by decide)

end JSONValidator

namespace JSONValidator

theorem replaceContentEscape_match (c : Char) (cs : Text) (n : Nat)
    (hm : matchContentEscape (c :: cs) = some n) :
    replaceContentEscape 0 (c :: cs) =
      (contentKey ++ ' ' :: '"' :: (replaceContentEscape (n - 1) cs).1,
        (replaceContentEscape (n - 1) cs).2 + 1) := by
  simp only [replaceContentEscape, hm]
  rfl

theorem replaceContentEscape_nomatch (c : Char) (cs : Text)
    (hm : matchContentEscape (c :: cs) = none) :
    replaceContentEscape 0 (c :: cs) =
      (c :: (replaceContentEscape 0 cs).1, (replaceContentEscape 0 cs).2) := by
  simp only [replaceContentEscape, hm]

theorem not_contentEscapeAt_of_none (s : Text) (h : matchContentEscape s = none) :
    ¬ ContentEscapeAt s := by
  rw [contentEscapeAt_iff, h]
  decide

/-- An occurrence at the head of a prefix followed by the output of the scan is an
occurrence at the head of that prefix followed by the text scanned. -/
theorem contentEscapeAt_replaceContentEscape (cs : Text) :
    ∀ (pfx : Text) (skip : Nat),
      ContentEscapeAt (pfx ++ (replaceContentEscape skip cs).1) →
      ContentEscapeAt (pfx ++ cs.drop skip) := by
  induction cs with
  | nil => intro pfx skip h; simpa [replaceContentEscape] using h
  | cons c cs ih =>
    intro pfx skip h
    cases skip with
    | succ k =>
      simp only [replaceContentEscape, List.drop_succ_cons] at h ⊢
      exact ih pfx k h
    | zero =>
      simp only [List.drop_zero]
      cases hm : matchContentEscape (c :: cs) with
      | some n =>
        rw [replaceContentEscape_match c cs n hm] at h
        obtain ⟨gap, tail, _, hs, _⟩ := (matchContentEscape_iff _ n).1 hm
        rw [hs, List.append_assoc]
        exact contentEscapeAt_key_prefix pfx _ _ h
      | none =>
        rw [replaceContentEscape_nomatch c cs hm] at h
        have h2 := ih (pfx ++ [c]) 0 (by simpa using h)
        simpa using h2

theorem contentEscapeAt_head (x : Text) (h : ContentEscapeAt x) :
    x[0]? = some '"' ∧ x[1]? = some 'C' := by
  obtain ⟨gap, tail, _, hs⟩ := h
  rw [hs]
  exact ⟨rfl, rfl⟩

theorem replacement_inner_positions :
    ∀ k, 1 ≤ k → k ≤ 10 →
      ¬ ((contentKey ++ [' ', '"'])[k]? = some '"' ∧
          (contentKey ++ [' ', '"'])[k + 1]? = some 'C') := by decide

theorem not_contentEscapeAt_replacement (x : Text) :
    ¬ ContentEscapeAt (contentKey ++ ' ' :: '"' :: x) := by
  intro h
  have h2 := contentEscapeAt_key_prefix [] x [] h
  simp only [List.nil_append, List.append_nil] at h2
  exact absurd ((contentEscapeAt_iff _).1 h2) (by decide)

/-- When no occurrence of the text scanned starts at the closing quote of another, the
output of the scan holds no occurrence. -/
theorem replaceContentEscape_clean (cs : Text) :
    ∀ skip : Nat,
      (∀ k n, matchContentEscape ((cs.drop skip).drop k) = some n →
        ¬ ContentEscapeAt ((cs.drop skip).drop (k + n - 1))) →
      ∀ k, ¬ ContentEscapeAt ((replaceContentEscape skip cs).1.drop k) := by
  induction cs with
  | nil =>
    intro skip _ k h
    simp only [replaceContentEscape, List.drop_nil] at h
    exact absurd ((contentEscapeAt_iff _).1 h) (by decide)
  | cons c cs ih =>
    intro skip hno k
    cases skip with
    | succ s =>
      simp only [replaceContentEscape]
      exact ih s (by simpa using hno) k
    | zero =>
      simp only [List.drop_zero] at hno
      cases hm : matchContentEscape (c :: cs) with
      | none =>
        rw [replaceContentEscape_nomatch c cs hm]
        cases k with
        | zero =>
          intro h
          have := contentEscapeAt_replaceContentEscape cs [c] 0 (by simpa using h)
          exact not_contentEscapeAt_of_none _ hm (by simpa using this)
        | succ k =>
          simp only [List.drop_succ_cons]
          apply ih 0 _ k
          intro k' n' h'
          simp only [List.drop_zero] at h' ⊢
          have := hno (k' + 1) n' (by simpa using h')
          have hk : k' + 1 + n' - 1 = (k' + n' - 1) + 1 := by
            obtain ⟨gap, tail, _, _, hn⟩ := (matchContentEscape_iff _ n').1 h'
            omega
          rw [hk] at this
          simpa using this
      | some n =>
        rw [replaceContentEscape_match c cs n hm]
        obtain ⟨gap, tail, hgap, hs, hn⟩ := (matchContentEscape_iff _ n).1 hm
        have hcs : cs.drop (n - 1) = tail := by
          have h1 : (c :: cs).drop n = tail := by
            rw [hs, hn]
            have : contentKey ++ gap ++ '\\' :: '"' :: tail =
                (contentKey ++ gap ++ ['\\', '"']) ++ tail := by simp
            rw [this]
            have hl : (contentKey ++ gap ++ ['\\', '"']).length = 12 + gap.length := by
              simp only [List.length_append, List.length_cons, List.length_nil,
                contentKey_length]
              omega
            rw [← hl, List.drop_left]
          have h2 : n = (n - 1) + 1 := by omega
          rw [h2, List.drop_succ_cons] at h1
          exact h1
        have hclose : (c :: cs).drop (n - 1) = '"' :: tail := by
          rw [hs, hn]
          have : contentKey ++ gap ++ '\\' :: '"' :: tail =
              (contentKey ++ gap ++ ['\\']) ++ '"' :: tail := by simp
          rw [this]
          have hl : (contentKey ++ gap ++ ['\\']).length = 12 + gap.length - 1 := by
            simp only [List.length_append, List.length_cons, List.length_nil,
              contentKey_length]
            omega
          rw [← hl, List.drop_left]
        have hrest : ∀ j, ¬ ContentEscapeAt ((replaceContentEscape (n - 1) cs).1.drop j) := by
          apply ih (n - 1)
          intro k' n' h'
          rw [hcs] at h' ⊢
          have hd : ∀ m, tail.drop m = (c :: cs).drop (n + m) := by
            intro m
            rw [← hcs, List.drop_drop]
            have : n + m = (n - 1 + m) + 1 := by omega
            rw [this, List.drop_succ_cons, Nat.add_comm (n - 1) m]
          rw [hd] at h' ⊢
          have := hno (n + k') n' h'
          have hk : n + k' + n' - 1 = n + (k' + n' - 1) := by
            obtain ⟨_, _, _, _, hn'⟩ := (matchContentEscape_iff _ n').1 h'
            omega
          rw [hk] at this
          exact this
        by_cases hk : k < 12
        · intro h
          have hdrop : ∀ j, j < 12 →
              ((contentKey ++ ' ' :: '"' :: (replaceContentEscape (n - 1) cs).1).drop k)[j]? =
                (contentKey ++ ' ' :: '"' :: (replaceContentEscape (n - 1) cs).1)[k + j]? := by
            intro j _
            rw [List.getElem?_drop]
          obtain ⟨h0, h1⟩ := contentEscapeAt_head _ h
          rcases Nat.eq_zero_or_pos k with hk0 | hkpos
          · rw [hk0, List.drop_zero] at h
            exact not_contentEscapeAt_replacement _ h
          · by_cases hk11 : k = 11
            · -- the occurrence would start at the closing quote of the replacement
              have hd : (contentKey ++ ' ' :: '"' :: (replaceContentEscape (n - 1) cs).1).drop k
                  = '"' :: (replaceContentEscape (n - 1) cs).1 := by
                rw [hk11]
                rfl
              rw [hd] at h
              have h2 := contentEscapeAt_replaceContentEscape cs ['"'] (n - 1) h
              rw [hcs] at h2
              have h3 := hno 0 n (by simpa using hm)
              simp only [Nat.zero_add] at h3
              rw [hclose] at h3
              exact h3 h2
            · have hk10 : k ≤ 10 := by omega
              rw [List.getElem?_drop] at h0 h1
              have e : contentKey ++ ' ' :: '"' :: (replaceContentEscape (n - 1) cs).1 =
                  (contentKey ++ [' ', '"']) ++ (replaceContentEscape (n - 1) cs).1 := by simp
              rw [e, List.getElem?_append_left (by
                simp only [List.length_append, contentKey_length, List.length_cons,
                  List.length_nil]
                omega)] at h0 h1
              exact replacement_inner_positions k hkpos hk10 ⟨by simpa using h0, h1⟩
        · obtain ⟨j, rfl⟩ : ∃ j, k = 12 + j := ⟨k - 12, by omega⟩
          have e : contentKey ++ ' ' :: '"' :: (replaceContentEscape (n - 1) cs).1 =
              (contentKey ++ [' ', '"']) ++ (replaceContentEscape (n - 1) cs).1 := by simp
          have hl : (contentKey ++ [' ', '"']).length = 12 := by decide
          simp only []
          rw [e, ← hl, List.drop_append]
          exact hrest j

end JSONValidator

namespace JSONValidator

theorem hasContentEscape_iff (t : Text) :
    HasContentEscape t ↔ ∃ k, k ≤ t.length ∧ (matchContentEscape (t.drop k)).isSome = true := by
  constructor
  · rintro ⟨pre, s, rfl, hs⟩
    refine ⟨pre.length, by simp, ?_⟩
    rw [List.drop_left]
    exact (contentEscapeAt_iff _).1 hs
  · rintro ⟨k, _, hk⟩
    exact ⟨t.take k, t.drop k, (List.take_append_drop k t).symm, (contentEscapeAt_iff _).2 hk⟩

theorem closing_quote_drop (s gap tail : Text)
    (hs : s = contentKey ++ gap ++ '\\' :: '"' :: tail) :
    s.drop (12 + gap.length - 1) = '"' :: tail := by
  have e : contentKey ++ gap ++ '\\' :: '"' :: tail =
      (contentKey ++ gap ++ ['\\']) ++ '"' :: tail := by simp
  have hl : (contentKey ++ gap ++ ['\\']).length = 12 + gap.length - 1 := by
    simp only [List.length_append, List.length_cons, List.length_nil, contentKey_length]
    omega
  rw [hs, e, ← hl, List.drop_left]

theorem hasOverlappingContentEscape_iff (t : Text) :
    HasOverlappingContentEscape t ↔
      ∃ k, k ≤ t.length ∧ ∃ n, matchContentEscape (t.drop k) = some n ∧
        (matchContentEscape (t.drop (k + n - 1))).isSome = true := by
  constructor
  · rintro ⟨pre, gap, tail, hgap, rfl, hq⟩
    refine ⟨pre.length, by simp, 12 + gap.length, ?_, ?_⟩
    · rw [List.drop_left]
      exact (matchContentEscape_iff _ _).2 ⟨gap, tail, hgap, rfl, rfl⟩
    · have e : pre.length + (12 + gap.length) - 1 = pre.length + (12 + gap.length - 1) := by
        omega
      rw [e, ← List.drop_drop, List.drop_left, closing_quote_drop _ gap tail rfl]
      exact (contentEscapeAt_iff _).1 hq
  · rintro ⟨k, _, n, hm, hq⟩
    obtain ⟨gap, tail, hgap, hs, hn⟩ := (matchContentEscape_iff _ n).1 hm
    refine ⟨t.take k, gap, tail, hgap, ?_, ?_⟩
    · rw [← hs, List.take_append_drop]
    · have e : k + n - 1 = k + (12 + gap.length - 1) := by omega
      rw [e, ← List.drop_drop, closing_quote_drop _ gap tail hs] at hq
      exact (contentEscapeAt_iff _).2 hq

theorem replaceContentEscape_count_pos (cs : Text) :
    ∀ skip : Nat, 0 < (replaceContentEscape skip cs).2 → HasContentEscape (cs.drop skip) := by
  induction cs with
  | nil => intro skip h; simp [replaceContentEscape] at h
  | cons c cs ih =>
    intro skip h
    cases skip with
    | succ s =>
      simp only [replaceContentEscape, List.drop_succ_cons] at h ⊢
      exact ih s h
    | zero =>
      cases hm : matchContentEscape (c :: cs) with
      | some n =>
        exact ⟨[], c :: cs, rfl, (contentEscapeAt_iff _).2 (by rw [hm]; rfl)⟩
      | none =>
        rw [replaceContentEscape_nomatch c cs hm] at h
        obtain ⟨pre, s, hps, hs⟩ := ih 0 h
        exact ⟨c :: pre, s, by simpa using hps, hs⟩

theorem replaceContentEscape_count_zero (cs : Text) :
    ∀ skip : Nat, (replaceContentEscape skip cs).2 = 0 → ¬ HasContentEscape (cs.drop skip) := by
  induction cs with
  | nil =>
    rintro skip _ ⟨pre, s, hps, hs⟩
    simp only [List.drop_nil] at hps
    obtain ⟨_, rfl⟩ := List.append_eq_nil.1 hps.symm
    exact absurd ((contentEscapeAt_iff _).1 hs) (by decide)
  | cons c cs ih =>
    intro skip h
    cases skip with
    | succ s =>
      simp only [replaceContentEscape, List.drop_succ_cons] at h ⊢
      exact ih s h
    | zero =>
      cases hm : matchContentEscape (c :: cs) with
      | some n =>
        rw [replaceContentEscape_match c cs n hm] at h
        simp at h
      | none =>
        rw [replaceContentEscape_nomatch c cs hm] at h
        rintro ⟨pre, s, hps, hs⟩
        cases pre with
        | nil =>
          simp only [List.drop_zero, List.nil_append] at hps
          rw [← hps] at hs
          exact not_contentEscapeAt_of_none _ hm hs
        | cons p pre =>
          simp only [List.drop_zero, List.cons_append, List.cons.injEq] at hps
          exact ih 0 h ⟨pre, s, by simpa using hps.2, hs⟩

/-- C14, counterexample: on the text `"Content":\"Content":\"` the scan rewrites the first
occurrence and resumes after it, so the closing quote of the replacement meets the rest
of the input and the output `"Content": "Content":\"` still holds an occurrence of the
key followed by an escaped quote. -/
theorem C14_counterexample :
    (fixIncorrectContentEscaping new "\"Content\":\\\"Content\":\\\"".toList).1 =
        "\"Content\": \"Content\":\\\"".toList ∧
      HasContentEscape
        (fixIncorrectContentEscaping new "\"Content\":\\\"Content\":\\\"".toList).1 := by
  have h : (fixIncorrectContentEscaping new "\"Content\":\\\"Content\":\\\"".toList).1 =
      "\"Content\": \"Content\":\\\"".toList := by decide
  refine ⟨h, ?_⟩
  rw [h]
  exact (hasContentEscape_iff _).2 ⟨11, by decide, by decide⟩

end JSONValidator


namespace JS

/-! ## C23: attribute quoting outside the text field -/

theorem includes_iff_drop (p t : Text) :
    includes p t = true ↔ ∃ k, startsWith p (t.drop k) = true := by
  induction t with
  | nil =>
    simp only [includes, List.drop_nil, startsWith]
    cases p with
    | nil => simp [List.isPrefixOf]
    | cons a p => simp [List.isPrefixOf]
  | cons c cs ih =>
    simp only [includes, Bool.or_eq_true, ih]
    constructor
    · rintro (h | ⟨k, hk⟩)
      · exact ⟨0, h⟩
      · exact ⟨k + 1, hk⟩
    · rintro ⟨k, hk⟩
      cases k with
      | zero => exact Or.inl hk
      | succ k => exact Or.inr ⟨k, hk⟩

end JS

namespace JSONValidator

/-- An occurrence of `p` at position `k` of `t` gives the characters of `p` at the
positions from `k` on. -/
theorem getElem?_of_startsWith_drop (p t : Text) (k : Nat)
    (h : startsWith p (t.drop k) = true) (j : Nat) (hj : j < p.length) :
    t[k + j]? = p[j]? := by
  obtain ⟨x, hx⟩ := (startsWith_iff_append p _).1 h
  have h1 : (t.drop k)[j]? = (p ++ x)[j]? := by rw [hx]
  rw [List.getElem?_drop, List.getElem?_append_left hj] at h1
  exact h1

theorem replaceAttributes_skip_all (cs : Text) :
    ∀ (prev : Option Char) (skip : Nat), cs.length ≤ skip →
      replaceAttributes prev skip cs = ([], 0) := by
  induction cs with
  | nil => intro prev skip _; cases skip <;> rfl
  | cons c cs ih =>
    intro prev skip h
    cases skip with
    | zero => simp at h
    | succ k =>
      simp only [replaceAttributes]
      exact ih _ k (by simpa using h)

theorem matchAttribute_attribute (w v : Text) (hw : w ≠ [])
    (hword : ∀ c ∈ w, isWordChar c = true) (hv : '"' ∉ v) :
    matchAttribute (w ++ '=' :: '"' :: (v ++ ['"'])) = some (w, v) := by
  have h1 : (w ++ '=' :: '"' :: (v ++ ['"'])).takeWhile isWordChar = w := by
    rw [List.takeWhile_append_of_pos hword]
    simp [List.takeWhile_cons, show isWordChar '=' = false from by decide]
  have h2 : (w ++ '=' :: '"' :: (v ++ ['"'])).dropWhile isWordChar =
      '=' :: '"' :: (v ++ ['"']) := by
    rw [List.dropWhile_append_of_pos hword]
    simp [List.dropWhile_cons, show isWordChar '=' = false from by decide]
  have hv' : ∀ c ∈ v, (c != '"') = true := by
    intro c hc
    simp only [bne_iff_ne, ne_eq]
    rintro rfl
    exact hv hc
  have h3 : (v ++ ['"']).dropWhile (fun c => c != '"') = ['"'] := by
    rw [List.dropWhile_append_of_pos hv']
    simp [List.dropWhile_cons]
  have h4 : (v ++ ['"']).takeWhile (fun c => c != '"') = v := by
    rw [List.takeWhile_append_of_pos hv']
    simp [List.takeWhile_cons]
  simp only [matchAttribute, h1, h2, h3, h4, if_neg hw]

theorem not_includes_contentKey_attribute (w v : Text)
    (hword : ∀ c ∈ w, isWordChar c = true) (hv : '"' ∉ v) :
    includes "\"Content\":".toList (w ++ '=' :: '"' :: (v ++ ['"'])) = false := by
  cases hinc : includes "\"Content\":".toList (w ++ '=' :: '"' :: (v ++ ['"'])) with
  | false => rfl
  | true =>
    exfalso
    obtain ⟨k, hk⟩ := (includes_iff_drop _ _).1 hinc
    have h0 := getElem?_of_startsWith_drop _ _ k hk 0 (by decide)
    have h8 := getElem?_of_startsWith_drop _ _ k hk 8 (by decide)
    have h9 := getElem?_of_startsWith_drop _ _ k hk 9 (by decide)
    have e0 : ("\"Content\":".toList)[0]? = some '"' := by decide
    have e8 : ("\"Content\":".toList)[8]? = some '"' := by decide
    have e9 : ("\"Content\":".toList)[9]? = some ':' := by decide
    rw [e0] at h0
    rw [e8] at h8
    rw [e9] at h9
    simp only [Nat.add_zero] at h0
    -- a quote of the text is at index `w.length + 1` or is the last character
    have hq : ∀ i, (w ++ '=' :: '"' :: (v ++ ['"']))[i]? = some '"' →
        i = w.length + 1 ∨ i = w.length + 2 + v.length := by
      intro i hi
      by_cases h1 : i < w.length
      · rw [List.getElem?_append_left h1] at hi
        have := hword _ (List.getElem?_mem hi)
        exact absurd this (by decide)
      · rw [List.getElem?_append_right (by omega)] at hi
        obtain ⟨j, hj⟩ : ∃ j, i - w.length = j := ⟨_, rfl⟩
        rw [hj] at hi
        match j, hj, hi with
        | 0, _, hi => simp at hi
        | 1, hj, _ => exact Or.inl (by omega)
        | j + 2, hj, hi =>
          simp only [List.getElem?_cons_succ] at hi
          by_cases h2 : j < v.length
          · rw [List.getElem?_append_left h2] at hi
            exact absurd (List.getElem?_mem hi) hv
          · rw [List.getElem?_append_right (by omega)] at hi
            have : j - v.length = 0 := by
              by_contra hne
              obtain ⟨m, hm⟩ : ∃ m, j - v.length = m + 1 := ⟨j - v.length - 1, by omega⟩
              rw [hm] at hi
              simp at hi
            exact Or.inr (by omega)
    have hlen : (w ++ '=' :: '"' :: (v ++ ['"'])).length = w.length + 3 + v.length := by
      simp only [List.length_append, List.length_cons, List.length_nil]
      omega
    have h9lt : k + 9 < w.length + 3 + v.length := by
      rw [← hlen]
      by_contra hge
      rw [List.getElem?_eq_none (by omega)] at h9
      exact Option.noConfusion h9
    rcases hq k h0 with hk0 | hk0
    · rcases hq (k + 8) h8 with hk8 | hk8
      · omega
      · omega
    · omega

/-- C23. Attribute quoting has no field scoping: for every non-empty word `w` of word
characters and every value `v` containing no double quote, the text `w="v"` contains no
`"Content":` marker, and `fixHTMLQuotesInContent` applied to it returns `w=\"v\"` and
appends one Fix record (with the count 1), leaving the Error ledger as it is. -/
theorem C23_attribute_quoting_without_field_scope (self : JSONValidator) (w v : Text)
    (hw : w ≠ []) (hword : ∀ c ∈ w, isWordChar c = true) (hv : '"' ∉ v) :
    includes "\"Content\":".toList (w ++ '=' :: '"' :: (v ++ ['"'])) = false ∧
    fixHTMLQuotesInContent self (w ++ '=' :: '"' :: (v ++ ['"'])) =
      (w ++ '=' :: '\\' :: '"' :: (v ++ ['\\', '"']),
        self.pushFix (FixRecord.htmlAttributes 1)) := by
  refine ⟨not_includes_contentKey_attribute w v hword hv, ?_⟩
  obtain ⟨c, w', rfl⟩ := List.exists_cons_of_ne_nil hw
  have hm := matchAttribute_attribute (c :: w') v hw hword hv
  have hscan : replaceAttributes none 0 (c :: w' ++ '=' :: '"' :: (v ++ ['"'])) =
      (c :: w' ++ '=' :: '\\' :: '"' :: (v ++ ['\\', '"']), 1) := by
    rw [List.cons_append] at hm ⊢
    simp only [replaceAttributes]
    rw [if_neg (by simp), hm]
    simp only []
    rw [replaceAttributes_skip_all _ _ _ (by
      simp only [List.length_append, List.length_cons, List.length_nil]
      omega)]
    simp
  simp only [fixHTMLQuotesInContent, hscan]
  simp

/-- C23: an instance, the attribute `class="x"`. -/
theorem C23_attribute_quoting_without_field_scope_witness :
    includes "\"Content\":".toList "class=\"x\"".toList = false ∧
    fixHTMLQuotesInContent new "class=\"x\"".toList =
      ("class=\\\"x\\\"".toList, new.pushFix (FixRecord.htmlAttributes 1)) :=
  C23_attribute_quoting_without_field_scope new "class".toList "x".toList
    (by decide) (by decide) (by decide)

end JSONValidator

namespace JSONValidator

/-! ## C24: a second application of the known-phrase rewrite -/

theorem phrasePattern_length : phrasePattern.length = 23 := by decide

/-- An occurrence of the phrase at the closing quote of an occurrence is an occurrence of
the two phrases sharing that quote. -/
theorem startsWith_phraseOverlap (x : Text) (h1 : startsWith phrasePattern x = true)
    (h2 : startsWith phrasePattern (x.drop 22) = true) :
    startsWith phraseOverlap x = true := by
  obtain ⟨y, hy⟩ := (startsWith_iff_append _ _).1 h1
  obtain ⟨z, hz⟩ := (startsWith_iff_append _ _).1 h2
  have e : x = phrasePattern.take 22 ++ x.drop 22 := by
    conv_lhs => rw [← List.take_append_drop 22 x]
    rw [hy, List.take_append_of_le_length (by rw [phrasePattern_length]; omega)]
  rw [hz] at e
  rw [e, ← List.append_assoc]
  have : phrasePattern.take 22 ++ phrasePattern = phraseOverlap := by decide
  rw [this]
  exact startsWith_append_self _ _

/-- When the text scanned holds no two occurrences of the phrase sharing a quote, the
output of the scan holds no occurrence of the phrase. -/
theorem replaceLiteral_phrase_clean (cs : Text) :
    ∀ skip : Nat,
      (∀ k, startsWith phraseOverlap ((cs.drop skip).drop k) = false) →
      ∀ k, startsWith phrasePattern
        ((replaceLiteral phrasePattern phraseReplacement skip cs).1.drop k) = false := by
  induction cs with
  | nil =>
    intro skip _ k
    simp only [replaceLiteral, List.drop_nil]
    rfl
  | cons c cs ih =>
    intro skip hno k
    cases skip with
    | succ s =>
      simp only [replaceLiteral]
      exact ih s (by simpa using hno) k
    | zero =>
      simp only [List.drop_zero] at hno
      have hno' : ∀ k, startsWith phraseOverlap ((cs.drop 0).drop k) = false := by
        intro k
        simpa using hno (k + 1)
      cases hout : startsWith phrasePattern
        ((replaceLiteral phrasePattern phraseReplacement 0 (c :: cs)).1.drop k) with
      | false => rfl
      | true =>
        exfalso
        simp only [replaceLiteral] at hout
        split_ifs at hout with hm
        · simp only [] at hout
          obtain ⟨x, hx⟩ := (startsWith_iff_append _ _).1 hm
          have hx22 : cs.drop 22 = x := by
            have h1 : (c :: cs).drop 23 = x := by
              rw [hx, ← phrasePattern_length, List.drop_left]
            simpa using h1
          have hclose : (c :: cs).drop 22 = '"' :: x := by
            rw [hx]
            rfl
          by_cases hk : k < 25
          · by_cases hk24 : k = 24
            · have hd : (phraseReplacement ++
                  (replaceLiteral phrasePattern phraseReplacement (phrasePattern.length - 1)
                    cs).1).drop k =
                  ['"'] ++ (replaceLiteral phrasePattern phraseReplacement
                    (phrasePattern.length - 1) cs).1 := by
                rw [hk24]
                rfl
              rw [hd] at hout
              have h2 := startsWith_phrase_replaceLiteral cs ['"'] _ hout
              rw [phrasePattern_length] at h2
              simp only [Nat.add_one_sub_one, List.singleton_append] at h2
              rw [hx22, ← hclose] at h2
              have h3 := hno 0
              rw [List.drop_zero, startsWith_phraseOverlap _ hm h2] at h3
              exact Bool.noConfusion h3
            · have h0 := getElem?_of_startsWith_drop _ _ k hout 0 (by decide)
              have h22 := getElem?_of_startsWith_drop _ _ k hout 22 (by decide)
              have e0 : phrasePattern[0]? = some '"' := by decide
              have e22 : phrasePattern[22]? = some '"' := by decide
              rw [e0] at h0
              rw [e22] at h22
              simp only [Nat.add_zero] at h0
              rw [List.getElem?_append_left (by rw [phraseReplacement_length]; exact hk)] at h0
              have hk1 : k = 1 := by
                have : ∀ j, j < 25 → phraseReplacement[j]? = some '"' → j = 1 ∨ j = 24 := by
                  decide
                rcases this k hk h0 with h | h
                · exact h
                · exact absurd h hk24
              rw [hk1, List.getElem?_append_left (by rw [phraseReplacement_length]; omega)]
                at h22
              exact absurd h22 (by decide)
          · obtain ⟨j, rfl⟩ : ∃ j, k = phraseReplacement.length + j :=
              ⟨k - 25, by rw [phraseReplacement_length]; omega⟩
            rw [List.drop_append] at hout
            have hrest := ih (phrasePattern.length - 1) (by
              intro k'
              rw [phrasePattern_length]
              simp only [Nat.add_one_sub_one]
              have := hno (22 + k' + 1)
              rw [List.drop_succ_cons] at this
              rw [List.drop_drop]
              exact this) j
            rw [hrest] at hout
            exact Bool.noConfusion hout
        · cases k with
          | zero =>
            have := startsWith_phrase_replaceLiteral cs [c] 0 (by simpa using hout)
            exact hm (by simpa using this)
          | succ k =>
            simp only [List.drop_succ_cons] at hout
            rw [ih 0 hno' k] at hout
            exact Bool.noConfusion hout

end JSONValidator

namespace JSONValidator

/-- A text with its quotes only inside an escaped occurrence of the phrase holds no
occurrence of the phrase. -/
theorem no_phrase_in_escaped (pre post : Text) (hpre : '"' ∉ pre) (hpost : '"' ∉ post) :
    ∀ k, startsWith phrasePattern ((pre ++ phraseReplacement ++ post).drop k) = false := by
  intro k
  cases hout : startsWith phrasePattern ((pre ++ phraseReplacement ++ post).drop k) with
  | false => rfl
  | true =>
    exfalso
    have h0 := getElem?_of_startsWith_drop _ _ k hout 0 (by decide)
    have h22 := getElem?_of_startsWith_drop _ _ k hout 22 (by decide)
    have e0 : phrasePattern[0]? = some '"' := by decide
    have e22 : phrasePattern[22]? = some '"' := by decide
    rw [e0] at h0
    rw [e22] at h22
    simp only [Nat.add_zero] at h0
    have hq : ∀ i, (pre ++ phraseReplacement ++ post)[i]? = some '"' →
        i = pre.length + 1 ∨ i = pre.length + 24 := by
      intro i hi
      rw [List.append_assoc] at hi
      by_cases h1 : i < pre.length
      · rw [List.getElem?_append_left h1] at hi
        exact absurd (List.getElem?_mem hi) hpre
      · rw [List.getElem?_append_right (by omega)] at hi
        by_cases h2 : i - pre.length < 25
        · rw [List.getElem?_append_left (by rw [phraseReplacement_length]; exact h2)] at hi
          have : ∀ j, j < 25 → phraseReplacement[j]? = some '"' → j = 1 ∨ j = 24 := by
            decide
          rcases this _ h2 hi with h | h
          · exact Or.inl (by omega)
          · exact Or.inr (by omega)
        · rw [List.getElem?_append_right (by rw [phraseReplacement_length]; omega)] at hi
          exact absurd (List.getElem?_mem hi) hpost
    rcases hq k h0 with ha | ha <;> rcases hq (k + 22) h22 with hb | hb <;> omega

/-- C24, counterexample. On the text `"don't ask, don't tell"don't ask, don't tell"` the
first application rewrites the first occurrence and passes over the second, whose opening
quote it has consumed; the second application finds that occurrence in the output and
rewrites it, so the two outputs differ. -/
theorem C24_counterexample :
    (fixQuotesInText new "\"don't ask, don't tell\"don't ask, don't tell\"".toList).1 =
      "\\\"don't ask, don't tell\\\"don't ask, don't tell\"".toList ∧
    (fixQuotesInText new
        (fixQuotesInText new "\"don't ask, don't tell\"don't ask, don't tell\"".toList).1).1 =
      "\\\"don't ask, don't tell\\\\\"don't ask, don't tell\\\"".toList ∧
    (fixQuotesInText new
        (fixQuotesInText new "\"don't ask, don't tell\"don't ask, don't tell\"".toList).1).2 =
      { errors := [], fixes := [FixRecord.phrase 1] } := by decide

/-- C24, amended. For every text `t` that holds no two occurrences of the phrase sharing a
quote, applying `fixQuotesInText` to the output of `fixQuotesInText(t)`, with any ledgers,
returns that output unchanged and appends no record; and a text whose only quotes are
those of an occurrence already escaped as `\"don't ask, don't tell\"` is returned
unchanged, with no record appended. -/
theorem C24_known_phrase_fixed_point (self : JSONValidator) (t : Text)
    (hno : includes phraseOverlap t = false) :
    (∀ other : JSONValidator,
      fixQuotesInText other (fixQuotesInText self t).1 = ((fixQuotesInText self t).1, other)) ∧
    (∀ pre post : Text, '"' ∉ pre → '"' ∉ post →
      fixQuotesInText self (pre ++ phraseReplacement ++ post) =
        (pre ++ phraseReplacement ++ post, self)) := by
  have hzero : ∀ (x : Text) (other : JSONValidator),
      (∀ k, startsWith phrasePattern (x.drop k) = false) →
      fixQuotesInText other x = (x, other) := by
    intro x other hx
    have h0 : (replaceLiteral phrasePattern phraseReplacement 0 x).2 = 0 := by
      rw [replaceLiteral_count]
      exact (countNonOverlapping_eq_zero phrasePattern (by decide) x).2 hx
    simp only [fixQuotesInText]
    rw [if_neg (by omega)]
  refine ⟨?_, ?_⟩
  · intro other
    by_cases hpos : (replaceLiteral phrasePattern phraseReplacement 0 t).2 > 0
    · have htext : (fixQuotesInText self t).1 =
          (replaceLiteral phrasePattern phraseReplacement 0 t).1 := by
        simp only [fixQuotesInText]
        rw [if_pos hpos]
      rw [htext]
      apply hzero
      apply replaceLiteral_phrase_clean t 0
      intro k
      cases hk : startsWith phraseOverlap ((t.drop 0).drop k) with
      | false => rfl
      | true =>
        rw [List.drop_zero] at hk
        rw [(includes_iff_drop _ _).2 ⟨k, hk⟩] at hno
        exact Bool.noConfusion hno
    · have htext : (fixQuotesInText self t).1 = t := by
        simp only [fixQuotesInText]
        rw [if_neg hpos]
      rw [htext]
      simp only [fixQuotesInText]
      rw [if_neg hpos]
  · intro pre post hpre hpost
    exact hzero _ self (no_phrase_in_escaped pre post hpre hpost)

/-- C24, amended: an instance, a text with one occurrence of the phrase, and the escaped
occurrence alone. -/
theorem C24_known_phrase_fixed_point_witness :
    includes phraseOverlap "say \"don't ask, don't tell\" twice".toList = false ∧
    fixQuotesInText new (fixQuotesInText new "say \"don't ask, don't tell\" twice".toList).1 =
      ((fixQuotesInText new "say \"don't ask, don't tell\" twice".toList).1, new) ∧
    fixQuotesInText new ([] ++ phraseReplacement ++ []) = ([] ++ phraseReplacement ++ [], new) :=
  ⟨by decide,
    (C24_known_phrase_fixed_point new "say \"don't ask, don't tell\" twice".toList
      (by decide)).1 new,
    (C24_known_phrase_fixed_point new "say \"don't ask, don't tell\" twice".toList
      (by decide)).2 [] [] (by decide) (by decide)⟩

end JSONValidator

namespace JS

/-! ## C25: a second application of the comma inserter -/

theorem dropWhile_append_cons_of_neg (p : Char → Bool) (a : Text) (c : Char) (b : Text)
    (hc : p c = false) : (a ++ c :: b).dropWhile p = a.dropWhile p ++ c :: b := by
  induction a with
  | nil => simp [List.dropWhile_cons, hc]
  | cons x a ih =>
    simp only [List.cons_append, List.dropWhile_cons]
    split_ifs
    · exact ih
    · rfl

theorem trim_body (body : Text) (c : Char) (trail : Text) (hc : isWhiteSpace c = false)
    (ht : ∀ x ∈ trail, isWhiteSpace x = true) :
    trim (body ++ c :: trail) = body.dropWhile isWhiteSpace ++ [c] := by
  simp only [trim]
  rw [dropWhile_append_cons_of_neg _ _ _ _ hc, trimEnd_body _ c trail hc ht]

theorem startsWith_singleton_append (c : Char) (t x : Text) (ht : t ≠ []) :
    startsWith [c] (t ++ x) = startsWith [c] t := by
  cases t with
  | nil => exact absurd rfl ht
  | cons a t => simp [startsWith, List.isPrefixOf]

theorem includes_singleton_append (a b : Char) (s : Text) (hab : a ≠ b) :
    includes [a] (s ++ [b]) = includes [a] s := by
  induction s with
  | nil => simp [includes, List.isPrefixOf, hab]
  | cons c cs ih =>
    have e : includes [a] (c :: (cs ++ [b])) =
        ([a].isPrefixOf (c :: (cs ++ [b])) || includes [a] (cs ++ [b])) := rfl
    rw [List.cons_append, e, ih]
    simp [includes, List.isPrefixOf]

end JS

namespace JSONValidator

/-- Inserting the comma into a line whose trimmed content ends with a closing brace
appends the comma to the trimmed content. -/
theorem trim_insertComma (l : Text) (h : endsWith ['}'] (trim l) = true) :
    trim (insertComma l) = trim l ++ [','] := by
  obtain ⟨body, trail, rfl, ht⟩ := line_of_trim_endsWith '}' l h
  rw [insertComma_body body trail ht, trim_body body '}' trail (by decide) ht]
  have e : body ++ '}' :: ',' :: trail = (body ++ ['}']) ++ ',' :: trail := by simp
  rw [e, trim_body (body ++ ['}']) ',' trail (by decide) ht,
    dropWhile_append_cons_of_neg _ _ _ _ (by decide)]

/-- The inner loop gives the same answer on lines that differ only by inserted commas. -/
theorem nextObjectFound_congr (ls os : List Text)
    (h : List.Forall₂ (fun l o => o = l ∨ (endsWith ['}'] (trim l) = true ∧ o = insertComma l))
      ls os) :
    nextObjectFound os = nextObjectFound ls := by
  induction h with
  | nil => rfl
  | cons hlo _ ih =>
    rcases hlo with rfl | ⟨hend, rfl⟩
    · simp only [nextObjectFound, ih]
    · rename_i l _ _ _
      obtain ⟨b, hb⟩ := (endsWith_singleton '}' _).1 hend
      have hne : trim l ≠ [] := by rw [hb]; simp
      have hne2 : trim l ++ [','] ≠ [] := by simp
      simp only [nextObjectFound, ih, trim_insertComma l hend,
        startsWith_singleton_append _ _ _ hne,
        includes_singleton_append ':' ',' _ (by decide), if_neg hne, if_neg hne2]

/-- The output lines of the loop are the input lines up to inserted commas. -/
theorem fixMissingCommasLoop_lines (ls : List Text) :
    ∀ i : Nat,
      List.Forall₂ (fun l o => o = l ∨ (endsWith ['}'] (trim l) = true ∧ o = insertComma l))
        ls (fixMissingCommasLoop new i ls []).1 := by
  induction ls with
  | nil => intro i; exact List.Forall₂.nil
  | cons l rest ih =>
    intro i
    simp only [fixMissingCommasLoop]
    split_ifs with hc hn
    · rw [fixMissingCommasLoop_frame]
      exact List.Forall₂.cons (Or.inr ⟨hc.1, rfl⟩) (ih (i + 1))
    · rw [fixMissingCommasLoop_frame]
      exact List.Forall₂.cons (Or.inl rfl) (ih (i + 1))
    · rw [fixMissingCommasLoop_frame]
      exact List.Forall₂.cons (Or.inl rfl) (ih (i + 1))

/-- A second run of the loop on the output of a first run changes nothing. -/
theorem fixMissingCommasLoop_idem (ls : List Text) :
    ∀ i j : Nat,
      fixMissingCommasLoop new j (fixMissingCommasLoop new i ls []).1 [] =
        ((fixMissingCommasLoop new i ls []).1, new) := by
  induction ls with
  | nil => intro i j; rfl
  | cons l rest ih =>
    intro i j
    have hnof := nextObjectFound_congr _ _ (fixMissingCommasLoop_lines rest (i + 1))
    have hstep : ∀ o : Text,
        ¬ ((endsWith ['}'] (trim o) = true ∧ ¬ endsWith [','] (trim o) = true ∧
            ¬ endsWith ['}', ','] (trim o) = true) ∧ nextObjectFound rest = true) →
        fixMissingCommasLoop new j (o :: (fixMissingCommasLoop new (i + 1) rest []).1) [] =
          (o :: (fixMissingCommasLoop new (i + 1) rest []).1, new) := by
      intro o ho
      simp only [fixMissingCommasLoop, hnof]
      split_ifs with hc hn
      · exact absurd ⟨hc, hn⟩ ho
      · rw [fixMissingCommasLoop_frame, ih (i + 1) (j + 1)]
        simp [extend, new]
      · rw [fixMissingCommasLoop_frame, ih (i + 1) (j + 1)]
        simp [extend, new]
    have hfst : ∀ (s : JSONValidator) (acc : List Text),
        (fixMissingCommasLoop s (i + 1) rest acc).1 =
          acc ++ (fixMissingCommasLoop new (i + 1) rest []).1 := by
      intro s acc
      rw [fixMissingCommasLoop_frame]
    simp only [fixMissingCommasLoop]
    split_ifs with hc hn
    · rw [hfst]
      simp only [List.nil_append, List.singleton_append]
      apply hstep
      rintro ⟨⟨_, h2, _⟩, _⟩
      apply h2
      rw [trim_insertComma l hc.1]
      exact (endsWith_singleton _ _).2 ⟨_, rfl⟩
    · rw [hfst]
      simp only [List.nil_append, List.singleton_append]
      exact hstep l (fun h => hn h.2)
    · rw [hfst]
      simp only [List.nil_append, List.singleton_append]
      exact hstep l (fun h => hc h.1)

end JSONValidator

namespace JS

/-! ## UTF-8: decoding what was encoded -/

theorem char_toNat_valid (c : Char) :
    c.toNat < 0xD800 ∨ (0xDFFF < c.toNat ∧ c.toNat < 0x110000) := c.valid

theorem utf8DecodeLoop_encodeChar (c : Char) (rest : List Nat) :
    utf8DecodeLoop none (utf8EncodeChar c ++ rest) = c :: utf8DecodeLoop none rest := by
  have hv := char_toNat_valid c
  have hc : Char.ofNat c.toNat = c := Char.ofNat_toNat c
  generalize hn : c.toNat = n at hv hc
  simp only [utf8EncodeChar, hn]
  by_cases h1 : n < 0x80
  · rw [if_pos h1]
    simp only [List.singleton_append, utf8DecodeLoop, utf8Lead]
    rw [if_pos (by omega)]
    rw [hc]
    rfl
  · rw [if_neg h1]
    by_cases h2 : n < 0x800
    · rw [if_pos h2]
      simp only [List.cons_append, List.nil_append, utf8DecodeLoop, utf8Lead]
      rw [if_neg (by omega), if_pos (by omega)]
      simp only []
      rw [if_pos (by omega)]
      simp only [if_true]
      have e : (0xC0 + n / 64 - 0xC0) * 64 + (0x80 + n % 64 - 0x80) = n := by omega
      rw [e, hc]
      rfl
    · rw [if_neg h2]
      by_cases h3 : n < 0x10000
      · rw [if_pos h3]
        simp only [List.cons_append, List.nil_append, utf8DecodeLoop, utf8Lead]
        rw [if_neg (by omega), if_neg (by omega), if_pos (by omega)]
        simp only []
        rw [if_pos (by split_ifs <;> omega)]
        simp only [show ¬ (2 = 1) by decide, if_false, Nat.add_one_sub_one]
        rw [if_pos (by omega)]
        simp only [if_true]
        have e : ((0xE0 + n / 4096 - 0xE0) * 64 + (0x80 + n / 64 % 64 - 0x80)) * 64 +
            (0x80 + n % 64 - 0x80) = n := by omega
        rw [e, hc]
        rfl
      · rw [if_neg h3]
        simp only [List.cons_append, List.nil_append, utf8DecodeLoop, utf8Lead]
        rw [if_neg (by omega), if_neg (by omega), if_neg (by omega), if_pos (by omega)]
        simp only []
        rw [if_pos (by split_ifs <;> omega)]
        simp only [show ¬ (3 = 1) by decide, if_false]
        rw [if_pos (by omega)]
        simp only [show ¬ (3 - 1 = 1) by decide, if_false]
        rw [if_pos (by omega)]
        simp only [show 3 - 1 - 1 = 1 by decide, if_true]
        have e : (((0xF0 + n / 262144 - 0xF0) * 64 + (0x80 + n / 4096 % 64 - 0x80)) * 64 +
            (0x80 + n / 64 % 64 - 0x80)) * 64 + (0x80 + n % 64 - 0x80) = n := by omega
        rw [e, hc]
        rfl

/-- Decoding the bytes of a string gives the string back. -/
theorem utf8Decode_utf8Encode (s : Text) : utf8Decode (utf8Encode s) = s := by
  induction s with
  | nil => rfl
  | cons c cs ih =>
    simp only [utf8Decode] at ih ⊢
    rw [utf8Encode, utf8DecodeLoop_encodeChar, ih]

end JS

namespace JSONValidator

/-! ## C19: the backup -/

theorem backupPath_ne (p : Text) : p ++ ".backup".toList ≠ p := by
  intro h
  have := congrArg List.length h
  simp at this

/-- C19, counterexample. A file holding the bytes of the lines `]` and an opening brace and
then the byte `FF`, which is no UTF-8: the string read has U+FFFD for that byte, the run
removes the bracket line, and the backup written holds the three bytes `EF BF BD` of U+FFFD
where the file had `FF`. -/
theorem C19_counterexample :
    validateAndFix new
        { present := fun q => q == "a.json".toList,
          content := fun q =>
            if q = "a.json".toList then some [0x5D, 0x0A, 0x7B, 0x0A, 0xFF] else none,
          writable := fun _ => true,
          written := [] } "a.json".toList |>.2.1.written =
      [("a.json.backup".toList, [0x5D, 0x0A, 0x7B, 0x0A, 0xEF, 0xBF, 0xBD]),
       ("a.json".toList, [0x7B, 0x0A, 0xEF, 0xBF, 0xBD])] := by decide

/-- C19, amended. Non-destructive backup, over a file system of bytes: for every path `p`
of an existing file with bytes `c` that can be read, when the writes to `p.backup` and to
`p` succeed, `validateAndFix(p)` returns `true` and writes the file `p.backup` if and only
if the output of the transform sequence differs from the string decoded from `c`: in that
case it makes exactly two writes, first the UTF-8 bytes of that string to `p.backup`, then
the bytes of the output to `p`; when the output equals the string decoded it writes nothing
and the file system is as before. The bytes written to `p.backup` are `c` exactly if and
only if `c` is valid UTF-8, that is, the encoding of a string; and then the output differs
from the string decoded if and only if its bytes differ from `c`. -/
theorem C19_backup_written_iff_changed (self : JSONValidator) (fs : FileSystem)
    (p : Text) (c : List Nat)
    (hpresent : fs.present p = true) (hfile : fs.content p = some c)
    (hbackup : fs.writable (p ++ ".backup".toList) = true) (hwrite : fs.writable p = true) :
    (validateAndFix self fs p).1 = some true ∧
    (validateAndFix self fs p).2.2 = (applyFixes self (utf8Decode c)).2 ∧
    (validateAndFix self fs p).2.1.written = fs.written ++
      (if (applyFixes self (utf8Decode c)).1 ≠ utf8Decode c then
        [(p ++ ".backup".toList, utf8Encode (utf8Decode c)),
          (p, utf8Encode (applyFixes self (utf8Decode c)).1)] else []) ∧
    ((applyFixes self (utf8Decode c)).1 ≠ utf8Decode c →
      (validateAndFix self fs p).2.1.content (p ++ ".backup".toList) =
        some (utf8Encode (utf8Decode c)) ∧
      (validateAndFix self fs p).2.1.content p =
        some (utf8Encode (applyFixes self (utf8Decode c)).1)) ∧
    ((applyFixes self (utf8Decode c)).1 = utf8Decode c → (validateAndFix self fs p).2.1 = fs) ∧
    (utf8Encode (utf8Decode c) = c ↔ ∃ s : Text, c = utf8Encode s) ∧
    (∀ s : Text, c = utf8Encode s →
      ((applyFixes self (utf8Decode c)).1 ≠ utf8Decode c ↔
        utf8Encode (applyFixes self (utf8Decode c)).1 ≠ c)) := by
  have hvalid : (utf8Encode (utf8Decode c) = c ↔ ∃ s : Text, c = utf8Encode s) ∧
      ∀ s : Text, c = utf8Encode s →
        ((applyFixes self (utf8Decode c)).1 ≠ utf8Decode c ↔
          utf8Encode (applyFixes self (utf8Decode c)).1 ≠ c) := by
    refine ⟨⟨fun h => ⟨utf8Decode c, h.symm⟩, ?_⟩, ?_⟩
    · rintro ⟨s, hs⟩
      rw [hs, utf8Decode_utf8Encode]
    · intro s hs
      rw [hs, utf8Decode_utf8Encode]
      constructor
      · intro hne heq
        apply hne
        have := congrArg utf8Decode heq
        rwa [utf8Decode_utf8Encode, utf8Decode_utf8Encode] at this
      · intro hne heq
        exact hne (by rw [heq])
  simp only [validateAndFix, hpresent, hfile, not_true_eq_false, if_false]
  generalize utf8Decode c = text at hvalid ⊢
  generalize applyFixes self text = r at hvalid ⊢
  by_cases h : r.1 = text
  · simp only [h, ne_eq, not_true_eq_false, if_false, List.append_nil, true_and,
      not_false_eq_true, false_implies, implies_true]
    refine ⟨hvalid.1, ?_⟩
    intro s hs
    have := hvalid.2 s hs
    rw [h] at this
    simpa using this
  · simp only [ne_eq, h, not_false_eq_true, if_true, FileSystem.writeFileSync, hbackup,
      hwrite, true_and, List.append_assoc, List.singleton_append, false_implies,
      backupPath_ne, if_false, forall_true_left]
    refine ⟨hvalid.1, ?_⟩
    intro s hs
    have := hvalid.2 s hs
    simpa [h] using this

/-- C19, amended: an instance, a file holding the lines `]`, `]` and an opening brace in
valid UTF-8. -/
theorem C19_backup_written_iff_changed_witness :
    (validateAndFix new
        { present := fun q => q == "a.json".toList,
          content := fun q =>
            if q = "a.json".toList then some [0x5D, 0x0A, 0x5D, 0x0A, 0x7B] else none,
          writable := fun _ => true,
          written := [] } "a.json".toList).2.1.written = [] ++
      (if (applyFixes new (utf8Decode [0x5D, 0x0A, 0x5D, 0x0A, 0x7B])).1 ≠
          utf8Decode [0x5D, 0x0A, 0x5D, 0x0A, 0x7B] then
        [("a.json".toList ++ ".backup".toList,
            utf8Encode (utf8Decode [0x5D, 0x0A, 0x5D, 0x0A, 0x7B])),
          ("a.json".toList,
            utf8Encode (applyFixes new (utf8Decode [0x5D, 0x0A, 0x5D, 0x0A, 0x7B])).1)]
        else []) :=
  (C19_backup_written_iff_changed new
    { present := fun q => q == "a.json".toList,
      content := fun q =>
        if q = "a.json".toList then some [0x5D, 0x0A, 0x5D, 0x0A, 0x7B] else none,
      writable := fun _ => true,
      written := [] } "a.json".toList [0x5D, 0x0A, 0x5D, 0x0A, 0x7B]
    (by decide) (by decide) (by decide) (by decide)).2.2.1

end JSONValidator

namespace JSONValidator

theorem replaceContentEscape_skip (cs : Text) :
    ∀ skip : Nat, replaceContentEscape skip cs = replaceContentEscape 0 (cs.drop skip) := by
  induction cs with
  | nil => intro skip; cases skip <;> rfl
  | cons c cs ih =>
    intro skip
    cases skip with
    | zero => rfl
    | succ k =>
      simp only [replaceContentEscape, List.drop_succ_cons]
      exact ih k

theorem contentEscapesRewritten_cons (c : Char) (x o : Text) (n : Nat)
    (hc : ¬ ContentEscapeAt (c :: x)) (h : ContentEscapesRewritten x o n) :
    ContentEscapesRewritten (c :: x) (c :: o) n := by
  cases h with
  | done s hs =>
    apply ContentEscapesRewritten.done
    rintro ⟨pre, t, hpt, ht⟩
    cases pre with
    | nil =>
      rw [List.nil_append] at hpt
      rw [← hpt] at ht
      exact hc ht
    | cons p pre =>
      simp only [List.cons_append, List.cons.injEq] at hpt
      exact hs ⟨pre, t, hpt.2, ht⟩
  | step s gap rest output m hs hgap hrest =>
    have := ContentEscapesRewritten.step (c :: s) gap rest output m (by
      intro k hk
      cases k with
      | zero => simpa using hc
      | succ k =>
        simp only [List.cons_append, List.drop_succ_cons]
        exact hs k (by simpa using hk)) hgap hrest
    simpa using this

/-- The scan rewrites the occurrences it meets and keeps everything else. -/
theorem replaceContentEscape_rewritten (n : Nat) :
    ∀ cs : Text, cs.length ≤ n →
      ContentEscapesRewritten cs (replaceContentEscape 0 cs).1 (replaceContentEscape 0 cs).2 := by
  induction n with
  | zero =>
    intro cs hlen
    have : cs = [] := List.length_eq_zero.1 (by omega)
    rw [this]
    apply ContentEscapesRewritten.done
    intro h
    exact absurd ((hasContentEscape_iff _).1 h) (by simp [matchContentEscape, startsWith])
  | succ n ih =>
    intro cs hlen
    cases cs with
    | nil =>
      apply ContentEscapesRewritten.done
      intro h
      exact absurd ((hasContentEscape_iff _).1 h) (by simp [matchContentEscape, startsWith])
    | cons c cs =>
      cases hm : matchContentEscape (c :: cs) with
      | none =>
        rw [replaceContentEscape_nomatch c cs hm]
        exact contentEscapesRewritten_cons c cs _ _ (not_contentEscapeAt_of_none _ hm)
          (ih cs (by simpa using hlen))
      | some m =>
        rw [replaceContentEscape_match c cs m hm, replaceContentEscape_skip]
        obtain ⟨gap, tail, hgap, hs, hmn⟩ := (matchContentEscape_iff _ m).1 hm
        have htail : cs.drop (m - 1) = tail := by
          have h1 : (c :: cs).drop m = tail := by
            rw [hs, hmn]
            have e : contentKey ++ gap ++ '\\' :: '"' :: tail =
                (contentKey ++ gap ++ ['\\', '"']) ++ tail := by simp
            have hl : (contentKey ++ gap ++ ['\\', '"']).length = 12 + gap.length := by
              simp only [List.length_append, List.length_cons, List.length_nil,
                contentKey_length]
              omega
            rw [e, ← hl, List.drop_left]
          have h2 : m = (m - 1) + 1 := by omega
          rw [h2, List.drop_succ_cons] at h1
          exact h1
        have hlt : tail.length ≤ n := by
          have := congrArg List.length hs
          simp only [List.length_cons, List.length_append] at this hlen
          omega
        rw [htail, hs]
        have := ContentEscapesRewritten.step [] gap tail _ _ (by simp) hgap (ih tail hlt)
        simpa using this

/-- C14, amended. On every input text, `fixIncorrectContentEscaping` returns the text in
which the occurrences of the key `"Content":` followed, after optional white space, by an
escaped quote, met by a scan from left to right that resumes after each of them, are
rewritten to the form `"Content": "` and everything else is kept; it leaves the errors
untouched; when the input holds an occurrence, exactly one aggregate Fix, with the number
of occurrences rewritten, which is positive, is appended, and otherwise text and ledgers
are returned unchanged; and when no occurrence of the input starts at the closing quote of
another one, the output holds no occurrence at all. -/
theorem C14_content_escape_normalisation (self : JSONValidator) (content : Text) :
    (∃ n, ContentEscapesRewritten content (fixIncorrectContentEscaping self content).1 n ∧
      (fixIncorrectContentEscaping self content).2 =
        (if 0 < n then self.pushFix (FixRecord.contentEscaping n) else self)) ∧
    (fixIncorrectContentEscaping self content).2.errors = self.errors ∧
    (HasContentEscape content →
      ∃ n, 0 < n ∧ (fixIncorrectContentEscaping self content).2 =
        self.pushFix (FixRecord.contentEscaping n)) ∧
    (¬ HasContentEscape content → fixIncorrectContentEscaping self content = (content, self)) ∧
    (¬ HasOverlappingContentEscape content →
      ¬ HasContentEscape (fixIncorrectContentEscaping self content).1) := by
  have hpos : HasContentEscape content ↔ 0 < (replaceContentEscape 0 content).2 := by
    constructor
    · intro h
      by_contra h0
      exact replaceContentEscape_count_zero content 0 (by omega) (by simpa using h)
    · intro h
      simpa using replaceContentEscape_count_pos content 0 h
  have hfst : (fixIncorrectContentEscaping self content).1 =
      (replaceContentEscape 0 content).1 := by
    simp only [fixIncorrectContentEscaping]
    split_ifs
    · rfl
    · rfl
  refine ⟨?_, ?_, ?_, ?_, ?_⟩
  · refine ⟨(replaceContentEscape 0 content).2, ?_, ?_⟩
    · rw [hfst]
      exact replaceContentEscape_rewritten content.length content (Nat.le_refl _)
    · simp only [fixIncorrectContentEscaping]
      split_ifs
      · rfl
      · rfl
  · simp only [fixIncorrectContentEscaping]
    split_ifs
    · rfl
    · rfl
  · intro h
    refine ⟨(replaceContentEscape 0 content).2, hpos.1 h, ?_⟩
    simp only [fixIncorrectContentEscaping]
    rw [if_pos (hpos.1 h)]
  · intro h
    have h0 : (replaceContentEscape 0 content).2 = 0 := by
      by_contra hne
      exact h (hpos.2 (by omega))
    simp only [fixIncorrectContentEscaping]
    rw [if_neg (by omega)]
    have := replaceContentEscape_zero content 0 h0
    simp only [List.drop_zero] at this
    rw [this]
  · intro hno hout
    rw [hfst] at hout
    obtain ⟨k, _, hk⟩ := (hasContentEscape_iff _).1 hout
    refine replaceContentEscape_clean content 0 ?_ k ((contentEscapeAt_iff _).2 hk)
    intro k n hm hq
    simp only [List.drop_zero] at hm hq
    apply hno
    have hk : k ≤ content.length := by
      by_contra hgt
      rw [List.drop_eq_nil_of_le (by omega), show matchContentEscape [] = none from rfl] at hm
      exact Option.noConfusion hm
    exact (hasOverlappingContentEscape_iff _).2 ⟨k, hk, n, hm, (contentEscapeAt_iff _).1 hq⟩

/-- C14, witness: on `"Content": \"<p>"` no occurrence starts at the closing quote of
another, and the output `"Content": "<p>"` holds no occurrence. -/
theorem C14_content_escape_normalisation_witness :
    ¬ HasOverlappingContentEscape "\"Content\": \\\"<p>\"".toList ∧
      (fixIncorrectContentEscaping new "\"Content\": \\\"<p>\"".toList).1 =
        "\"Content\": \"<p>\"".toList ∧
      ¬ HasContentEscape (fixIncorrectContentEscaping new "\"Content\": \\\"<p>\"".toList).1 :=
  have hno : ¬ HasOverlappingContentEscape "\"Content\": \\\"<p>\"".toList := by
    rw [hasOverlappingContentEscape_iff]
    rintro ⟨k, hk, n, hm, hq⟩
    have hk17 : k < 18 := Nat.lt_succ_of_le hk
    have hall : ∀ j, j < 18 →
        (match matchContentEscape ("\"Content\": \\\"<p>\"".toList.drop j) with
          | some m => (matchContentEscape ("\"Content\": \\\"<p>\"".toList.drop (j + m - 1))).isSome
          | none => false) = false := by
      decide
    have hj := hall k hk17
    rw [hm] at hj
    simp only [] at hj
    rw [hj] at hq
    exact Bool.noConfusion hq
  ⟨hno, by decide, (C14_content_escape_normalisation new _).2.2.2.2 hno⟩

end JSONValidator

namespace RemoveDuplicates

/-! ## C21, C22: the deduplication scan -/

theorem slugAt_append_length (pre : List Item) (item : Item) (rest : List Item) :
    slugAt (pre ++ item :: rest) pre.length = item.slug := by
  simp only [slugAt]
  rw [List.getElem?_append_right (Nat.le_refl _), Nat.sub_self, List.getElem?_cons_zero]

theorem length_filter_add_length_filter_not {α : Type} (p : α → Bool) (l : List α) :
    (l.filter p).length + (l.filter (fun x => !p x)).length = l.length := by
  induction l with
  | nil => rfl
  | cons a l ih =>
    cases h : p a
    · simp only [List.filter_cons, h, Bool.not_false, if_true, List.length_cons]
      simp only [Bool.false_eq_true, if_false]
      omega
    · simp only [List.filter_cons, h, Bool.not_true, if_true, List.length_cons]
      simp only [Bool.false_eq_true, if_false]
      omega

/-- The scan of the elements `rest` that follow the elements `pre`, when the set holds the
truthy values of `Slug` met in `pre`: the elements kept and the reports are those of the
positional description. -/
theorem forEach_positions (data : List Item) (hscan : ∀ item ∈ data, item.Scannable) :
    ∀ (rest pre : List Item) (st : Scan), data = pre ++ rest →
      (∀ s : JSValue, s ∈ st.seenSlugs ↔
        (s.truthy = true ∧ ∃ j, j < pre.length ∧ slugAt data j = s)) →
      ∃ seen, forEach st pre.length rest = some
        { seenSlugs := seen,
          uniqueItems := st.uniqueItems ++
            ((rest.enumFrom pre.length).filter (fun p => keptAt data p.1)).map (fun p => p.2),
          duplicateItems := st.duplicateItems ++
            ((rest.enumFrom pre.length).filter (fun p => !keptAt data p.1)).map
              (fun p => reportOf p.1 p.2) } := by
  intro rest
  induction rest with
  | nil =>
    intro pre st _ _
    exact ⟨st.seenSlugs, by simp [forEach]⟩
  | cons item rest ih =>
    intro pre st hdata hinv
    have hmem : item ∈ data := by rw [hdata]; simp
    have hslug : slugAt data pre.length = item.slug := by
      rw [hdata]; exact slugAt_append_length pre item rest
    have hdata' : data = (pre ++ [item]) ++ rest := by rw [hdata]; simp
    have hlen : (pre ++ [item]).length = pre.length + 1 := by simp
    have hsc := hscan item hmem
    cases item with
    | null => exact absurd hsc (by simp [Item.Scannable])
    | object ID Slug Title other =>
      simp only [Item.Scannable] at hsc
      obtain ⟨hsome, hid, _⟩ := hsc
      obtain ⟨title, htitle⟩ := Option.isSome_iff_exists.1 hsome
      simp only [Item.slug] at hslug
      by_cases htruthy : Slug.truthy = true
      · by_cases hseen : Slug ∈ st.seenSlugs
        · -- a later occurrence
          have hkept : keptAt data pre.length = false := by
            obtain ⟨_, j, hj, hjs⟩ := (hinv Slug).1 hseen
            simp only [keptAt, hslug, htruthy, Bool.not_true, Bool.false_or,
              decide_eq_false_iff_not, not_forall]
            exact ⟨j, hj, fun h => h hjs⟩
          have hinv' : ∀ s : JSValue, s ∈ st.seenSlugs ↔
              (s.truthy = true ∧ ∃ j, j < (pre ++ [Item.object ID Slug Title other]).length ∧
                slugAt data j = s) := by
            intro s
            rw [hlen, hinv s]
            constructor
            · rintro ⟨h1, j, hj, hjs⟩
              exact ⟨h1, j, by omega, hjs⟩
            · rintro ⟨h1, j, hj, hjs⟩
              by_cases hjn : j = pre.length
              · rw [hjn, hslug] at hjs
                rw [← hjs]
                exact (hinv Slug).1 hseen
              · exact ⟨h1, j, by omega, hjs⟩
          obtain ⟨seen, hrun⟩ := ih (pre ++ [Item.object ID Slug Title other])
            { st with duplicateItems := st.duplicateItems ++
                [{ index := pre.length, id := ID, slug := Slug, title := title }] }
            hdata' hinv'
          refine ⟨seen, ?_⟩
          rw [hlen] at hrun
          simp only [forEach, callback, htruthy, not_true_eq_false, if_false, if_pos hseen,
            htitle]
          rw [hrun]
          simp [List.enumFrom, hkept, reportOf, htitle]
        · -- the earliest occurrence
          have hkept : keptAt data pre.length = true := by
            simp only [keptAt, hslug, htruthy, Bool.not_true, Bool.false_or,
              decide_eq_true_eq]
            intro j hj hjs
            exact hseen ((hinv Slug).2 ⟨htruthy, j, hj, hjs⟩)
          have hinv' : ∀ s : JSValue, s ∈ st.seenSlugs ++ [Slug] ↔
              (s.truthy = true ∧ ∃ j, j < (pre ++ [Item.object ID Slug Title other]).length ∧
                slugAt data j = s) := by
            intro s
            rw [hlen, List.mem_append, hinv s, List.mem_singleton]
            constructor
            · rintro (⟨h1, j, hj, hjs⟩ | rfl)
              · exact ⟨h1, j, by omega, hjs⟩
              · exact ⟨htruthy, pre.length, by omega, hslug⟩
            · rintro ⟨h1, j, hj, hjs⟩
              by_cases hjn : j = pre.length
              · rw [hjn, hslug] at hjs
                exact Or.inr hjs.symm
              · exact Or.inl ⟨h1, j, by omega, hjs⟩
          obtain ⟨seen, hrun⟩ := ih (pre ++ [Item.object ID Slug Title other])
            { st with seenSlugs := st.seenSlugs ++ [Slug],
                      uniqueItems := st.uniqueItems ++ [Item.object ID Slug Title other] }
            hdata' hinv'
          refine ⟨seen, ?_⟩
          rw [hlen] at hrun
          simp only [forEach, callback, htruthy, not_true_eq_false, if_false, if_neg hseen]
          rw [hrun]
          simp [List.enumFrom, hkept]
      · -- no Slug
        have hfalse : Slug.truthy = false := by
          cases h : Slug.truthy
          · rfl
          · exact absurd h htruthy
        have hkept : keptAt data pre.length = true := by
          simp [keptAt, hslug, hfalse]
        have hinv' : ∀ s : JSValue, s ∈ st.seenSlugs ↔
            (s.truthy = true ∧ ∃ j, j < (pre ++ [Item.object ID Slug Title other]).length ∧
              slugAt data j = s) := by
          intro s
          rw [hlen, hinv s]
          constructor
          · rintro ⟨h1, j, hj, hjs⟩
            exact ⟨h1, j, by omega, hjs⟩
          · rintro ⟨h1, j, hj, hjs⟩
            by_cases hjn : j = pre.length
            · rw [hjn, hslug] at hjs
              rw [← hjs, hfalse] at h1
              exact Bool.noConfusion h1
            · exact ⟨h1, j, by omega, hjs⟩
        obtain ⟨seen, hrun⟩ := ih (pre ++ [Item.object ID Slug Title other])
          { st with uniqueItems := st.uniqueItems ++ [Item.object ID Slug Title other] }
          hdata' hinv'
        refine ⟨seen, ?_⟩
        rw [hlen] at hrun
        simp only [forEach, callback, hfalse, Bool.false_eq_true, not_false_eq_true, if_true,
          hid, not_true_eq_false, and_false, if_false]
        rw [hrun]
        simp [List.enumFrom, hkept]

theorem laterOccurrences_convertible (data : List Item)
    (hscan : ∀ item ∈ data, item.Scannable) :
    listingReturns (laterOccurrences data) = true := by
  simp only [listingReturns, laterOccurrences, List.all_eq_true, List.mem_map,
    List.mem_filter, Bool.and_eq_true]
  rintro d ⟨p, ⟨hp, _⟩, rfl⟩
  have hmem := hscan p.2 (List.snd_mem_of_mem_enum hp)
  cases hitem : p.2 with
  | null => rw [hitem] at hmem; exact absurd hmem (by simp [Item.Scannable])
  | object ID Slug Title other =>
    rw [hitem] at hmem
    simp only [Item.Scannable] at hmem
    simp only [reportOf]
    exact ⟨hmem.2.1, hmem.2.2⟩

theorem removeDuplicates_positions (io : FileOperations) (data : List Item)
    (hscan : ∀ item ∈ data, item.Scannable)
    (hcopy : io.copyFileSync = true) (hwrite : io.writeFileSync = true) :
    removeDuplicates io data = some (firstOccurrences data,
      { original := data.length, unique := (firstOccurrences data).length,
        removed := (laterOccurrences data).length,
        duplicates := laterOccurrences data }) := by
  obtain ⟨seen, hrun⟩ := forEach_positions data hscan data []
    { seenSlugs := [], uniqueItems := [], duplicateItems := [] } rfl (by simp)
  simp only [List.length_nil, List.nil_append] at hrun
  have hlist := laterOccurrences_convertible data hscan
  simp only [laterOccurrences, List.enum] at hlist
  simp only [removeDuplicates, hrun, firstOccurrences, laterOccurrences, List.enum, hlist,
    hcopy, hwrite, not_true_eq_false, if_false]

end RemoveDuplicates

namespace RemoveDuplicates

/-- What a call of the callback that returns has done: the element is an object, and it was
pushed to `uniqueItems` for want of a `Slug`, or passed over as a duplicate, or pushed to
`uniqueItems` with its `Slug` added to the set. -/
theorem callback_some (st st1 : Scan) (item : Item) (index : Nat)
    (h : callback st item index = some st1) :
    (item.slug.truthy = false ∧ st1.seenSlugs = st.seenSlugs ∧
      st1.uniqueItems = st.uniqueItems ++ [item]) ∨
    (item.slug.truthy = true ∧ item.slug ∈ st.seenSlugs ∧ st1.seenSlugs = st.seenSlugs ∧
      st1.uniqueItems = st.uniqueItems) ∨
    (item.slug.truthy = true ∧ item.slug ∉ st.seenSlugs ∧
      st1.seenSlugs = st.seenSlugs ++ [item.slug] ∧
      st1.uniqueItems = st.uniqueItems ++ [item]) := by
  cases item with
  | null => simp [callback] at h
  | object ID Slug Title other =>
    simp only [callback] at h
    simp only [Item.slug]
    by_cases htruthy : Slug.truthy = true
    · by_cases hmem : Slug ∈ st.seenSlugs
      · simp only [htruthy, not_true_eq_false, if_false, if_pos hmem] at h
        cases htitle : titleOf Title with
        | none => simp [htitle] at h
        | some title =>
          simp only [htitle, Option.some.injEq] at h
          rw [← h]
          exact Or.inr (Or.inl ⟨htruthy, hmem, rfl, rfl⟩)
      · simp only [htruthy, not_true_eq_false, if_false, if_neg hmem, Option.some.injEq] at h
        rw [← h]
        exact Or.inr (Or.inr ⟨htruthy, hmem, rfl, rfl⟩)
    · have hfalse : Slug.truthy = false := by
        cases hc : Slug.truthy
        · rfl
        · exact absurd hc htruthy
      simp only [hfalse, Bool.false_eq_true, not_false_eq_true, if_true] at h
      split_ifs at h
      simp only [Option.some.injEq] at h
      rw [← h]
      exact Or.inl ⟨hfalse, rfl, rfl⟩

/-- The scan, when it returns: `uniqueItems` grows by a subsequence of the elements
scanned, in which the elements without a truthy `Slug` are all kept, every `Slug` scanned
is carried by some element of `uniqueItems`, and no two elements of `uniqueItems` of which
one has a truthy `Slug` have the same `Slug`. -/
theorem forEach_unique (rest : List Item) :
    ∀ (n : Nat) (st st' : Scan), forEach st n rest = some st' →
      List.Pairwise (fun a b : Item =>
          (a.slug.truthy = true ∨ b.slug.truthy = true) → a.slug ≠ b.slug) st.uniqueItems →
      (∀ u ∈ st.uniqueItems, u.slug.truthy = true → u.slug ∈ st.seenSlugs) →
      (∀ s ∈ st.seenSlugs, ∃ a ∈ st.uniqueItems, a.slug = s) →
      List.Pairwise (fun a b : Item =>
          (a.slug.truthy = true ∨ b.slug.truthy = true) → a.slug ≠ b.slug) st'.uniqueItems ∧
      (∃ kept, List.Sublist kept rest ∧ st'.uniqueItems = st.uniqueItems ++ kept ∧
        kept.filter (fun a => !a.slug.truthy) = rest.filter (fun a => !a.slug.truthy)) ∧
      (∀ item ∈ rest, ∃ a ∈ st'.uniqueItems, a.slug = item.slug) := by
  induction rest with
  | nil =>
    intro n st st' h hpair _ _
    simp only [forEach, Option.some.injEq] at h
    rw [← h]
    exact ⟨hpair, ⟨[], List.Sublist.refl _, by simp, rfl⟩, by simp⟩
  | cons item rest ih =>
    intro n st st' h hpair hseen hcov
    simp only [forEach] at h
    cases hcb : callback st item n with
    | none => simp [hcb] at h
    | some st1 =>
      simp only [hcb] at h
      rcases callback_some st st1 item n hcb with
        ⟨hfalse, hs, hu⟩ | ⟨htruthy, hmem, hs, hu⟩ | ⟨htruthy, hmem, hs, hu⟩
      · -- no Slug: the element is kept
        obtain ⟨hp, ⟨kept, hsub, hk, hfil⟩, hc⟩ := ih (n + 1) st1 st' h
          (by
            rw [hu, List.pairwise_append]
            refine ⟨hpair, List.pairwise_singleton _ _, ?_⟩
            intro a _ b hb hor heq
            rw [List.mem_singleton] at hb
            rw [hb] at hor heq
            rw [heq, hfalse] at hor
            simp at hor)
          (by
            intro u hu' hut
            rw [hu] at hu'
            rw [hs]
            rcases List.mem_append.1 hu' with hu' | hu'
            · exact hseen u hu' hut
            · rw [List.mem_singleton] at hu'
              rw [hu', hfalse] at hut
              exact Bool.noConfusion hut)
          (by
            intro s hsm
            rw [hs] at hsm
            obtain ⟨a, ha, has⟩ := hcov s hsm
            exact ⟨a, by rw [hu]; exact List.mem_append_left _ ha, has⟩)
        refine ⟨hp, ⟨item :: kept, List.Sublist.cons₂ _ hsub, ?_, ?_⟩, ?_⟩
        · rw [hk, hu]; simp
        · simp [List.filter_cons, hfalse, hfil]
        · intro x hx
          rcases List.mem_cons.1 hx with rfl | hx
          · exact ⟨x, by rw [hk, hu]; simp, rfl⟩
          · exact hc x hx
      · -- a duplicate: the element is passed over
        obtain ⟨hp, ⟨kept, hsub, hk, hfil⟩, hc⟩ := ih (n + 1) st1 st' h
          (by rw [hu]; exact hpair)
          (by rw [hu, hs]; exact hseen)
          (by rw [hu, hs]; exact hcov)
        refine ⟨hp, ⟨kept, List.Sublist.cons _ hsub, ?_, ?_⟩, ?_⟩
        · rw [hk, hu]
        · simp [List.filter_cons, htruthy, hfil]
        · intro x hx
          rcases List.mem_cons.1 hx with rfl | hx
          · obtain ⟨a, ha, has⟩ := hcov _ hmem
            exact ⟨a, by rw [hk, hu]; exact List.mem_append_left _ ha, has⟩
          · exact hc x hx
      · -- the earliest occurrence: the element is kept
        obtain ⟨hp, ⟨kept, hsub, hk, hfil⟩, hc⟩ := ih (n + 1) st1 st' h
          (by
            rw [hu, List.pairwise_append]
            refine ⟨hpair, List.pairwise_singleton _ _, ?_⟩
            intro a ha b hb _ heq
            rw [List.mem_singleton] at hb
            rw [hb] at heq
            have hat : a.slug.truthy = true := by rw [heq]; exact htruthy
            exact hmem (heq ▸ hseen a ha hat))
          (by
            intro u hu' hut
            rw [hu] at hu'
            rw [hs]
            rcases List.mem_append.1 hu' with hu' | hu'
            · exact List.mem_append_left _ (hseen u hu' hut)
            · rw [List.mem_singleton] at hu'
              rw [hu']
              exact List.mem_append_right _ (List.mem_singleton.2 rfl))
          (by
            intro s hsm
            rw [hs] at hsm
            rcases List.mem_append.1 hsm with hsm | hsm
            · obtain ⟨a, ha, has⟩ := hcov s hsm
              exact ⟨a, by rw [hu]; exact List.mem_append_left _ ha, has⟩
            · rw [List.mem_singleton] at hsm
              exact ⟨item, by rw [hu]; simp, hsm.symm⟩)
        refine ⟨hp, ⟨item :: kept, List.Sublist.cons₂ _ hsub, ?_, ?_⟩, ?_⟩
        · rw [hk, hu]; simp
        · simp [List.filter_cons, htruthy, hfil]
        · intro x hx
          rcases List.mem_cons.1 hx with rfl | hx
          · exact ⟨x, by rw [hk, hu]; simp, rfl⟩
          · exact hc x hx

/-- C21, counterexample. Two records whose `Slug` is the empty string are both kept in
`uniqueItems`: the scan passes every record with a missing or falsy `Slug` on. -/
theorem C21_counterexample :
    removeDuplicates { copyFileSync := true, writeFileSync := true }
        [Item.object (.number 1) (.string []) (.string "A".toList) [],
         Item.object (.number 2) (.string []) (.string "B".toList) []] =
      some ([Item.object (.number 1) (.string []) (.string "A".toList) [],
             Item.object (.number 2) (.string []) (.string "B".toList) []],
        { original := 2, unique := 2, removed := 0, duplicates := [] }) := by decide

/-- C21, amended. For every input array on which `removeDuplicates` returns, `uniqueItems`
is a subsequence of the input in which no two records of which one has a truthy `Slug`
have the same `Slug`; the records with a missing or falsy `Slug` are all kept, in their
order; and every value of `Slug` in the input is the `Slug` of a record of `uniqueItems`. -/
theorem C21_unique_by_truthy_slug (io : FileOperations) (data : List Item)
    (uniqueItems : List Item) (summary : Summary)
    (h : removeDuplicates io data = some (uniqueItems, summary)) :
    List.Sublist uniqueItems data ∧
    List.Pairwise (fun a b : Item =>
      (a.slug.truthy = true ∨ b.slug.truthy = true) → a.slug ≠ b.slug) uniqueItems ∧
    uniqueItems.filter (fun a => !a.slug.truthy) = data.filter (fun a => !a.slug.truthy) ∧
    ∀ item ∈ data, ∃ a ∈ uniqueItems, a.slug = item.slug := by
  simp only [removeDuplicates] at h
  cases hrun : forEach { seenSlugs := [], uniqueItems := [], duplicateItems := [] } 0 data with
  | none => simp [hrun] at h
  | some st =>
    simp only [hrun] at h
    split_ifs at h
    simp only [Option.some.injEq, Prod.mk.injEq] at h
    obtain ⟨hp, ⟨kept, hsub, hk, hfil⟩, hc⟩ := forEach_unique data 0 _ st hrun
      List.Pairwise.nil (by simp) (by simp)
    simp only [List.nil_append] at hk
    rw [← h.1, hk]
    rw [hk] at hp hc
    exact ⟨hsub, hp, hfil, hc⟩

/-- C21, amended: an instance, four records of which the first and the third have the same
`Slug` and the last two have none. -/
theorem C21_unique_by_truthy_slug_witness :
    List.Sublist
      [Item.object (.number 1) (.string "a".toList) (.string "A".toList) [],
       Item.object (.number 2) (.string "b".toList) .undefined [],
       Item.object (.number 4) (.string []) .undefined [],
       Item.object (.number 5) .undefined .undefined []]
      [Item.object (.number 1) (.string "a".toList) (.string "A".toList) [],
       Item.object (.number 2) (.string "b".toList) .undefined [],
       Item.object (.number 3) (.string "a".toList) (.string "C".toList) [],
       Item.object (.number 4) (.string []) .undefined [],
       Item.object (.number 5) .undefined .undefined []] ∧
    List.Pairwise (fun a b : Item =>
        (a.slug.truthy = true ∨ b.slug.truthy = true) → a.slug ≠ b.slug)
      [Item.object (.number 1) (.string "a".toList) (.string "A".toList) [],
       Item.object (.number 2) (.string "b".toList) .undefined [],
       Item.object (.number 4) (.string []) .undefined [],
       Item.object (.number 5) .undefined .undefined []] :=
  have h := C21_unique_by_truthy_slug { copyFileSync := true, writeFileSync := true }
    [Item.object (.number 1) (.string "a".toList) (.string "A".toList) [],
     Item.object (.number 2) (.string "b".toList) .undefined [],
     Item.object (.number 3) (.string "a".toList) (.string "C".toList) [],
     Item.object (.number 4) (.string []) .undefined [],
     Item.object (.number 5) .undefined .undefined []]
    [Item.object (.number 1) (.string "a".toList) (.string "A".toList) [],
     Item.object (.number 2) (.string "b".toList) .undefined [],
     Item.object (.number 4) (.string []) .undefined [],
     Item.object (.number 5) .undefined .undefined []]
    { original := 5, unique := 4, removed := 1,
      duplicates := [{ index := 2, id := .number 3, slug := .string "a".toList,
                       title := utf16 "C...".toList }] }
    (by decide)
  ⟨h.1, h.2.1⟩

/-- C22, counterexample. A duplicate record whose `Title` is the number 5 makes the scan
throw (a number has no method `substring`), and `removeDuplicates` returns `null`, though
both file operations would succeed: no counts are returned and the record is not
reported. -/
theorem C22_counterexample :
    removeDuplicates { copyFileSync := true, writeFileSync := true }
        [Item.object (.number 1) (.string "a".toList) (.string "A".toList) [],
         Item.object (.number 2) (.string "a".toList) (.number 5) []] = none := by decide

/-- C22, amended. For every input array of which no element is `null`, every `Title` is
falsy or a string and every `ID` and `Slug` can be converted to a string, and when the
copy to the backup file and the write of the output file succeed, `removeDuplicates`
returns; `uniqueItems` is the subsequence of the input made of the elements with a missing
or falsy `Slug` and, for each truthy `Slug`, of the earliest element carrying it; every
other element is reported in `duplicateItems`, with its index, in the order of the input;
and the counts returned are the length of the input, of `uniqueItems` and of
`duplicateItems`, the first being the sum of the other two. -/
theorem C22_first_occurrence_filter (io : FileOperations) (data : List Item)
    (hscan : ∀ item ∈ data, item.Scannable)
    (hcopy : io.copyFileSync = true) (hwrite : io.writeFileSync = true) :
    removeDuplicates io data = some (firstOccurrences data,
      { original := data.length, unique := (firstOccurrences data).length,
        removed := (laterOccurrences data).length,
        duplicates := laterOccurrences data }) ∧
    List.Sublist (firstOccurrences data) data ∧
    data.length = (firstOccurrences data).length + (laterOccurrences data).length := by
  refine ⟨removeDuplicates_positions io data hscan hcopy hwrite, ?_, ?_⟩
  · have h : List.Sublist (firstOccurrences data) (data.enum.map (fun p => p.2)) :=
      List.Sublist.map _ (List.filter_sublist _)
    have e : data.enum.map (fun p => p.2) = data := List.enum_map_snd data
    rw [e] at h
    exact h
  · simp only [firstOccurrences, laterOccurrences, List.length_map]
    rw [length_filter_add_length_filter_not, List.enum_length]

/-- C22, amended: an instance, four records: a first occurrence, a record without `Slug`,
a duplicate of the first and a record with an empty `Slug`. -/
theorem C22_first_occurrence_filter_witness :
    removeDuplicates { copyFileSync := true, writeFileSync := true }
        [Item.object (.number 1) (.string "a".toList) (.string "A".toList) [],
         Item.object (.number 2) .undefined .undefined [],
         Item.object (.number 3) (.string "a".toList) (.string "C".toList) [],
         Item.object (.number 4) (.string []) .null []] =
      some ([Item.object (.number 1) (.string "a".toList) (.string "A".toList) [],
             Item.object (.number 2) .undefined .undefined [],
             Item.object (.number 4) (.string []) .null []],
        { original := 4, unique := 3, removed := 1,
          duplicates := [{ index := 2, id := .number 3, slug := .string "a".toList,
                           title := utf16 "C...".toList }] }) :=
  (C22_first_occurrence_filter { copyFileSync := true, writeFileSync := true }
    [Item.object (.number 1) (.string "a".toList) (.string "A".toList) [],
     Item.object (.number 2) .undefined .undefined [],
     Item.object (.number 3) (.string "a".toList) (.string "C".toList) [],
     Item.object (.number 4) (.string []) .null []] (by decide) rfl rfl).1

end RemoveDuplicates


namespace JSONValidator

/-- The output of `fixMissingCommas` has the lines of the input, up to inserted commas, and
a second application, with any ledgers, returns it unchanged and appends no record. -/
theorem fixMissingCommas_twice (self : JSONValidator) (t : Text) :
    (split (fixMissingCommas self t).1).length = (split t).length ∧
    ∀ other : JSONValidator,
      fixMissingCommas other (fixMissingCommas self t).1 =
        ((fixMissingCommas self t).1, other) := by
  obtain ⟨op, fp, hlen, hnl, _, he⟩ :=
    fixMissingCommasLoop_append (split t) [] (split_no_newline t) 0
  have hout : (fixMissingCommasLoop new 0 (split t) []).1 = op := by
    have h1 := congrArg Prod.fst he
    simpa [fixMissingCommasLoop] using h1
  have hne : op ≠ [] := by
    intro h0
    rw [h0] at hlen
    exact split_ne_nil t (List.length_eq_zero.1 hlen.symm)
  have htext : (fixMissingCommas self t).1 = join op := by
    rw [fixMissingCommas_frame]
    simp only [fixMissingCommas, hout]
  have hsplit : split (join op) = op := split_join op hne hnl
  refine ⟨by rw [htext, hsplit, hlen], ?_⟩
  intro other
  rw [htext, fixMissingCommas_frame]
  simp only [fixMissingCommas, hsplit]
  rw [← hout, fixMissingCommasLoop_idem (split t) 0 0]
  simp [extend, new]

/-- C25. Comma insertion is idempotent and line-preserving: for every text `t`,
`fixMissingCommas(t)` has the same number of lines as `t`, and applying `fixMissingCommas`
to it again, with any ledgers, returns it unchanged and appends no record. -/
theorem C25_comma_insertion_idempotent (self : JSONValidator) (t : Text) :
    (split (fixMissingCommas self t).1).length = (split t).length ∧
    ∀ other : JSONValidator,
      fixMissingCommas other (fixMissingCommas self t).1 =
        ((fixMissingCommas self t).1, other) := by
  refine ⟨?_, ?_⟩
  · exact (fixMissingCommas_twice self t).1
  · intro other
    exact (fixMissingCommas_twice self t).2 other

end JSONValidator

namespace JSONValidator

/-! ## C2: the second run on the output of a run -/

theorem runStages_append (s1 s2 : List (JSONValidator → Text → Text × JSONValidator))
    (self : JSONValidator) (c : Text) :
    runStages (s1 ++ s2) self c =
      runStages s2 (runStages s1 self c).2 (runStages s1 self c).1 := by
  simp only [runStages, List.foldl_append]

theorem pipelineStages_split :
    pipelineStages = firstSixStages ++ [fixMissingCommas, validateJSONStructure] := by
  simp only [firstSixStages, pipelineStages, List.take_succ_cons, List.take_zero,
    List.cons_append, List.nil_append]

theorem runStages_two (S1 S2 : JSONValidator → Text → Text × JSONValidator)
    (self : JSONValidator) (c : Text) :
    runStages [S1, S2] self c = S2 (S1 self c).2 (S1 self c).1 := rfl

theorem validateJSONStructure_fixes (self : JSONValidator) (c : Text) :
    (validateJSONStructure self c).2.fixes = self.fixes := by
  simp only [validateJSONStructure]
  split_ifs <;> rfl

/-- The text a run returns is a text returned by `fixMissingCommas`. -/
theorem applyFixes_text_of_fixMissingCommas (self : JSONValidator) (t : Text) :
    ∃ (s : JSONValidator) (x : Text), (applyFixes self t).1 = (fixMissingCommas s x).1 := by
  refine ⟨(runStages (firstSixStages) self t).2,
    (runStages (firstSixStages) self t).1, ?_⟩
  rw [applyFixes_eq_runStages, pipelineStages_split, runStages_append, runStages_two,
    validateJSONStructure_text]

/-- The six methods that precede the comma inserter, on a text on which they record no Fix
and of which no line enters the broken state: they return the text itself. -/
theorem firstSix_no_fix (c : Text) (hb : ∀ l ∈ split c, ¬ EntersBrokenState l)
    (h : (runStages (firstSixStages) new c).2.fixes = []) :
    (runStages (firstSixStages) new c).1 = c := by
  apply runStages_no_fix c (firstSixStages) _ new h
  intro S hS
  simp only [firstSixStages, pipelineStages, List.take_succ_cons, List.take_zero,
    List.mem_cons, List.mem_singleton, List.not_mem_nil, or_false] at hS
  rcases hS with rfl | rfl | rfl | rfl | rfl | rfl
  · exact ⟨removeUnnecessaryBrackets_frame, removeUnnecessaryBrackets_no_fix c⟩
  · exact ⟨removeJunkLines_frame, removeJunkLines_no_fix c⟩
  · exact ⟨fixIncorrectContentEscaping_frame, fixIncorrectContentEscaping_no_fix c⟩
  · exact ⟨fixBrokenMultilineContent_frame,
      fun _ => by rw [fixBrokenMultilineContent_no_broken c hb]⟩
  · exact ⟨fixQuotesInText_frame, fixQuotesInText_no_fix c⟩
  · exact ⟨fixQuotes_frame, fixQuotes_no_fix c⟩

/-- A run of the loop of `fixBrokenMultilineContent` that records no Fix: every line it
returns is a line it was given, and none of them enters the broken state. -/
theorem fixBrokenMultilineContentLoop_kept (ls : List Text) :
    ∀ (i : Nat) (b : Bool) (buf : Text),
      (fixBrokenMultilineContentLoop new i ls [] b buf).2.fixes = [] →
      ∀ l ∈ (fixBrokenMultilineContentLoop new i ls [] b buf).1,
        l ∈ ls ∧ ¬ EntersBrokenState l := by
  induction ls with
  | nil =>
    intro i b buf _ l hl
    simp [fixBrokenMultilineContentLoop] at hl
  | cons line rest ih =>
    intro i b buf
    simp only [fixBrokenMultilineContentLoop]
    split_ifs with hbr hin htrig
    · intro h l hl
      exact ⟨List.mem_cons_of_mem _ (ih _ _ _ h l hl).1, (ih _ _ _ h l hl).2⟩
    · split
      · rw [fixBrokenMultilineContentLoop_frame]
        intro h
        simp [extend_fixes, pushFix_fixes] at h
      · rw [fixBrokenMultilineContentLoop_frame]
        intro h l hl
        simp only [extend_fixes, new_fixes, List.nil_append] at h
        simp only [List.nil_append, List.singleton_append, List.mem_cons] at hl
        rcases hl with rfl | hl
        · exact ⟨List.mem_cons_self _ _, hbr⟩
        · exact ⟨List.mem_cons_of_mem _ (ih _ _ _ h l hl).1, (ih _ _ _ h l hl).2⟩
    · intro h l hl
      exact ⟨List.mem_cons_of_mem _ (ih _ _ _ h l hl).1, (ih _ _ _ h l hl).2⟩
    · rw [fixBrokenMultilineContentLoop_frame]
      intro h l hl
      simp only [extend_fixes, new_fixes, List.nil_append] at h
      simp only [List.nil_append, List.singleton_append, List.mem_cons] at hl
      rcases hl with rfl | hl
      · exact ⟨List.mem_cons_self _ _, hbr⟩
      · exact ⟨List.mem_cons_of_mem _ (ih _ _ _ h l hl).1, (ih _ _ _ h l hl).2⟩

/-- A text that `fixBrokenMultilineContent` returns as it is, without a Fix, has no line
that enters the broken state. -/
theorem no_broken_of_fixBrokenMultilineContent (c : Text)
    (hfix : (fixBrokenMultilineContent new c).2.fixes = [])
    (htext : (fixBrokenMultilineContent new c).1 = c) :
    ∀ l ∈ split c, ¬ EntersBrokenState l := by
  simp only [fixBrokenMultilineContent] at hfix htext
  have hkept := fixBrokenMultilineContentLoop_kept (split c) 0 false [] hfix
  generalize (fixBrokenMultilineContentLoop new 0 (split c) [] false []).1 = out at hkept htext
  by_cases hout : out = []
  · rw [hout] at htext
    have hc : c = [] := htext.symm
    rw [hc]
    intro l hl
    have : l = [] := by simpa [split] using hl
    rw [this]
    decide
  · have hsplit : split (join out) = out :=
      split_join out hout (fun l hl => split_no_newline c l (hkept l hl).1)
    rw [htext] at hsplit
    intro l hl
    rw [hsplit] at hl
    exact (hkept l hl).2

/-- A text that `fixMissingCommas` returns unchanged: a run returns it unchanged and appends
no Fix record if and only if the six methods that precede the comma inserter record no Fix
on it and none of its lines enters the broken state. -/
theorem second_run_iff (out : Text)
    (hcomma : ∀ other : JSONValidator, fixMissingCommas other out = (out, other)) :
    ((runStages firstSixStages new out).2.fixes = [] ∧
        ∀ l ∈ split out, ¬ EntersBrokenState l) ↔
      ∀ again : JSONValidator,
        (applyFixes again out).1 = out ∧ (applyFixes again out).2.fixes = again.fixes := by
  have hframe6 : ∀ S ∈ firstSixStages, ∀ (self : JSONValidator) (c : Text),
      S self c = ((S new c).1, self.extend (S new c).2) :=
    fun S hS => pipelineStages_frame S (List.mem_of_mem_take hS)
  constructor
  · rintro ⟨hsix, hbroken⟩ again
    have htext := firstSix_no_fix out hbroken hsix
    have hrun : runStages firstSixStages again out =
        (out, again.extend (runStages firstSixStages new out).2) := by
      rw [runStages_frame _ hframe6 again, htext]
    rw [applyFixes_eq_runStages again, pipelineStages_split, runStages_append, hrun,
      runStages_two, hcomma]
    refine ⟨validateJSONStructure_text _ _, ?_⟩
    rw [validateJSONStructure_fixes]
    simp [extend, hsix]
  · intro h
    obtain ⟨h1, h2⟩ := h new
    have hsix : (runStages firstSixStages new out).2.fixes = [] := by
      rw [applyFixes_eq_runStages new, pipelineStages_split, runStages_append] at h2
      obtain ⟨ext, he⟩ := runStages_fixes_grow [fixMissingCommas, validateJSONStructure]
        (by
          intro S hS
          simp only [List.mem_cons, List.mem_singleton, List.not_mem_nil, or_false] at hS
          rcases hS with rfl | rfl
          · exact fixMissingCommas_frame
          · exact validateJSONStructure_frame)
        (runStages firstSixStages new out).2 (runStages firstSixStages new out).1
      rw [he] at h2
      exact (List.append_eq_nil.1 h2).1
    refine ⟨hsix, ?_⟩
    -- the three methods before `fixBrokenMultilineContent` return the text
    have hlist : pipelineStages =
        [removeUnnecessaryBrackets, removeJunkLines, fixIncorrectContentEscaping] ++
          (fixBrokenMultilineContent ::
            [fixQuotesInText, fixQuotes, fixMissingCommas, validateJSONStructure]) := by
      simp only [pipelineStages, List.cons_append, List.nil_append]
    have hframeA : ∀ S ∈ [removeUnnecessaryBrackets, removeJunkLines,
        fixIncorrectContentEscaping], ∀ (self : JSONValidator) (c : Text),
        S self c = ((S new c).1, self.extend (S new c).2) := by
      intro S hS
      apply pipelineStages_frame S
      rw [hlist]
      exact List.mem_append_left _ hS
    have hframeB : ∀ S ∈ [fixQuotesInText, fixQuotes, fixMissingCommas,
        validateJSONStructure], ∀ (self : JSONValidator) (c : Text),
        S self c = ((S new c).1, self.extend (S new c).2) := by
      intro S hS
      apply pipelineStages_frame S
      rw [hlist]
      exact List.mem_append_right _ (List.mem_cons_of_mem _ hS)
    rw [applyFixes_eq_runStages new, hlist, runStages_append, runStages_cons] at h1 h2
    generalize hA : runStages [removeUnnecessaryBrackets, removeJunkLines,
      fixIncorrectContentEscaping] new out = A at h1 h2
    have hAgrow := runStages_fixes_grow
      (fixBrokenMultilineContent ::
        [fixQuotesInText, fixQuotes, fixMissingCommas, validateJSONStructure])
      (by
        intro S hS
        apply pipelineStages_frame S
        rw [hlist]
        exact List.mem_append_right _ hS) A.2 A.1
    obtain ⟨extA, heA⟩ := hAgrow
    rw [runStages_cons, h2] at heA
    have hA0 : A.2.fixes = [] := (List.append_eq_nil.1 heA.symm).1
    have hA1 : A.1 = out := by
      rw [← hA]
      apply runStages_no_fix out _ _ new (by rw [hA]; exact hA0)
      intro S hS
      simp only [List.mem_cons, List.mem_singleton, List.not_mem_nil, or_false] at hS
      rcases hS with rfl | rfl | rfl
      · exact ⟨removeUnnecessaryBrackets_frame, removeUnnecessaryBrackets_no_fix out⟩
      · exact ⟨removeJunkLines_frame, removeJunkLines_no_fix out⟩
      · exact ⟨fixIncorrectContentEscaping_frame, fixIncorrectContentEscaping_no_fix out⟩
    rw [hA1] at h1 h2
    -- `fixBrokenMultilineContent` records no Fix
    have hM : fixBrokenMultilineContent A.2 out =
        ((fixBrokenMultilineContent new out).1,
          A.2.extend (fixBrokenMultilineContent new out).2) :=
      fixBrokenMultilineContent_frame A.2 out
    rw [hM] at h1 h2
    simp only [] at h1 h2
    obtain ⟨extB, heB⟩ := runStages_fixes_grow
      [fixQuotesInText, fixQuotes, fixMissingCommas, validateJSONStructure] hframeB
      (A.2.extend (fixBrokenMultilineContent new out).2) (fixBrokenMultilineContent new out).1
    have hB0 := heB
    rw [h2] at hB0
    have hMfix : (fixBrokenMultilineContent new out).2.fixes = [] := by
      have := (List.append_eq_nil.1 hB0.symm).1
      simp only [extend_fixes, List.append_eq_nil] at this
      exact this.2
    -- the four methods after it return the text they are given
    have hBtext := runStages_no_fix (fixBrokenMultilineContent new out).1
      [fixQuotesInText, fixQuotes, fixMissingCommas, validateJSONStructure]
      (by
        intro S hS
        simp only [List.mem_cons, List.mem_singleton, List.not_mem_nil, or_false] at hS
        rcases hS with rfl | rfl | rfl | rfl
        · exact ⟨fixQuotesInText_frame, fixQuotesInText_no_fix _⟩
        · exact ⟨fixQuotes_frame, fixQuotes_no_fix _⟩
        · exact ⟨fixMissingCommas_frame, fixMissingCommas_no_fix _⟩
        · exact ⟨validateJSONStructure_frame, fun _ => validateJSONStructure_text new _⟩)
      (A.2.extend (fixBrokenMultilineContent new out).2)
      (by
        rw [h2]
        simp [extend_fixes, hA0, hMfix, new_fixes])
    rw [h1] at hBtext
    exact no_broken_of_fixBrokenMultilineContent out hMfix hBtext.symm

/-- C2, amended. For every input text `t`, with `out` the text the transform sequence of
`validateAndFix` produces on it: running the sequence on `out` (on any ledgers) returns
`out` again and appends no Fix record if and only if none of the six methods that precede
the comma inserter records a Fix on `out` and no line of `out` enters the broken state of
`fixBrokenMultilineContent`. The comma inserter and the structure check never change the
output of a run. -/
theorem C2_second_run_fixed_point (self : JSONValidator) (t : Text) :
    ((runStages firstSixStages new (applyFixes self t).1).2.fixes = [] ∧
        ∀ l ∈ split (applyFixes self t).1, ¬ EntersBrokenState l) ↔
      ∀ again : JSONValidator,
        (applyFixes again (applyFixes self t).1).1 = (applyFixes self t).1 ∧
        (applyFixes again (applyFixes self t).1).2.fixes = again.fixes := by
  obtain ⟨s, x, hout⟩ := applyFixes_text_of_fixMissingCommas self t
  apply second_run_iff
  intro other
  rw [hout]
  exact (fixMissingCommas_twice s x).2 other

/-- C2, amended: an instance, the text of the end-to-end scenario, on which the first run
inserts a comma and the second run changes nothing. -/
theorem C2_second_run_fixed_point_witness :
    (applyFixes new "[\n  \x7b\"ID\": 1\x7d\n  \x7b\"ID\": 2\x7d\n]".toList).1 =
      "[\n  \x7b\"ID\": 1\x7d,\n  \x7b\"ID\": 2\x7d\n]".toList ∧
    (applyFixes new "[\n  \x7b\"ID\": 1\x7d\n  \x7b\"ID\": 2\x7d\n]".toList).2.fixes =
      [FixRecord.commaAdded 2] ∧
    (applyFixes new
        (applyFixes new "[\n  \x7b\"ID\": 1\x7d\n  \x7b\"ID\": 2\x7d\n]".toList).1).1 =
      (applyFixes new "[\n  \x7b\"ID\": 1\x7d\n  \x7b\"ID\": 2\x7d\n]".toList).1 ∧
    (applyFixes new
        (applyFixes new "[\n  \x7b\"ID\": 1\x7d\n  \x7b\"ID\": 2\x7d\n]".toList).1).2.fixes =
      new.fixes :=
  ⟨by decide, by decide,
    (C2_second_run_fixed_point new "[\n  \x7b\"ID\": 1\x7d\n  \x7b\"ID\": 2\x7d\n]".toList).1
      ⟨by decide, by decide⟩ new⟩

end JSONValidator
